import Mathlib

/-!
# Medusa core analyzer (`src/core/analyzer.cpp`)

A shallow embedding of the analyzer: the architecture registry, the basic-block
disassembler, the cross-reference builder, the function delimiter / CFG builder and
the execution-path driver, followed by the theorems settled about them.

The analyzer's own member functions are translated from `analyzer.cpp`.  The
collaborators whose code lives in other files of the repository (`Document`,
`MemoryArea`, `Instruction`, `Label`, `ControlFlowGraph`, ...) are modelled from the
specification; each such definition says so in its doc comment.
-/

namespace Medusa

/-! ## Data model -/

/-- An architecture tag (`Tag`). -/
abbrev Tag := Nat

/-- Modelled from the spec: `MEDUSA_ARCH_UNK`, the *unknown* tag; the macro is defined in a
header that is not part of the sources, only its role as "no tag" is used. -/
def MEDUSA_ARCH_UNK : Tag := 0

/-- Text (`std::string`) is kept as a list of characters. -/
abbrev Str := List Char

/-- Modelled from the spec: an `Address` is a virtual address `base:offset`. -/
structure Address where
  base : Nat
  offset : Nat
  deriving DecidableEq, Repr

/-- Modelled from the spec: `Address::operator+`, advancing the offset. -/
def Address.add (a : Address) (n : Nat) : Address := ⟨a.base, a.offset + n⟩

instance : HAdd Address Nat Address := ⟨Address.add⟩

/-- Modelled from the spec: `Address::operator<`, addresses ordered by base, then offset. -/
def Address.lt (a b : Address) : Bool :=
  decide (a.base < b.base) || (decide (a.base = b.base) && decide (a.offset < b.offset))

/-- Decimal digits of a number, most significant first (`fuel` bounds the digit count). -/
def digitsAux : Nat → Nat → Str → Str
  | 0, _, acc => acc
  | fuel + 1, n, acc =>
    if n < 10 then Char.ofNat (48 + n) :: acc
    else digitsAux fuel (n / 10) (Char.ofNat (48 + n % 10) :: acc)

/-- Printed form of a number. -/
def natText (n : Nat) : Str := digitsAux (n + 1) n []

/-- Modelled from the spec: `Address::ToString`, "printable as `base:offset`". -/
def Address.ToString (a : Address) : Str := natText a.base ++ ':' :: natText a.offset

/-- Bits of `Instruction::OperationType`. Modelled from the spec: the enumeration is declared in
a header that is not part of the sources; `OpUnknown` is the empty mask and the others are
distinct bits. -/
def OpUnknown : Nat := 0
/-- Operation type bit: jump. -/
def OpJump : Nat := 1
/-- Operation type bit: call. -/
def OpCall : Nat := 2
/-- Operation type bit: return. -/
def OpRet : Nat := 4
/-- Operation type bit: conditional. -/
def OpCond : Nat := 8

/-- Modelled from the spec: `O_MEM`, the operand type bit of a memory-indirect operand. -/
def O_MEM : Nat := 1

/-- Modelled from the spec: `OPERAND_NO`, the constant number of operand slots. -/
def OPERAND_NO : Nat := 4

/-- Modelled from the spec: `MA_EXEC`, the access bit of an executable memory area. -/
def MA_EXEC : Nat := 4

/-- Modelled from the spec: one operand of an instruction. `reference` is
`GetOperandReference` (the effective target, if statically known, as a function of the
address of the instruction), `address` is `GetOperandAddress`, `referenceLength` is
`GetOperandReferenceLength`. -/
structure Operand where
  type : Nat
  reference : Address → Option Address
  address : Address → Option Address
  referenceLength : Nat

/-- An operand slot that refers to nothing. -/
def Operand.none : Operand := ⟨0, fun _ => Option.none, fun _ => Option.none, 0⟩

/-- Modelled from the spec: a decoded `Instruction`. -/
structure Instruction where
  archTag : Tag
  name : Str
  opType : Nat
  length : Nat
  operands : List Operand

/-- The operand in slot `i` (`Instruction::Operand(i)`). -/
def Instruction.Operand (insn : Instruction) (i : Nat) : Operand :=
  insn.operands.getD i Operand.none

/-- The effective target of operand `i` of the instruction at `cur`
(`Instruction::GetOperandReference`). -/
def Instruction.GetOperandReference (insn : Instruction) (i : Nat) (cur : Address) :
    Option Address :=
  (insn.Operand i).reference cur

/-- The address of the encoding of operand `i` (`Instruction::GetOperandAddress`). -/
def Instruction.GetOperandAddress (insn : Instruction) (i : Nat) (cur : Address) :
    Option Address :=
  (insn.Operand i).address cur

/-- Width of the datum operand `i` refers to (`Instruction::GetOperandReferenceLength`). -/
def Instruction.GetOperandReferenceLength (insn : Instruction) (i : Nat) : Nat :=
  (insn.Operand i).referenceLength

/-- Modelled from the spec: an architecture back-end. `Disassemble` decodes one instruction
from a byte stream at a physical offset and may fail. -/
structure Architecture where
  tag : Tag
  id : Nat
  basicBlockOnly : Bool
  Disassemble : List Nat → Nat → Option Instruction

/-- The tag of a back-end (`Architecture::GetTag`). -/
def Architecture.GetTag (a : Architecture) : Tag := a.tag

/-- Records the numeric id allotted to a back-end (`Architecture::UpdateId`). -/
def Architecture.UpdateId (a : Architecture) (i : Nat) : Architecture := { a with id := i }

/-- Whether the back-end decodes basic blocks only (`DisassembleBasicBlockOnly`). -/
def Architecture.DisassembleBasicBlockOnly (a : Architecture) : Bool := a.basicBlockOnly

/-- The members of `Analyzer` used by the functions below. -/
structure Analyzer where
  m_ArchIdPool : Nat
  m_UsedArchitectures : Tag → Option Architecture
  m_DefaultArchitectureTag : Tag
  m_LabelPrefix : Str
  m_DataPrefix : Str
  m_StringPrefix : Str
  m_FunctionPrefix : Str

/-! ## Architecture registry -/

/-- The search of `RegisterArchitecture`: `for (u8 i = ..; i < 32; ++i) if (!(pool & (1 << i)))`,
started at `i` with `n` iterations left; returns the first `i` whose bit is clear. -/
def RegisterArchitecture.findId (pool : Nat) : Nat → Nat → Option Nat
  | _, 0 => none
  | i, n + 1 =>
    if pool &&& (1 <<< i) = 0 then some i else RegisterArchitecture.findId pool (i + 1) n

/-- `Analyzer::RegisterArchitecture`: the result and the analyzer afterwards. The shared
architecture object is the one stored in the map, with its id updated. -/
def RegisterArchitecture (an : Analyzer) (spArch : Architecture) : Bool × Analyzer :=
  match RegisterArchitecture.findId an.m_ArchIdPool 0 32 with
  | none => (false, an)
  | some Id =>
    let arch := spArch.UpdateId Id
    (true,
      { an with
        m_ArchIdPool := (an.m_ArchIdPool ||| (1 <<< Id)) % 2 ^ 32
        m_UsedArchitectures := fun t =>
          if t = arch.GetTag then some arch else an.m_UsedArchitectures t
        m_DefaultArchitectureTag :=
          if an.m_DefaultArchitectureTag = MEDUSA_ARCH_UNK then arch.GetTag
          else an.m_DefaultArchitectureTag })

/-- `Analyzer::UnregisterArchitecture`: not implemented. -/
def UnregisterArchitecture (_an : Analyzer) (_spArch : Architecture) : Bool := false

/-- `Analyzer::ResetArchitecture`. -/
def ResetArchitecture (an : Analyzer) : Analyzer :=
  { an with
    m_UsedArchitectures := fun _ => none
    m_DefaultArchitectureTag := MEDUSA_ARCH_UNK }

/-- `Analyzer::GetArchitecture`. -/
def GetArchitecture (an : Analyzer) (ArchTag : Tag) : Option Architecture :=
  let ArchTag := if ArchTag = MEDUSA_ARCH_UNK then an.m_DefaultArchitectureTag else ArchTag
  an.m_UsedArchitectures ArchTag

/-- A call made on the registry. -/
inductive RegistryCall where
  | register (spArch : Architecture)
  | reset

/-- Runs a sequence of registry calls; returns the analyzer afterwards and, in call order, what
each `RegisterArchitecture` call handed out (`some id`) or that it failed (`none`). -/
def runRegistry : Analyzer → List RegistryCall → Analyzer × List (Option Nat)
  | an, [] => (an, [])
  | an, RegistryCall.register a :: rest =>
    let r := RegisterArchitecture an a
    let out := runRegistry r.2 rest
    (out.1, (if r.1 then (r.2.m_UsedArchitectures a.GetTag).map (fun x => x.id) else none) :: out.2)
  | an, RegistryCall.reset :: rest => runRegistry (ResetArchitecture an) rest

/-- Registers the architectures of a list one after the other; `none` as soon as one
registration fails. -/
def registerAll : Analyzer → List Architecture → Option Analyzer
  | an, [] => some an
  | an, a :: rest =>
    let r := RegisterArchitecture an a
    if r.1 then registerAll r.2 rest else none

/-- Modelled from the spec: the analyzer as first constructed (the constructor is not part of
the sources): empty id pool, no architecture, default tag unknown, the default prefixes. -/
def Analyzer.initial : Analyzer :=
  { m_ArchIdPool := 0
    m_UsedArchitectures := fun _ => none
    m_DefaultArchitectureTag := MEDUSA_ARCH_UNK
    m_LabelPrefix := "lbl_".toList
    m_DataPrefix := "dat_".toList
    m_StringPrefix := "str_".toList
    m_FunctionPrefix := "fcn_".toList }

/-! ## The Document and its collaborators -/

/-- Kinds of `Label`. Modelled from the spec: "Kind bitmask: Code | Data | String | Imported |
Local | Global | Unknown"; the enumeration is declared in a header that is not part of the
sources, `Unknown` is the empty mask and the others are distinct bits. -/
def Label.Unknown : Nat := 0
/-- Label kind bit: code. -/
def Label.Code : Nat := 1
/-- Label kind bit: data. -/
def Label.Data : Nat := 2
/-- Label kind bit: string. -/
def Label.String : Nat := 4
/-- Label kind bit: imported. -/
def Label.Imported : Nat := 8
/-- Label kind bit: local. -/
def Label.Local : Nat := 16
/-- Label kind bit: global. -/
def Label.Global : Nat := 32

/-- Modelled from the spec: a `Label` is a name and a kind. -/
structure Label where
  name : Str
  type : Nat

/-- The name of a label (`Label::GetName`). -/
def Label.GetName (l : Label) : Str := l.name
/-- The text a label is shown with (`Label::GetLabel`). -/
def Label.GetLabel (l : Label) : Str := l.name
/-- The kind of a label (`Label::GetType`). -/
def Label.GetType (l : Label) : Nat := l.type

/-- Modelled from the spec: a `MemoryArea` is a contiguous virtual range with access bits and
a backing byte stream. -/
structure MemoryArea where
  virtualBase : Address
  size : Nat
  access : Nat
  stream : List Nat

/-- Whether the area contains the address (`MemoryArea::IsPresent`). -/
def MemoryArea.IsPresent (m : MemoryArea) (a : Address) : Bool :=
  decide (a.base = m.virtualBase.base) && decide (m.virtualBase.offset ≤ a.offset) &&
    decide (a.offset < m.virtualBase.offset + m.size)

/-- The access bits of the area (`MemoryArea::GetAccess`). -/
def MemoryArea.GetAccess (m : MemoryArea) : Nat := m.access
/-- The first address of the area (`MemoryArea::GetVirtualBase`). -/
def MemoryArea.GetVirtualBase (m : MemoryArea) : Address := m.virtualBase
/-- The bytes behind the area (`MemoryArea::GetBinaryStream`). -/
def MemoryArea.GetBinaryStream (m : MemoryArea) : List Nat := m.stream

/-- Modelled from the spec: a `Cell` is a raw value of some width, an instruction, or a
string; it occupies `GetLength` consecutive addresses. -/
inductive Cell where
  | value (width : Nat)
  | instruction (insn : Instruction)
  | string (kind : Nat) (text : Str) (byteLen : Nat)

/-- The number of addresses a cell occupies (`Cell::GetLength`). -/
def Cell.GetLength : Cell → Nat
  | Cell.value w => w
  | Cell.instruction insn => insn.length
  | Cell.string _ _ n => n

/-- Whether the cell is an instruction (`GetType() == CellData::InstructionType`). -/
def Cell.isInstruction : Cell → Bool
  | Cell.instruction _ => true
  | _ => false

/-- Whether the cell is a raw value (`GetType() == CellData::ValueType`). -/
def Cell.isValue : Cell → Bool
  | Cell.value _ => true
  | _ => false

/-- The type of a CFG edge (`BasicBlockEdgeProperties::Type`). -/
inductive EdgeType where
  | Unknown
  | Unconditional
  | True
  | False
  deriving DecidableEq, Repr

/-- Modelled from the spec: a `ControlFlowGraph` has basic blocks (ordered address lists) as
vertices and typed edges `(source, destination, type)`. -/
structure ControlFlowGraph where
  vertices : List (List Address)
  edges : List (Address × Address × EdgeType)

/-- Modelled from the spec: the `Function` multicell `{byte_length, insn_count, cfg}`. -/
structure Function where
  size : Nat
  insnCount : Nat
  cfg : ControlFlowGraph

/-- Modelled from the spec: the `Document`. It owns the memory areas, the cells (keyed by
their first address; an address of a memory area that no stored cell starts at or covers holds
a raw byte, `Value(1)`), the multicells, the labels and the cross-references
`(destination, source)`. -/
structure Document where
  areas : List MemoryArea
  cells : List (Address × Cell)
  multicells : List (Address × Function)
  labels : List (Address × Label)
  xrefs : List (Address × Address)

/-- Modelled from the spec: `Document::GetMemoryArea`, the area that owns the address. -/
def Document.GetMemoryArea (doc : Document) (a : Address) : Option MemoryArea :=
  doc.areas.find? (fun m => m.IsPresent a)

/-- Modelled from the spec: `Document::IsPresent`, whether some area owns the address. -/
def Document.IsPresent (doc : Document) (a : Address) : Bool :=
  doc.areas.any (fun m => m.IsPresent a)

/-- Whether the cell stored at `b` covers the address `a` without starting at it. -/
def coversInside (b : Address) (c : Cell) (a : Address) : Bool :=
  decide (b.base = a.base) && decide (b.offset < a.offset) &&
    decide (a.offset < b.offset + c.GetLength)

/-- Modelled from the spec: `Document::RetrieveCell`. The cell that starts at the address;
nothing if the address is not mapped or lies inside a longer cell; a raw byte otherwise. -/
def Document.RetrieveCell (doc : Document) (a : Address) : Option Cell :=
  if doc.IsPresent a then
    match doc.cells.find? (fun p => decide (p.1 = a)) with
    | some p => some p.2
    | none => if doc.cells.any (fun p => coversInside p.1 p.2 a) then none else some (Cell.value 1)
  else none

/-- Modelled from the spec: `Document::ContainsCode`, whether the cell at the address is an
instruction. -/
def Document.ContainsCode (doc : Document) (a : Address) : Bool :=
  match doc.RetrieveCell a with
  | some c => c.isInstruction
  | none => false

/-- Whether the ranges `[a, a+la)` and `[b, b+lb)` can share an address. -/
def rangesMeet (a : Address) (la : Nat) (b : Address) (lb : Nat) : Bool :=
  decide (a.base = b.base) && decide (a.offset < b.offset + lb) &&
    decide (b.offset < a.offset + la)

/-- Modelled from the spec: `Document::InsertCell` with overwriting. Fails when the address is
not mapped; otherwise the new cell replaces the cell at the address and every cell whose range
it would share an address with ("no two cells overlap"). -/
def Document.InsertCell (doc : Document) (a : Address) (c : Cell) : Bool × Document :=
  if doc.IsPresent a then
    (true, { doc with
      cells := (a, c) :: doc.cells.filter
        (fun p => !(decide (p.1 = a) || rangesMeet p.1 p.2.GetLength a c.GetLength)) })
  else (false, doc)

/-- Modelled from the spec: `Document::ChangeValueSize` without forcing, "re-size the value
cell at target". Nothing happens when the size is 0, when the cell at the address is not a raw
value, or when the re-sized value would share an address with a stored cell that is not a raw
value. -/
def Document.ChangeValueSize (doc : Document) (a : Address) (size : Nat) : Document :=
  if size = 0 then doc else
  match doc.RetrieveCell a with
  | some (Cell.value _) =>
    if doc.cells.any (fun p => !p.2.isValue && rangesMeet p.1 p.2.GetLength a size) then doc
    else (doc.InsertCell a (Cell.value size)).2
  | _ => doc

/-- Modelled from the spec: `Document::RetrieveMultiCell`. -/
def Document.RetrieveMultiCell (doc : Document) (a : Address) : Option Function :=
  (doc.multicells.find? (fun p => decide (p.1 = a))).map (fun p => p.2)

/-- Modelled from the spec: `Document::InsertMultiCell`; without `Force` an existing
multicell at the address is kept. -/
def Document.InsertMultiCell (doc : Document) (a : Address) (f : Function) (Force : Bool) :
    Bool × Document :=
  if !Force && (doc.RetrieveMultiCell a).isSome then (false, doc)
  else (true, { doc with
    multicells := (a, f) :: doc.multicells.filter (fun p => !decide (p.1 = a)) })

/-- Modelled from the spec: `Document::GetLabelFromAddress`; a label of unknown kind with an
empty name when the address has none. -/
def Document.GetLabelFromAddress (doc : Document) (a : Address) : Label :=
  match doc.labels.find? (fun p => decide (p.1 = a)) with
  | some p => p.2
  | none => ⟨[], Label.Unknown⟩

/-- Modelled from the spec: `Document::AddLabel`. The labels are a bijection between addresses
and names: without `Force` nothing is added when the address already has a label or the name
is already in use; with `Force` the new label replaces both. -/
def Document.AddLabel (doc : Document) (a : Address) (l : Label) (Force : Bool) : Document :=
  if !Force && doc.labels.any (fun p => decide (p.1 = a) || decide (p.2.name = l.name)) then doc
  else { doc with
    labels := (a, l) :: doc.labels.filter
      (fun p => !(decide (p.1 = a) || decide (p.2.name = l.name))) }

/-- Modelled from the spec: `XRefs::AddXRef(destination, source)`. -/
def Document.AddXRef (doc : Document) (dst src : Address) : Document :=
  { doc with xrefs := doc.xrefs ++ [(dst, src)] }

/-- `Analyzer::GetCell`. -/
def GetCell (doc : Document) (rAddr : Address) : Option Cell := doc.RetrieveCell rAddr

/-- `Analyzer::GetMultiCell`. -/
def GetMultiCell (doc : Document) (rAddr : Address) : Option Function :=
  doc.RetrieveMultiCell rAddr

/-! ## Basic-block disassembler -/

/-- Why the decoding loop of `DisassembleBasicBlock` was left: one value for each `goto exit`
and one for the loop condition becoming false. -/
inductive ExitReason where
  | noMemoryArea
  | notExecutable
  | noCell
  | notRawByte
  | decoderFailed
  | containsCode
  | terminator
  | notPresent
  deriving DecidableEq, Repr

/-- Whether an operation type contains `OpJump`, `OpCall` or `OpRet` (lines 687-690). -/
def isTerminator (OpType : Nat) : Bool :=
  decide (OpType &&& OpJump ≠ 0) || decide (OpType &&& OpCall ≠ 0) ||
    decide (OpType &&& OpRet ≠ 0)

/-- The loop `for (InsnLen = 0; InsnLen < len; ++InsnLen) if (rDoc.ContainsCode(CurAddr + InsnLen))`
of lines 677-682. -/
def codeInRange (doc : Document) (CurAddr : Address) (len : Nat) : Bool :=
  (List.range len).any (fun InsnLen => doc.ContainsCode (CurAddr + InsnLen))

/-- The `while (rDoc.IsPresent(CurAddr))` loop of `DisassembleBasicBlock` (lines 634-697), up
to the label `exit`: the reason the loop was left, `Res` and the list at that point. `none`
when the iteration budget is used up. -/
def DisassembleBasicBlock.loop (doc : Document) (rArch : Architecture) :
    Nat → Address → MemoryArea → Bool → List Instruction →
      Option (ExitReason × Bool × List Instruction)
  | 0, _, _, _, _ => none
  | fuel + 1, CurAddr, pMemArea, Res, rBasicBlock =>
    if doc.IsPresent CurAddr then
      match (if pMemArea.IsPresent CurAddr then some pMemArea else doc.GetMemoryArea CurAddr) with
      | none => some (ExitReason.noMemoryArea, Res, rBasicBlock)
      | some pMemArea =>
        if pMemArea.GetAccess &&& MA_EXEC = 0 then
          some (ExitReason.notExecutable, Res, rBasicBlock)
        else
          match doc.RetrieveCell CurAddr with
          | none => some (ExitReason.noCell, Res, rBasicBlock)
          | some pCurCell =>
            if !pCurCell.isValue || pCurCell.GetLength ≠ 1 then
              some (ExitReason.notRawByte, Res, rBasicBlock)
            else
              match rArch.Disassemble pMemArea.GetBinaryStream
                  (CurAddr.offset - pMemArea.GetVirtualBase.offset) with
              | none => some (ExitReason.decoderFailed, Res, rBasicBlock)
              | some pInsn =>
                if codeInRange doc CurAddr pInsn.length then
                  some (ExitReason.containsCode, true, rBasicBlock)
                else if isTerminator pInsn.opType then
                  some (ExitReason.terminator, true, rBasicBlock ++ [pInsn])
                else
                  DisassembleBasicBlock.loop doc rArch fuel (CurAddr + pInsn.length) pMemArea Res
                    (rBasicBlock ++ [pInsn])
    else some (ExitReason.notPresent, Res, rBasicBlock)

/-- `DisassembleBasicBlock` up to the label `exit` (lines 623-697); the early return for an
`Imported` label is not part of it. -/
def DisassembleBasicBlock.run (fuel : Nat) (doc : Document) (rArch : Architecture)
    (rAddr : Address) (rBasicBlock : List Instruction) :
    Option (ExitReason × Bool × List Instruction) :=
  let Res := if rArch.DisassembleBasicBlockOnly = false then true else false
  match doc.GetMemoryArea rAddr with
  | none => some (ExitReason.noMemoryArea, Res, rBasicBlock)
  | some pMemArea => DisassembleBasicBlock.loop doc rArch fuel rAddr pMemArea Res rBasicBlock

/-- `Analyzer::DisassembleBasicBlock` (lines 621-707): the returned flag and the list
`rBasicBlock` as the caller finds it afterwards. `none` when the iteration budget `fuel` of the
decoding loop is used up. -/
def DisassembleBasicBlock (fuel : Nat) (doc : Document) (rArch : Architecture)
    (rAddr : Address) (rBasicBlock : List Instruction) : Option (Bool × List Instruction) :=
  if (doc.GetLabelFromAddress rAddr).GetType &&& Label.Imported ≠ 0 then
    some (false, rBasicBlock)
  else
    match DisassembleBasicBlock.run fuel doc rArch rAddr rBasicBlock with
    | none => none
    | some (_, Res, bb) => if Res = false then some (false, []) else some (true, bb)

/-! ## Cross-reference builder -/

/-- The text `ToString()` of an address with every `':'` replaced by `'_'`
(`std::replace(SuffixName.begin(), SuffixName.end(), ':', '_')`). -/
def suffixName (a : Address) : Str :=
  a.ToString.map (fun c => if c = ':' then '_' else c)

/-- One iteration of the loop over `CurOp` in `CreateXRefs` (lines 178-215). -/
def CreateXRefs.operand (an : Analyzer) (pInsn : Instruction) (rAddr : Address)
    (doc : Document) (CurOp : Nat) : Document :=
  match pInsn.GetOperandReference CurOp rAddr with
  | none => doc
  | some DstAddr =>
    let doc := doc.ChangeValueSize DstAddr (pInsn.GetOperandReferenceLength CurOp)
    match doc.RetrieveCell DstAddr with
    | none => doc
    | some _ =>
      let OpAddr := (pInsn.GetOperandAddress CurOp rAddr).getD rAddr
      let doc := doc.AddXRef DstAddr OpAddr
      if !(doc.GetLabelFromAddress DstAddr).GetName.isEmpty then doc
      else
        let SuffixName := suffixName DstAddr
        let sel := pInsn.opType &&& (OpCall ||| OpJump)
        if sel = OpJump then
          doc.AddLabel DstAddr ⟨an.m_LabelPrefix ++ SuffixName, Label.Code ||| Label.Local⟩ false
        else if sel = OpUnknown then
          match doc.GetMemoryArea DstAddr with
          | none => doc
          | some pMemArea =>
            if pMemArea.GetAccess &&& MA_EXEC ≠ 0 then
              doc.AddLabel DstAddr ⟨an.m_LabelPrefix ++ SuffixName, Label.Code ||| Label.Local⟩
                false
            else
              doc.AddLabel DstAddr ⟨an.m_DataPrefix ++ SuffixName, Label.Data ||| Label.Global⟩
                false
        else doc

/-- `Analyzer::CreateXRefs` (lines 170-217). -/
def CreateXRefs (an : Analyzer) (doc : Document) (rAddr : Address) : Document :=
  match GetCell doc rAddr with
  | some (Cell.instruction pInsn) =>
    (List.range OPERAND_NO).foldl (CreateXRefs.operand an pInsn rAddr) doc
  | _ => doc

/-! ## Function length -/

/-- The local state of `ComputeFunctionLength`. -/
structure LengthState where
  CallStack : List Address
  VisitedInstruction : List Address
  RetReached : Bool
  FuncLen : Nat
  EndAddr : Address
  rFunctionLength : Nat
  rInstructionCounter : Nat

/-- The instruction stored at an address, if the cell there is one. -/
def Document.RetrieveInstruction (doc : Document) (a : Address) : Option Instruction :=
  match doc.RetrieveCell a with
  | some (Cell.instruction insn) => some insn
  | _ => none

/-- The inner loop `while (rDoc.ContainsCode(CurAddr))` of `ComputeFunctionLength`
(lines 252-298). The flag is true when the loop was left by `return false` (threshold). -/
def ComputeFunctionLength.inner (doc : Document) (LengthThreshold : Nat) :
    Nat → Address → LengthState → Option (Bool × LengthState)
  | 0, _, _ => none
  | fuel + 1, CurAddr, st =>
    match doc.RetrieveInstruction CurAddr with
    | none => some (false, st)
    | some rInsn =>
      if st.VisitedInstruction.contains CurAddr then
        ComputeFunctionLength.inner doc LengthThreshold fuel (CurAddr + rInsn.length) st
      else
        let st := { st with
          FuncLen := (st.FuncLen + rInsn.length % 2 ^ 32) % 2 ^ 32
          VisitedInstruction := CurAddr :: st.VisitedInstruction
          rFunctionLength := (st.rFunctionLength + rInsn.length % 2 ^ 32) % 2 ^ 16
          rInstructionCounter := (st.rInstructionCounter + 1) % 2 ^ 16 }
        if rInsn.opType &&& OpJump ≠ 0 then
          let st :=
            if rInsn.opType &&& OpCond ≠ 0 then
              { st with CallStack := (CurAddr + rInsn.length) :: st.CallStack }
            else st
          if (rInsn.Operand 0).type &&& O_MEM ≠ 0 then some (false, st)
          else
            match rInsn.GetOperandReference 0 CurAddr with
            | none => some (false, st)
            | some DstAddr => ComputeFunctionLength.inner doc LengthThreshold fuel DstAddr st
        else if rInsn.opType &&& OpRet ≠ 0 ∧ ¬ (rInsn.opType &&& OpCond ≠ 0) then
          some (false, { st with
            RetReached := true
            EndAddr := if st.EndAddr.lt CurAddr then CurAddr else st.EndAddr })
        else if LengthThreshold ≠ 0 ∧ st.FuncLen > LengthThreshold then some (true, st)
        else ComputeFunctionLength.inner doc LengthThreshold fuel (CurAddr + rInsn.length) st

/-- The outer loop `while (!CallStack.empty())` of `ComputeFunctionLength` (lines 247-301). -/
def ComputeFunctionLength.outer (doc : Document) (LengthThreshold : Nat) :
    Nat → LengthState → Option (Bool × LengthState)
  | 0, _ => none
  | fuel + 1, st =>
    match st.CallStack with
    | [] => some (st.RetReached, st)
    | CurAddr :: rest =>
      match ComputeFunctionLength.inner doc LengthThreshold fuel CurAddr
          { st with CallStack := rest } with
      | none => none
      | some (true, st) => some (false, st)
      | some (false, st) => ComputeFunctionLength.outer doc LengthThreshold fuel st

/-- `Analyzer::ComputeFunctionLength` (lines 219-302): the returned flag, `rFunctionLength` and
`rInstructionCounter` (both 16 bits wide). The parameter `EndAddress` is never written by the
source. `none` when the iteration budget `fuel` is used up. -/
def ComputeFunctionLength (fuel : Nat) (doc : Document) (rFunctionAddress : Address)
    (LengthThreshold : Nat) : Option (Bool × Nat × Nat) :=
  if (doc.GetLabelFromAddress rFunctionAddress).GetType &&& Label.Imported ≠ 0 then
    some (false, 0, 0)
  else
    match doc.GetMemoryArea rFunctionAddress with
    | none => some (false, 0, 0)
    | some _ =>
      match ComputeFunctionLength.outer doc LengthThreshold fuel
          { CallStack := [rFunctionAddress], VisitedInstruction := [], RetReached := false,
            FuncLen := 0, EndAddr := rFunctionAddress, rFunctionLength := 0,
            rInstructionCounter := 0 } with
      | none => none
      | some (Res, st) => some (Res, st.rFunctionLength, st.rInstructionCounter)

/-! ## Control-flow graph -/

/-- Modelled from the spec: `ControlFlowGraph::AddBasicBlockVertex`. -/
def ControlFlowGraph.AddBasicBlockVertex (g : ControlFlowGraph) (v : List Address) :
    ControlFlowGraph :=
  { g with vertices := g.vertices ++ [v] }

/-- Splits a vertex so that `dst`, when it is a non-first address of it, begins a new one. -/
def splitBefore (dst : Address) (v : List Address) : List (List Address) :=
  match v.span (fun a => !decide (a = dst)) with
  | ([], _) => [v]
  | (_, []) => [v]
  | (pre, post) => [pre, post]

/-- Splits a vertex so that `src`, when it is a non-last address of it, ends one. -/
def splitAfter (src : Address) (v : List Address) : List (List Address) :=
  match v.span (fun a => !decide (a = src)) with
  | (_, []) => [v]
  | (_, [_]) => [v]
  | (pre, s :: post) => [pre ++ [s], post]

/-- Modelled from the spec: `ControlFlowGraph::SplitBasicBlock(dst, src, type)`, which "must
split any vertex whose address list contains dst (as a non-first address) so that dst begins a
new vertex, and similarly ensure src ends a vertex". The boolean it returns is only logged by
the caller and is left out. -/
def ControlFlowGraph.SplitBasicBlock (g : ControlFlowGraph) (dst src : Address)
    (_type : EdgeType) : ControlFlowGraph :=
  { g with
    vertices := ((g.vertices.map (splitBefore dst)).flatten.map (splitAfter src)).flatten }

/-- Modelled from the spec: `ControlFlowGraph::AddBasicBlockEdge(type, src, dst)`. -/
def ControlFlowGraph.AddBasicBlockEdge (g : ControlFlowGraph) (type : EdgeType)
    (src dst : Address) : ControlFlowGraph :=
  { g with edges := g.edges ++ [(src, dst, type)] }

/-- Modelled from the spec: `ControlFlowGraph::Finalize`, which lets the Document index the
graph; the graph itself is not changed. -/
def ControlFlowGraph.Finalize (g : ControlFlowGraph) (_doc : Document) : ControlFlowGraph := g

/-- The local state of `BuildControlFlowGraph`; an edge is `(destination, source, type)`. -/
structure CfgState where
  CallStack : List Address
  Addresses : List Address
  Edges : List (Address × Address × EdgeType)
  VisitedInstruction : List Address
  RetReached : Bool

/-- The inner loop `while (rDoc.ContainsCode(CurAddr))` of `BuildControlFlowGraph`
(lines 542-594). -/
def BuildControlFlowGraph.inner (doc : Document) : Nat → Address → CfgState → Option CfgState
  | 0, _, _ => none
  | fuel + 1, CurAddr, st =>
    match doc.RetrieveInstruction CurAddr with
    | none => some st
    | some rInsn =>
      if st.VisitedInstruction.contains CurAddr then
        if rInsn.opType &&& OpRet ≠ 0 ∧ ¬ (rInsn.opType &&& OpCond ≠ 0) then some st
        else BuildControlFlowGraph.inner doc fuel (CurAddr + rInsn.length) st
      else
        let st := { st with
          Addresses := st.Addresses ++ [CurAddr]
          VisitedInstruction := CurAddr :: st.VisitedInstruction }
        if rInsn.opType &&& OpJump ≠ 0 then
          if (rInsn.Operand 0).type &&& O_MEM ≠ 0 then some st
          else
            match rInsn.GetOperandReference 0 CurAddr with
            | none => some st
            | some DstAddr =>
              let st :=
                if rInsn.opType &&& OpCond ≠ 0 then
                  let NextAddr := CurAddr + rInsn.length
                  { st with
                    Edges := st.Edges ++
                      [(DstAddr, CurAddr, EdgeType.True), (NextAddr, CurAddr, EdgeType.False)]
                    CallStack := NextAddr :: st.CallStack }
                else
                  { st with Edges := st.Edges ++ [(DstAddr, CurAddr, EdgeType.Unconditional)] }
              BuildControlFlowGraph.inner doc fuel DstAddr st
        else if rInsn.opType &&& OpRet ≠ 0 ∧ ¬ (rInsn.opType &&& OpCond ≠ 0) then
          some { st with RetReached := true }
        else BuildControlFlowGraph.inner doc fuel (CurAddr + rInsn.length) st

/-- The outer loop `while (!CallStack.empty())` of `BuildControlFlowGraph` (lines 537-595). -/
def BuildControlFlowGraph.outer (doc : Document) : Nat → CfgState → Option CfgState
  | 0, _ => none
  | fuel + 1, st =>
    match st.CallStack with
    | [] => some st
    | CurAddr :: rest =>
      match BuildControlFlowGraph.inner doc fuel CurAddr { st with CallStack := rest } with
      | none => none
      | some st => BuildControlFlowGraph.outer doc fuel st

/-- `Analyzer::BuildControlFlowGraph` (lines 519-619): the returned flag and the graph `rCfg`
afterwards. `none` when the iteration budget `fuel` is used up. -/
def BuildControlFlowGraph (fuel : Nat) (doc : Document) (rAddr : Address)
    (rCfg : ControlFlowGraph) : Option (Bool × ControlFlowGraph) :=
  match doc.GetMemoryArea rAddr with
  | none => some (false, rCfg)
  | some _ =>
    match BuildControlFlowGraph.outer doc fuel
        { CallStack := [rAddr], Addresses := [], Edges := [], VisitedInstruction := [],
          RetReached := false } with
    | none => none
    | some st =>
      let rCfg := rCfg.AddBasicBlockVertex st.Addresses
      let rCfg := st.Edges.foldl (fun g e => g.SplitBasicBlock e.1 e.2.1 e.2.2) rCfg
      let rCfg := st.Edges.foldl (fun g e => g.AddBasicBlockEdge e.2.2 e.2.1 e.1) rCfg
      some (st.RetReached, rCfg.Finalize doc)

/-! ## Function creation -/

/-- The cell as line 495 reads it, through `static_cast<Instruction const*>`. The source
tests the pointer for null only and not the type of the cell: for an instruction the members
read are those of the instruction; for any other cell the behaviour of the source is
undefined, and `view` stands for whatever the members read as. -/
def Cell.asInstruction (view : Cell → Instruction) : Cell → Instruction
  | Cell.instruction insn => insn
  | c => view c

/-- `Analyzer::CreateFunction` (lines 456-509): the returned flag and the Document afterwards.
`none` when the iteration budget `fuel` is used up. The source reads the operation type, the
operand reference and the name of the cell at `rAddr` through an unchecked `static_cast` to
`Instruction`; `view` is what a cell that is not an instruction reads as there. -/
def CreateFunction (fuel : Nat) (an : Analyzer) (view : Cell → Instruction) (doc : Document)
    (rAddr : Address) : Option (Bool × Document) :=
  let SuffixName := suffixName rAddr
  let FuncName := an.m_FunctionPrefix ++ SuffixName
  match ComputeFunctionLength fuel doc rAddr 0x1000 with
  | none => none
  | some (true, FuncLen, InsnCnt) =>
    match BuildControlFlowGraph fuel doc rAddr ⟨[], []⟩ with
    | none => none
    | some (false, _) => some (false, doc)
    | some (true, Cfg) =>
      let doc := (doc.InsertMultiCell rAddr ⟨FuncLen, InsnCnt, Cfg⟩ false).2
      some (true, doc.AddLabel rAddr ⟨FuncName, Label.Code ||| Label.Global⟩ false)
  | some (false, _, _) =>
    match doc.GetMemoryArea rAddr with
    | none => some (false, doc)
    | some _ =>
      match GetCell doc rAddr with
      | none => some (false, doc)
      | some pInsn =>
        let pFuncInsn := pInsn.asInstruction view
        if pFuncInsn.opType ≠ OpJump then some (false, doc)
        else
          match pFuncInsn.GetOperandReference 0 rAddr with
          | none => some (false, doc)
          | some OpRefAddr =>
            let OpLbl := doc.GetLabelFromAddress OpRefAddr
            if OpLbl.GetType = Label.Unknown then some (false, doc)
            else
              let FuncName := pFuncInsn.name ++ "_".toList ++ OpLbl.GetLabel
              some (true, doc.AddLabel rAddr ⟨FuncName, Label.Code ||| Label.Global⟩ false)

/-! ## Execution-path driver -/

/-- The loop `for (u8 i = 0; i < OPERAND_NO; ++i)` of lines 79-84: every operand reference of
the instruction is pushed on the stack (the head of the list is the top). -/
def pushOperandReferences (insn : Instruction) (CurAddr : Address) (CallStack : List Address) :
    List Address :=
  (List.range OPERAND_NO).foldl
    (fun s i =>
      match insn.GetOperandReference i CurAddr with
      | some DstAddr => DstAddr :: s
      | none => s)
    CallStack

/-- What the loop over the basic block (lines 59-91) carries from one instruction to the
next. -/
structure BlockState where
  doc : Document
  CurAddr : Address
  CallStack : List Address
  FunctionIsFinished : Bool

/-- The loop over the instructions of a basic block in `DisassembleFollowingExecutionPath`
(lines 59-91). -/
def insertBasicBlock (an : Analyzer) : List Instruction → BlockState → BlockState
  | [], st => st
  | insn :: rest, st =>
    if st.doc.ContainsCode st.CurAddr then
      insertBasicBlock an rest { st with FunctionIsFinished := true }
    else
      match st.doc.InsertCell st.CurAddr (Cell.instruction insn) with
      | (false, _) => insertBasicBlock an rest { st with FunctionIsFinished := true }
      | (true, doc) =>
        let CallStack := pushOperandReferences insn st.CurAddr st.CallStack
        let doc := CreateXRefs an doc st.CurAddr
        let CurAddr :=
          if insn.opType = OpUnknown ∨ insn.opType = OpCond then st.CurAddr + insn.length
          else st.CurAddr
        insertBasicBlock an rest
          { doc := doc, CurAddr := CurAddr, CallStack := CallStack,
            FunctionIsFinished := st.FunctionIsFinished }

/-- What the loops of the driver carry: the Document, the stack of addresses still to be
disassembled and the list `FuncAddr` of call targets. -/
structure DriverState where
  doc : Document
  CallStack : List Address
  FuncAddr : List Address

/-- The inner loop `while (rDoc.IsPresent(CurAddr) && rDoc.ContainsCode(CurAddr) == false)` of
`DisassembleFollowingExecutionPath` (lines 50-161). -/
def DisassembleFollowingExecutionPath.inner (an : Analyzer) (rArch : Architecture) :
    Nat → Address → DriverState → Option DriverState
  | 0, _, _ => none
  | fuel + 1, CurAddr, st =>
    if st.doc.IsPresent CurAddr && st.doc.ContainsCode CurAddr == false then
      match DisassembleBasicBlock fuel st.doc rArch CurAddr [] with
      | none => none
      | some (false, _) => some st
      | some (true, BasicBlock) =>
        if BasicBlock.length = 0 then some st
        else
          let b := insertBasicBlock an BasicBlock
            { doc := st.doc, CurAddr := CurAddr, CallStack := st.CallStack,
              FunctionIsFinished := false }
          let st := { st with doc := b.doc, CallStack := b.CallStack }
          if b.FunctionIsFinished then some st
          else
            match BasicBlock.getLast? with
            | none => some st
            | some pLastInsn =>
              let sel := pLastInsn.opType &&& (OpCall ||| OpJump ||| OpRet)
              if sel = OpCall then
                let st := { st with CallStack := (b.CurAddr + pLastInsn.length) :: st.CallStack }
                match pLastInsn.GetOperandReference 0 b.CurAddr with
                | none => some st
                | some DstAddr =>
                  DisassembleFollowingExecutionPath.inner an rArch fuel DstAddr
                    { st with FuncAddr := st.FuncAddr ++ [DstAddr] }
              else if sel = OpRet then
                if pLastInsn.opType &&& OpCond ≠ 0 then
                  DisassembleFollowingExecutionPath.inner an rArch fuel
                    (b.CurAddr + pLastInsn.length) st
                else some st
              else if sel = OpJump then
                let st :=
                  if pLastInsn.opType &&& OpCond ≠ 0 then
                    { st with CallStack := (b.CurAddr + pLastInsn.length) :: st.CallStack }
                  else st
                match pLastInsn.GetOperandReference 0 b.CurAddr with
                | none => some st
                | some DstAddr => DisassembleFollowingExecutionPath.inner an rArch fuel DstAddr st
              else DisassembleFollowingExecutionPath.inner an rArch fuel b.CurAddr st
    else some st

/-- The outer loop `while (!CallStack.empty())` of `DisassembleFollowingExecutionPath`
(lines 40-162). -/
def DisassembleFollowingExecutionPath.outer (an : Analyzer) (rArch : Architecture) :
    Nat → DriverState → Option DriverState
  | 0, _ => none
  | fuel + 1, st =>
    match st.CallStack with
    | [] => some st
    | CurAddr :: rest =>
      match DisassembleFollowingExecutionPath.inner an rArch fuel CurAddr
          { st with CallStack := rest } with
      | none => none
      | some st => DisassembleFollowingExecutionPath.outer an rArch fuel st

/-- The final `std::for_each` over `FuncAddr` (lines 164-167): `CreateFunction` on each
address in turn, its result ignored. -/
def createFunctions (fuel : Nat) (an : Analyzer) (view : Cell → Instruction) :
    List Address → Document → Option Document
  | [], doc => some doc
  | rAddr :: rest, doc =>
    match CreateFunction fuel an view doc rAddr with
    | none => none
    | some (_, doc) => createFunctions fuel an view rest doc

/-- `Analyzer::DisassembleFollowingExecutionPath` (lines 17-168): the Document afterwards.
`none` when the iteration budget `fuel` is used up by one of the loops. The mutex taken on
entry is not modelled; `view` is handed to `CreateFunction`. -/
def DisassembleFollowingExecutionPath (fuel : Nat) (an : Analyzer)
    (view : Cell → Instruction) (doc : Document) (rEntrypoint : Address)
    (rArch : Architecture) : Option Document :=
  if (doc.GetLabelFromAddress rEntrypoint).GetType &&& Label.Imported ≠ 0 then some doc
  else
    match doc.GetMemoryArea rEntrypoint with
    | none => some doc
    | some _ =>
      match DisassembleFollowingExecutionPath.outer an rArch fuel
          { doc := doc, CallStack := [rEntrypoint], FuncAddr := [] } with
      | none => none
      | some st => createFunctions fuel an view st.FuncAddr st.doc

/-! ## Example inputs -/

/-- An example of what the unchecked cast of `CreateFunction` may read from a cell that is not
an instruction: every member zero or empty. -/
def blankView : Cell → Instruction := fun _ => ⟨0, [], OpUnknown, 0, []⟩

/-- The one-byte plain instruction of the example decoder. -/
def toyNop : Instruction := ⟨1, "nop".toList, OpUnknown, 1, []⟩

/-- The one-byte return of the example decoder. -/
def toyRet : Instruction := ⟨1, "ret".toList, OpRet, 1, []⟩

/-- A small decoder used by the examples: `0x90` is a one-byte plain instruction, `0xC3` a
one-byte return, `0xE8` a five-byte call whose operand is the absolute offset held in the next
four bytes (little endian, base 0), `0xEB d` a two-byte jump to the offset of the next
instruction plus `d`, `0x74 d` the same as a conditional jump; every other byte is rejected. -/
def toyDisassemble (stream : List Nat) (off : Nat) : Option Instruction :=
  match stream.get? off with
  | some 0x90 => some toyNop
  | some 0xC3 => some toyRet
  | some 0xE8 =>
    match stream.get? (off + 1), stream.get? (off + 2), stream.get? (off + 3),
        stream.get? (off + 4) with
    | some b0, some b1, some b2, some b3 =>
      some ⟨1, "call".toList, OpCall, 5,
        [⟨0, fun _ => some ⟨0, b0 + 256 * b1 + 65536 * b2 + 16777216 * b3⟩,
          fun a => some (a + 1), 0⟩]⟩
    | _, _, _, _ => none
  | some 0xEB =>
    match stream.get? (off + 1) with
    | some d => some ⟨1, "jmp".toList, OpJump, 2,
        [⟨0, fun a => some (a + (2 + d)), fun a => some (a + 1), 0⟩]⟩
    | none => none
  | some 0x74 =>
    match stream.get? (off + 1) with
    | some d => some ⟨1, "jz".toList, OpJump ||| OpCond, 2,
        [⟨0, fun a => some (a + (2 + d)), fun a => some (a + 1), 0⟩]⟩
    | none => none
  | _ => none

/-- The example back-end: tag 1, not restricted to basic blocks. -/
def toyArch : Architecture :=
  { tag := 1, id := 0, basicBlockOnly := false, Disassemble := toyDisassemble }

/-- The example back-end declared basic-block-only. -/
def toyArchBasicBlockOnly : Architecture := { toyArch with basicBlockOnly := true }

/-- A Document with the given memory areas and nothing else (raw bytes everywhere). -/
def rawDocument (areas : List MemoryArea) : Document :=
  { areas := areas, cells := [], multicells := [], labels := [], xrefs := [] }

/-- Executable area at `0:1000` holding two plain instructions and a return. -/
def straightLineDoc : Document :=
  rawDocument [⟨⟨0, 1000⟩, 3, MA_EXEC, [0x90, 0x90, 0xC3]⟩]

/-- Executable area at `0:1000` holding a plain instruction followed by a byte the decoder
rejects. -/
def badByteDoc : Document :=
  rawDocument [⟨⟨0, 1000⟩, 2, MA_EXEC, [0x90, 0xFF]⟩]

/-- The Document `straightLineDoc` with an `Imported` label on `0:1000`. -/
def importedDoc : Document :=
  { straightLineDoc with labels := [(⟨0, 1000⟩, ⟨"printf".toList, Label.Imported⟩)] }

/-- The Document `straightLineDoc` after the driver has run on the entry `0:1000`. -/
def straightLineAnalyzed : Document :=
  (DisassembleFollowingExecutionPath 10 Analyzer.initial blankView straightLineDoc ⟨0, 1000⟩
    toyArch).getD
    straightLineDoc

/-! ## Definitions used by the theorems on the driver -/

/-- A property of Documents that the mutators used by the loops of the driver keep:
`InsertCell`, `AddXRef` and `AddLabel`. -/
structure KeptByLoops (P : Document → Prop) : Prop where
  insertCell : ∀ (d : Document) (a : Address) (c : Cell), P d → P (d.InsertCell a c).2
  addXRef : ∀ (d : Document) (a b : Address), P d → P (d.AddXRef a b)
  addLabel : ∀ (d : Document) (a : Address) (l : Label) (f : Bool), P d → P (d.AddLabel a l f)

/-- A property of Documents that the mutators used by `CreateFunction` keep:
`InsertMultiCell` and `AddLabel`. -/
structure KeptByCreateFunction (P : Document → Prop) : Prop where
  insertMultiCell : ∀ (d : Document) (a : Address) (f : Function) (force : Bool),
    P d → P (d.InsertMultiCell a f force).2
  addLabel : ∀ (d : Document) (a : Address) (l : Label) (f : Bool), P d → P (d.AddLabel a l f)

/-- The byte ranges `[a, a+la)` and `[b, b+lb)` have no address in common. -/
def rangesDisjoint (a : Address) (la : Nat) (b : Address) (lb : Nat) : Prop :=
  a.base = b.base → ∀ x, a.offset ≤ x → x < a.offset + la → b.offset ≤ x → x < b.offset + lb →
    False

/-- No two distinct code cells of the Document overlap. -/
def NoCodeOverlap (doc : Document) : Prop :=
  doc.cells.Pairwise (fun p q =>
    p.2.isInstruction = true → q.2.isInstruction = true →
      rangesDisjoint p.1 p.2.GetLength q.1 q.2.GetLength)

/-- Executable area at `0:1000` holding `call 0:1006; ret; call 0:1001; ret`: the second call
targets the middle of the first call instruction. -/
def midTargetDoc : Document :=
  rawDocument [⟨⟨0, 1000⟩, 12, MA_EXEC,
    [0xE8, 0xEE, 0x03, 0x00, 0x00, 0xC3, 0xE8, 0xE9, 0x03, 0x00, 0x00, 0xC3]⟩]

/-- The Document `midTargetDoc` after the driver has run on the entry `0:1000`. -/
def midTargetAnalyzed : Document :=
  (DisassembleFollowingExecutionPath 20 Analyzer.initial blankView midTargetDoc ⟨0, 1000⟩
    toyArch).getD
    midTargetDoc

/-- An upper bound of the offsets of the addresses the Document maps. -/
def Document.endOffset (doc : Document) : Nat :=
  (doc.areas.map (fun m => m.virtualBase.offset + m.size)).foldr max 0

/-- The total length of a list of instructions. -/
def totalLength (l : List Instruction) : Nat := (l.map (fun i => i.length)).sum

/-- A back-end with the given tag whose decoder accepts nothing (registry examples). -/
def archWithTag (t : Tag) : Architecture :=
  { tag := t, id := 0, basicBlockOnly := false, Disassemble := fun _ _ => none }

/-- Whether a registry call is a `RegisterArchitecture` call. -/
def RegistryCall.isRegister : RegistryCall → Bool
  | RegistryCall.register _ => true
  | RegistryCall.reset => false

/-- The ids a run of registry calls handed out, in call order. -/
def handedOut (an : Analyzer) (calls : List RegistryCall) : List Nat :=
  (runRegistry an calls).2.filterMap id

/-- The allocated ids of a pool, as a set. -/
def allocated (pool : Nat) : Finset Nat :=
  (Finset.range 32).filter (fun j => pool.testBit j = true)

/-! ## Example inputs for the function delimiter -/

/-- The two-byte unconditional jump of the example decoder, to the instruction after it plus
`d`. -/
def toyJmp (d : Nat) : Instruction :=
  ⟨1, "jmp".toList, OpJump, 2, [⟨0, fun a => some (a + (2 + d)), fun a => some (a + 1), 0⟩]⟩

/-- A Document with one executable area of `size` bytes at `0:1000` (the bytes themselves are
not read by the function delimiter) and the given code cells. -/
def codeDocument (size : Nat) (cells : List (Address × Instruction)) : Document :=
  { rawDocument [⟨⟨0, 1000⟩, size, MA_EXEC, List.replicate size 0⟩] with
    cells := cells.map (fun p => (p.1, Cell.instruction p.2)) }

/-- Code cells `nop` at `0:1000` and `ret` at `0:1001`. -/
def nopRetDoc : Document :=
  codeDocument 2 [(⟨0, 1000⟩, toyNop), (⟨0, 1001⟩, toyRet)]

/-- Code cells `jmp 0:1002` at `0:1000` and `ret` at `0:1002`. -/
def jmpRetDoc : Document :=
  codeDocument 3 [(⟨0, 1000⟩, toyJmp 0), (⟨0, 1002⟩, toyRet)]

/-! ## Definitions used by the theorems on the control-flow graph -/

/-- The edges `(destination, source, type)` leaving the instruction at `s`: none unless it is
a jump whose operand 0 is not memory-indirect and resolves; then `True` to the target and
`False` to the fall-through for a conditional jump, `Unconditional` to the target
otherwise. -/
def edgesOfInstruction (doc : Document) (s : Address) : List (Address × Address × EdgeType) :=
  match doc.RetrieveInstruction s with
  | none => []
  | some insn =>
    if insn.opType &&& OpJump ≠ 0 then
      if (insn.Operand 0).type &&& O_MEM ≠ 0 then []
      else
        match insn.GetOperandReference 0 s with
        | none => []
        | some DstAddr =>
          if insn.opType &&& OpCond ≠ 0 then
            [(DstAddr, s, EdgeType.True), (s + insn.length, s, EdgeType.False)]
          else [(DstAddr, s, EdgeType.Unconditional)]
    else []

/-- The collected edges whose source is `s`. -/
def edgesFrom (E : List (Address × Address × EdgeType)) (s : Address) :
    List (Address × Address × EdgeType) :=
  E.filter (fun e => decide (e.2.1 = s))

/-- The invariant of the traversal of `BuildControlFlowGraph`: the collected addresses are
the visited ones, each once, each a code cell, and the collected edges with source `s` are
those of the instruction at `s` when `s` was visited and none otherwise. -/
def CfgInvariant (doc : Document) (st : CfgState) : Prop :=
  (∀ a, a ∈ st.Addresses ↔ a ∈ st.VisitedInstruction) ∧
  st.Addresses.Nodup ∧
  (∀ a, a ∈ st.VisitedInstruction → (doc.RetrieveInstruction a).isSome = true) ∧
  (∀ s, edgesFrom st.Edges s =
    if s ∈ st.VisitedInstruction then edgesOfInstruction doc s else [])

/-- The state `BuildControlFlowGraph` starts its traversal from. -/
def CfgState.initial (rAddr : Address) : CfgState :=
  { CallStack := [rAddr], Addresses := [], Edges := [], VisitedInstruction := [],
    RetReached := false }

/-- A conditional jump whose operand 0 is memory-indirect (`O_MEM`) although a reference
`0:1003` can be computed for it. -/
def toyJzMem : Instruction :=
  ⟨1, "jz".toList, OpJump ||| OpCond, 2,
    [⟨O_MEM, fun _ => some ⟨0, 1003⟩, fun a => some (a + 1), 0⟩]⟩

/-- The two-byte conditional jump of the example decoder. -/
def toyJz (d : Nat) : Instruction :=
  ⟨1, "jz".toList, OpJump ||| OpCond, 2,
    [⟨0, fun a => some (a + (2 + d)), fun a => some (a + 1), 0⟩]⟩

/-- Code cells: the memory-indirect conditional jump at `0:1000`, `ret` at `0:1002` and at
`0:1003`. -/
def memJumpDoc : Document :=
  codeDocument 4 [(⟨0, 1000⟩, toyJzMem), (⟨0, 1002⟩, toyRet), (⟨0, 1003⟩, toyRet)]

/-- Code cells of a diamond: `jz 0:1003` at `0:1000`, `nop` at `0:1002`, `ret` at `0:1003`. -/
def diamondDoc : Document :=
  codeDocument 4 [(⟨0, 1000⟩, toyJz 1), (⟨0, 1002⟩, toyNop), (⟨0, 1003⟩, toyRet)]

/-- The shape of a basic block decoded from `addr` on: each instruction is what the back-end
decodes at its address from the memory area of the Document that holds the address, no
address of its range contains code, it is followed by the next one, and only the last one may
be a terminator. -/
def BlockShape (doc : Document) (rArch : Architecture) : Address → List Instruction → Prop
  | _, [] => True
  | addr, insn :: rest =>
    (∃ m : MemoryArea, m ∈ doc.areas ∧ m.IsPresent addr = true ∧
      rArch.Disassemble m.GetBinaryStream (addr.offset - m.GetVirtualBase.offset) = some insn) ∧
    codeInRange doc addr insn.length = false ∧
    (rest ≠ [] → isTerminator insn.opType = false) ∧
    BlockShape doc rArch (addr + insn.length) rest

/-! ## Example inputs for the cross-reference builder -/

/-- A plain two-byte instruction whose operand 0 refers to the datum at `0:5000`. -/
def toyMov : Instruction :=
  ⟨1, "mov".toList, OpUnknown, 2, [⟨0, fun _ => some ⟨0, 5000⟩, fun a => some (a + 1), 1⟩]⟩

/-- An executable area at `0:1000` with the code cell `mov` and a readable, not executable
area at `0:5000` holding the bytes `48 00 69 00 00 00`. -/
def dataRefDoc : Document :=
  { areas := [⟨⟨0, 1000⟩, 2, MA_EXEC, [0, 0]⟩, ⟨⟨0, 5000⟩, 6, 1, [0x48, 0x00, 0x69, 0x00, 0x00, 0x00]⟩]
    cells := [(⟨0, 1000⟩, Cell.instruction toyMov)]
    multicells := []
    labels := []
    xrefs := [] }

/-! ## String recognizer -/

/-- Modelled from the spec: a character strategy (`AsciiString`, `WinString`; the classes are
declared in `character.hpp`, which is not part of the sources): `IsValidCharacter`,
`IsFinalCharacter` and `ConvertToUf8`, on code units given by their numeric value. -/
structure CharacterStrategy where
  IsValidCharacter : Nat → Bool
  IsFinalCharacter : Nat → Bool
  ConvertToUf8 : Nat → Str

/-- Kinds of `String` cells. Modelled from the spec: `String::AsciiType`. -/
def String.AsciiType : Nat := 1
/-- Modelled from the spec: `String::Utf16Type`. -/
def String.Utf16Type : Nat := 2

/-- Modelled from the spec: the `String` cell built from a kind and a text only; it is taken
to occupy one address per character and one for the terminator. -/
def Cell.ofString (kind : Nat) (text : Str) : Cell := Cell.string kind text (text.length + 1)

/-- Modelled from the spec: `Label(name, prefix, type)`, the label "whose human name derives
from the decoded text". -/
def Label.withPrefix (name pre : Str) (type : Nat) : Label := ⟨pre ++ name, type⟩

/-- Modelled from the spec: `MemoryArea::Convert`, the mapping from a virtual offset to a
physical offset of the stream; it fails for an offset the area does not map. -/
def MemoryArea.Convert (m : MemoryArea) (off : Nat) : Option Nat :=
  if m.virtualBase.offset ≤ off ∧ off < m.virtualBase.offset + m.size then
    some (off - m.virtualBase.offset)
  else none

/-- Modelled from the spec: `Document::SetLabelToAddress`, replacing the label of an
address. -/
def Document.SetLabelToAddress (doc : Document) (a : Address) (l : Label) : Document :=
  { doc with labels := (a, l) :: doc.labels.filter (fun p => !decide (p.1 = a)) }

/-- What a probing loop of `FindStrings` leaves behind: `PhysicalOffset`, `CurString` and the
code unit read last (`none` while nothing has been read). -/
structure ProbeState where
  PhysicalOffset : Nat
  CurString : Str
  LastChar : Option Nat

/-- The UTF-16 loop of `FindStrings` (lines 329-340) over the bytes of the stream from
`PhysicalOffset` on; a code unit is two bytes, low byte first. `Read` throws when the stream
has fewer than two bytes left, and the handler empties `CurString`. -/
def FindStrings.readUtf16 (WinStr : CharacterStrategy) :
    List Nat → ProbeState → ProbeState
  | lo :: hi :: rest, st =>
    let WinChar := lo + 256 * hi
    if !WinStr.IsValidCharacter WinChar then { st with LastChar := some WinChar }
    else
      FindStrings.readUtf16 WinStr rest
        { PhysicalOffset := st.PhysicalOffset + 2
          CurString := st.CurString ++ WinStr.ConvertToUf8 WinChar
          LastChar := some WinChar }
  | _, st => { st with CurString := [] }

/-- The ASCII loop of `FindStrings` (lines 356-367) over the bytes of the stream from
`PhysicalOffset` on. -/
def FindStrings.readAscii (AsciiStr : CharacterStrategy) :
    List Nat → ProbeState → ProbeState
  | AsciiChar :: rest, st =>
    if !AsciiStr.IsValidCharacter AsciiChar then { st with LastChar := some AsciiChar }
    else
      FindStrings.readAscii AsciiStr rest
        { PhysicalOffset := st.PhysicalOffset + 1
          CurString := st.CurString ++ AsciiStr.ConvertToUf8 AsciiChar
          LastChar := some AsciiChar }
  | [], st => { st with CurString := [] }

/-- The test `IsFinalCharacter(Char) && !CurString.empty()` after a probing loop
(lines 342, 369). While nothing has been read `CurString` is empty. -/
def FindStrings.accepted (S : CharacterStrategy) (st : ProbeState) : Bool :=
  match st.LastChar with
  | some c => S.IsFinalCharacter c && !st.CurString.isEmpty
  | none => false

/-- The body of the loop of `FindStrings` over the labels (lines 310-375), for the label `p`. -/
def FindStrings.label (an : Analyzer) (WinStr AsciiStr : CharacterStrategy) (doc : Document)
    (p : Address × Label) : Document :=
  if p.2.GetType ≠ Label.Data then doc
  else
    match doc.GetMemoryArea p.1 with
    | none => doc
    | some pMemArea =>
      match pMemArea.Convert p.1.offset with
      | none => doc
      | some PhysicalOffset =>
        let w := FindStrings.readUtf16 WinStr (pMemArea.GetBinaryStream.drop PhysicalOffset)
          { PhysicalOffset := PhysicalOffset, CurString := [], LastChar := none }
        if FindStrings.accepted WinStr w then
          let doc := (doc.InsertCell p.1 (Cell.ofString String.Utf16Type w.CurString)).2
          doc.SetLabelToAddress p.1 (Label.withPrefix w.CurString an.m_StringPrefix Label.String)
        else
          let a := FindStrings.readAscii AsciiStr
            (pMemArea.GetBinaryStream.drop w.PhysicalOffset)
            { PhysicalOffset := w.PhysicalOffset, CurString := w.CurString, LastChar := none }
          if FindStrings.accepted AsciiStr a then
            let doc := (doc.InsertCell p.1 (Cell.ofString String.AsciiType a.CurString)).2
            doc.SetLabelToAddress p.1
              (Label.withPrefix a.CurString an.m_StringPrefix Label.String)
          else doc

/-- `Analyzer::FindStrings` (lines 304-377); the two character strategies it instantiates are
parameters, the architecture it is passed is not used. The labels are visited as they were
when the call began. -/
def FindStrings (an : Analyzer) (WinStr AsciiStr : CharacterStrategy) (doc : Document)
    (_rArch : Architecture) : Document :=
  doc.labels.foldl (FindStrings.label an WinStr AsciiStr) doc

/-- The loop of `MakeAsciiString` (lines 392-399) over the bytes of the stream from `StrOff`
on; `none` when `Read` throws at the end of the stream. -/
def MakeAsciiString.read : List Nat → Str → Option Str
  | CurChar :: rest, StrData =>
    if CurChar = 0 then some StrData
    else MakeAsciiString.read rest (StrData ++ [Char.ofNat CurChar])
  | [], _ => none

/-- `Analyzer::MakeAsciiString` (lines 379-413). The source dereferences the memory area
without a test; an address without one is taken to fail. `AddLabel` is called with its
default third argument, taken to be forcing. -/
def MakeAsciiString (an : Analyzer) (doc : Document) (rAddr : Address) : Bool × Document :=
  match doc.GetMemoryArea rAddr with
  | none => (false, doc)
  | some pMemArea =>
    match pMemArea.Convert rAddr.offset with
    | none => (false, doc)
    | some StrOff =>
      match MakeAsciiString.read (pMemArea.GetBinaryStream.drop StrOff) [] with
      | none => (false, doc)
      | some StrData =>
        if StrData.length = 0 then (false, doc)
        else
          let doc := (doc.InsertCell rAddr (Cell.ofString String.AsciiType StrData)).2
          (true, doc.AddLabel rAddr
            ⟨an.m_StringPrefix ++ StrData, Label.String ||| Label.Global⟩ true)

/-- The loop of `MakeWindowsString` (lines 432-440): the text and the number of bytes read;
`none` when `Read` throws at the end of the stream. -/
def MakeWindowsString.read (WinStr : CharacterStrategy) : List Nat → Str → Nat →
    Option (Str × Nat)
  | lo :: hi :: rest, StrData, n =>
    let CurChar := lo + 256 * hi
    if WinStr.IsFinalCharacter CurChar then some (StrData, n + 2)
    else MakeWindowsString.read WinStr rest (StrData ++ WinStr.ConvertToUf8 CurChar) (n + 2)
  | _, _, _ => none

/-- `Analyzer::MakeWindowsString` (lines 415-454), with the same conventions as
`MakeAsciiString`. -/
def MakeWindowsString (an : Analyzer) (WinStr : CharacterStrategy) (doc : Document)
    (rAddr : Address) : Bool × Document :=
  match doc.GetMemoryArea rAddr with
  | none => (false, doc)
  | some pMemArea =>
    match pMemArea.Convert rAddr.offset with
    | none => (false, doc)
    | some StrOff =>
      match MakeWindowsString.read WinStr (pMemArea.GetBinaryStream.drop StrOff) [] 0 with
      | none => (false, doc)
      | some (StrData, len) =>
        if StrData.length = 0 then (false, doc)
        else
          let doc := (doc.InsertCell rAddr (Cell.string String.Utf16Type StrData (len % 2 ^ 16))).2
          (true, doc.AddLabel rAddr
            ⟨an.m_StringPrefix ++ StrData, Label.String ||| Label.Global⟩ true)

/-! ## Example inputs for the string recognizer -/

/-- An example strategy for both encodings: the printable ASCII range is valid, the code unit
0 is final, a code unit converts to the character of that number. -/
def toyStrategy : CharacterStrategy :=
  { IsValidCharacter := fun c => decide (32 ≤ c) && decide (c < 127)
    IsFinalCharacter := fun c => decide (c = 0)
    ConvertToUf8 := fun c => [Char.ofNat c] }

/-- A Document with one readable area of the given bytes at `0:5000` and a label of kind
`Data` on `0:5000`. -/
def dataDocument (bytes : List Nat) : Document :=
  { areas := [⟨⟨0, 5000⟩, bytes.length, 1, bytes⟩]
    cells := []
    multicells := []
    labels := [(⟨0, 5000⟩, ⟨"dat_0_5000".toList, Label.Data⟩)]
    xrefs := [] }

/-- The bytes `48 00 69 6A 00`: as ASCII the text "H" and its terminator; as UTF-16 the valid
unit `0048` followed by the invalid unit `6A69`. -/
def mixedDoc : Document := dataDocument [0x48, 0x00, 0x69, 0x6A, 0x00]

/-- The bytes `48 69 00`: "Hi" in ASCII with its terminator. -/
def asciiDoc : Document := dataDocument [0x48, 0x69, 0x00]

/-- The thunk of the seed scenario: the code cell `jmp 0:3000` at `0:1000`, and the label
`printf` on `0:3000`. -/
def thunkDoc : Document :=
  { areas := [⟨⟨0, 1000⟩, 2, MA_EXEC, [0xEB, 0x00]⟩, ⟨⟨0, 3000⟩, 1, MA_EXEC, [0x00]⟩]
    cells := [(⟨0, 1000⟩, Cell.instruction (toyJmp 1998))]
    multicells := []
    labels := [(⟨0, 3000⟩, ⟨"printf".toList, Label.Code ||| Label.Imported⟩)]
    xrefs := [] }

/-- The Document `thunkDoc` before anything was decoded: raw bytes at `0:1000`, where no
instruction is stored, and the label `printf` on `0:3000`. -/
def rawThunkDoc : Document := { thunkDoc with cells := [] }

/-- An example of what the unchecked cast of `CreateFunction` may read from a cell that is not
an instruction: the members of a `jmp` to the address 2000 further. -/
def jmpView : Cell → Instruction := fun _ => toyJmp 1998

/-- Executable areas holding `call 0:2000; ret` at `0:1000` and, at `0:2000`, a byte the
decoder rejects. -/
def badCallDoc : Document :=
  rawDocument [⟨⟨0, 1000⟩, 6, MA_EXEC, [0xE8, 0xD0, 0x07, 0x00, 0x00, 0xC3]⟩,
    ⟨⟨0, 2000⟩, 1, MA_EXEC, [0x00]⟩]

/-! ## Label names -/

/-- Whether a name starts with one of the four configured prefixes of the analyzer. -/
def hasConfiguredPrefix (an : Analyzer) (name : Str) : Bool :=
  an.m_LabelPrefix.isPrefixOf name || an.m_DataPrefix.isPrefixOf name ||
    an.m_StringPrefix.isPrefixOf name || an.m_FunctionPrefix.isPrefixOf name

/-! ## Definitions used by the theorems on function delimitation -/

/-- An unconditional return as `ComputeFunctionLength` tests it (lines 285-286): the Ret bit
is set and the Cond bit is clear, on an instruction whose Jump bit is clear. -/
def isUnconditionalRet (insn : Instruction) : Bool :=
  decide (insn.opType &&& OpJump = 0) && decide (insn.opType &&& OpRet ≠ 0) &&
    decide (insn.opType &&& OpCond = 0)

/-- Whether the cell at the address is an unconditional return. -/
def Document.retAt (doc : Document) (a : Address) : Bool :=
  match doc.RetrieveInstruction a with
  | some insn => isUnconditionalRet insn
  | none => false

/-- Control flow over code cells, in the words of the specification: from the instruction at
`a`, "fall-through after every instruction that is not an unconditional jump or unconditional
ret, the fall-through of a conditional jump, and the operand-0 target of a jump that is
resolved and not memory-indirect". -/
def flowStep (doc : Document) (a b : Address) : Bool :=
  match doc.RetrieveInstruction a with
  | none => false
  | some insn =>
    if insn.opType &&& OpJump ≠ 0 then
      (decide (insn.opType &&& OpCond ≠ 0) && decide (b = a + insn.length)) ||
        (decide ((insn.Operand 0).type &&& O_MEM = 0) &&
          decide (insn.GetOperandReference 0 a = some b))
    else !isUnconditionalRet insn && decide (b = a + insn.length)

/-- The step from an instruction to the address right after it, whatever the instruction. -/
def layoutStep (doc : Document) (a b : Address) : Bool :=
  match doc.RetrieveInstruction a with
  | none => false
  | some insn => decide (b = a + insn.length)

/-- An unconditional return can be reached from `start` along the steps `step`. -/
def RetReachable (step : Address → Address → Bool) (doc : Document) (start : Address) : Prop :=
  ∃ r, Relation.ReflTransGen (fun a b => step a b = true) start r ∧ doc.retAt r = true

/-- Every instruction stored in the Document occupies at least one address. -/
def Document.codeHasLength (doc : Document) : Bool :=
  doc.cells.all (fun p =>
    match p.2 with
    | Cell.instruction insn => decide (1 ≤ insn.length)
    | _ => true)

/-- The number of stored cells that are code and not yet visited. -/
def unvisitedCode (doc : Document) (V : List Address) : Nat :=
  doc.cells.countP (fun p => (doc.RetrieveInstruction p.1).isSome && !V.contains p.1)

/-- An iteration budget under which `ComputeFunctionLength` without threshold returns. -/
def ComputeFunctionLength.budget (doc : Document) : Nat :=
  (doc.cells.length + 1) * (doc.endOffset + 2) + 1

/-- What the traversal of `ComputeFunctionLength` maintains while `pending` holds the
addresses still to be followed: each successor of a visited instruction is visited, pending
or not code; a visited unconditional return has set `RetReached`; the start is accounted
for. -/
structure LengthInvariant (doc : Document) (start : Address) (st : LengthState)
    (pending : List Address) : Prop where
  closed : ∀ v ∈ st.VisitedInstruction, ∀ b, flowStep doc v b = true →
    b ∈ st.VisitedInstruction ∨ b ∈ pending ∨ doc.RetrieveInstruction b = none
  ret : ∀ v ∈ st.VisitedInstruction, doc.retAt v = true → st.RetReached = true
  start : start ∈ st.VisitedInstruction ∨ start ∈ pending ∨
    doc.RetrieveInstruction start = none

/-- The addresses `ComputeFunctionLength` still has to follow, and the return it has seen if
any, can be reached from `start` along the steps `step`. -/
structure LengthReach (step : Address → Address → Bool) (doc : Document) (start : Address)
    (st : LengthState) : Prop where
  stack : ∀ a ∈ st.CallStack, Relation.ReflTransGen (fun a b => step a b = true) start a
  ret : st.RetReached = true → RetReachable step doc start

/-- A two-byte unconditional jump to the offset `t` of its own base. -/
def toyJmpBack (t : Nat) : Instruction :=
  ⟨1, "jmp".toList, OpJump, 2, [⟨0, fun a => some ⟨a.base, t⟩, fun a => some (a + 1), 0⟩]⟩

/-- Code cells `nop` at `0:1000`, `jmp 0:1000` at `0:1001` and, laid out after them, `ret` at
`0:1003`. -/
def loopRetDoc : Document :=
  codeDocument 4 [(⟨0, 1000⟩, toyNop), (⟨0, 1001⟩, toyJmpBack 1000), (⟨0, 1003⟩, toyRet)]

/-- Code cells `jmp 0:1003` at `0:1000`, `ret` at `0:1002` and `nop` at `0:1003`, after which
the area ends. -/
def skippedRetDoc : Document :=
  codeDocument 4 [(⟨0, 1000⟩, toyJmp 1), (⟨0, 1002⟩, toyRet), (⟨0, 1003⟩, toyNop)]

/-! ## Example inputs for the string recognizer after the cross-reference builder -/

/-- The Document `dataRefDoc` after `CreateXRefs` on its `mov` at `0:1000`: the datum at
`0:5000`, the UTF-16 text "Hi" with its terminator, now carries the label `dat_0_5000`. -/
def dataRefAnalyzed : Document := CreateXRefs Analyzer.initial dataRefDoc ⟨0, 1000⟩

/-! ## Definitions used by the theorems on counting -/

/-- The length of the instruction stored at an address, 0 if there is none. -/
def Document.lengthAt (doc : Document) (a : Address) : Nat :=
  match doc.RetrieveInstruction a with
  | some insn => insn.length
  | none => 0

/-- The sum of the lengths of the instructions at the addresses of a list. -/
def visitedBytes (doc : Document) (V : List Address) : Nat :=
  (V.map doc.lengthAt).sum

/-- What `ComputeFunctionLength` maintains about its counters: the visited addresses are
distinct code addresses, `rInstructionCounter` is their number and `rFunctionLength` the sum
of the lengths of their instructions, both as 16-bit quantities, and `FuncLen` is that sum as
a 32-bit quantity. -/
structure CountInvariant (doc : Document) (st : LengthState) : Prop where
  nodup : st.VisitedInstruction.Nodup
  code : ∀ a ∈ st.VisitedInstruction, (doc.RetrieveInstruction a).isSome = true
  count : st.rInstructionCounter = st.VisitedInstruction.length % 2 ^ 16
  bytes : st.rFunctionLength = visitedBytes doc st.VisitedInstruction % 2 ^ 16
  funcLen : st.FuncLen = visitedBytes doc st.VisitedInstruction % 2 ^ 32

/-- The state in which the loops of `ComputeFunctionLength` start. -/
def LengthState.initial (rFunctionAddress : Address) : LengthState :=
  { CallStack := [rFunctionAddress], VisitedInstruction := [], RetReached := false,
    FuncLen := 0, EndAddr := rFunctionAddress, rFunctionLength := 0,
    rInstructionCounter := 0 }

/-- Code cells of a chain of `n` two-byte unconditional jumps, each to the instruction after
it, from `0:1000` on, followed by a one-byte `ret`. -/
def jumpChainDoc (n : Nat) : Document :=
  codeDocument (2 * n + 1)
    ((List.range n).map (fun i => ((⟨0, 1000 + 2 * i⟩ : Address), toyJmp 0)) ++
      [(⟨0, 1000 + 2 * n⟩, toyRet)])

/-! ## Definitions used by the theorems comparing the two traversals -/

/-- The states of `ComputeFunctionLength` and `BuildControlFlowGraph` agree: same stack, same
visited addresses, same `RetReached`, and `Addresses` lists the visited addresses in the order
of the visits. -/
structure TraversalSim (stL : LengthState) (stC : CfgState) : Prop where
  stack : stC.CallStack = stL.CallStack
  visited : stC.VisitedInstruction = stL.VisitedInstruction
  ret : stC.RetReached = stL.RetReached
  addresses : stC.Addresses = stL.VisitedInstruction.reverse

/-- Code cells: `jz 0:1003` at `0:1000`, `ret` at `0:1002`, `jmp 0:1002` at `0:1003` and a
further `ret` at `0:1005`. -/
def reentryDoc : Document :=
  codeDocument 6 [(⟨0, 1000⟩, toyJz 1), (⟨0, 1002⟩, toyRet), (⟨0, 1003⟩, toyJmpBack 1002),
    (⟨0, 1005⟩, toyRet)]

/-! ## Operand trackers -/

/-- What `TrackOperand` uses and the sources do not hold: `Document::
FindFunctionAddressFromAddress` (the addresses of the functions an address lies in),
`ControlFlowGraph::GetNextAddress` (appends the successors of an address to a list and tells
whether there was one), `Document::MoveAddress` (the address a number of cells further, if
any) and the visitor `Tracker`, which is called with the Document and an address, may change
its own state and the Document, and answers whether to go on. They are parameters here. -/
structure TrackerContext (σ : Type) where
  FindFunctionAddressFromAddress : Document → Address → List Address
  GetNextAddress : ControlFlowGraph → Address → List Address → Bool × List Address
  MoveAddress : Document → Address → Int → Option Address
  rTracker : σ → Document → Address → Bool × σ × Document

/-- How the traversal of one function by `TrackOperand` ended: the `while` condition found
the worklist empty, or the `return` of line 887 was taken. -/
inductive TrackEnd where
  | worklistEmpty
  | hitEnd
  deriving DecidableEq, Repr

/-- What `TrackOperand` carries: the map `TrackedAddresses`, the state of the visitor and the
Document, together with the addresses the visitor has been called on so far, in the order of
the calls. -/
structure TrackState (σ : Type) where
  TrackedAddresses : List Address
  tracker : σ
  doc : Document
  visits : List Address

/-- The state after the lines 884-886 for an address not tracked before: it is marked and the
visitor has been called on it. -/
def TrackState.visit {σ : Type} (ctx : TrackerContext σ) (st : TrackState σ) (Addr : Address) :
    TrackState σ :=
  { TrackedAddresses := Addr :: st.TrackedAddresses
    tracker := (ctx.rTracker st.tracker st.doc Addr).2.1
    doc := (ctx.rTracker st.tracker st.doc Addr).2.2
    visits := st.visits ++ [Addr] }

/-- The loop `while (!AllAddrs.empty())` of `TrackOperand` (lines 879-888) over the graph of
one function. `none` when the iteration budget is used up. -/
def TrackOperand.loop {σ : Type} (ctx : TrackerContext σ) (rCfg : ControlFlowGraph) :
    Nat → List Address → TrackState σ → Option (TrackEnd × TrackState σ)
  | 0, _, _ => none
  | _ + 1, [], st => some (TrackEnd.worklistEmpty, st)
  | fuel + 1, Addr :: AllAddrs, st =>
    if st.TrackedAddresses.contains Addr then TrackOperand.loop ctx rCfg fuel AllAddrs st
    else
      if (ctx.rTracker st.tracker st.doc Addr).1 then
        if !(ctx.GetNextAddress rCfg Addr AllAddrs).1 then
          some (TrackEnd.hitEnd, st.visit ctx Addr)
        else
          TrackOperand.loop ctx rCfg fuel (ctx.GetNextAddress rCfg Addr AllAddrs).2
            (st.visit ctx Addr)
      else TrackOperand.loop ctx rCfg fuel AllAddrs (st.visit ctx Addr)

/-- The `std::for_each` over `FuncAddrs` of `TrackOperand` (lines 871-889): a function
address without a `Function` multicell is passed over. -/
def TrackOperand.functions {σ : Type} (ctx : TrackerContext σ) (fuel : Nat)
    (rStartAddress : Address) : List Address → TrackState σ → Option (TrackState σ)
  | [], st => some st
  | rFuncAddr :: rest, st =>
    match GetMultiCell st.doc rFuncAddr with
    | none => TrackOperand.functions ctx fuel rStartAddress rest st
    | some pFunc =>
      match TrackOperand.loop ctx pFunc.cfg fuel [rStartAddress] st with
      | none => none
      | some (_, st) => TrackOperand.functions ctx fuel rStartAddress rest st

/-- The loop `while (rDoc.MoveAddress(CurAddr, CurAddr, 1))` of `TrackOperand`
(lines 893-898), taken when the start address lies in no function. -/
def TrackOperand.linear {σ : Type} (ctx : TrackerContext σ) :
    Nat → Address → TrackState σ → Option (TrackState σ)
  | 0, _, _ => none
  | fuel + 1, CurAddr, st =>
    match ctx.MoveAddress st.doc CurAddr 1 with
    | none => some st
    | some CurAddr =>
      let r := ctx.rTracker st.tracker st.doc CurAddr
      let st := { st with tracker := r.2.1, doc := r.2.2, visits := st.visits ++ [CurAddr] }
      if !r.1 then some st else TrackOperand.linear ctx fuel CurAddr st

/-- `Analyzer::TrackOperand` (lines 866-904). `none` when the iteration budget `fuel` is used
up by one of its loops. -/
def TrackOperand {σ : Type} (fuel : Nat) (ctx : TrackerContext σ) (doc : Document)
    (rStartAddress : Address) (tracker : σ) : Option (TrackState σ) :=
  let FuncAddrs := ctx.FindFunctionAddressFromAddress doc rStartAddress
  let st : TrackState σ :=
    { TrackedAddresses := [], tracker := tracker, doc := doc, visits := [] }
  if !FuncAddrs.isEmpty then TrackOperand.functions ctx fuel rStartAddress FuncAddrs st
  else TrackOperand.linear ctx fuel rStartAddress st

/-! ## Example inputs for the operand tracker -/

/-- An example of `GetNextAddress`: the successors of an address are the address after it in
its vertex and the destinations of the edges that leave it. -/
def toyGetNextAddress (g : ControlFlowGraph) (a : Address) (l : List Address) :
    Bool × List Address :=
  let inBlock := g.vertices.flatMap (fun v =>
    match v.dropWhile (fun x => !decide (x = a)) with
    | _ :: b :: _ => [b]
    | _ => [])
  let byEdge := (g.edges.filter (fun e => decide (e.1 = a))).map (fun e => e.2.1)
  (!(inBlock ++ byEdge).isEmpty, l ++ inBlock ++ byEdge)

/-- An example context: an address lies in the functions whose multicell starts at or before
it in the same base, the visitor counts its calls and answers true except at the addresses of
`stop`. -/
def toyTrackerContext (stop : List Address) : TrackerContext Nat :=
  { FindFunctionAddressFromAddress := fun doc a =>
      (doc.multicells.filter (fun p => decide (p.1.base = a.base) &&
        decide (p.1.offset ≤ a.offset))).map (fun p => p.1)
    GetNextAddress := toyGetNextAddress
    MoveAddress := fun doc a n =>
      if doc.IsPresent ⟨a.base, (a.offset + n).toNat⟩ then some ⟨a.base, (a.offset + n).toNat⟩
      else none
    rTracker := fun s doc a => (!stop.contains a, s + 1, doc) }

/-- The diamond `jz 0:1003; nop; ret` with its function at `0:1000`: the graph has the
vertices `[0:1000]`, `[0:1002]` and `[0:1003]`, the edges `True` to `0:1003` and `False` to
`0:1002`. -/
def diamondFunctionDoc : Document :=
  { diamondDoc with
    multicells := [(⟨0, 1000⟩, ⟨4, 3,
      ⟨[[⟨0, 1000⟩], [⟨0, 1002⟩], [⟨0, 1003⟩]],
        [(⟨0, 1000⟩, ⟨0, 1003⟩, EdgeType.True), (⟨0, 1000⟩, ⟨0, 1002⟩, EdgeType.False)]⟩⟩)] }

/-! ## Definitions used by the theorems on the termination of the driver -/

/-- The cells of the Document are well formed: no two stored cells start at the same address
or share an address, every stored cell starts at a mapped address, and every stored
instruction occupies at least one address. -/
structure CellsWellFormed (doc : Document) : Prop where
  disjoint : doc.cells.Pairwise (fun p q =>
    p.1 ≠ q.1 ∧ rangesMeet p.1 p.2.GetLength q.1 q.2.GetLength = false)
  present : ∀ p ∈ doc.cells, doc.IsPresent p.1 = true
  length : doc.codeHasLength = true

/-- The stored cells that are instructions. -/
def Document.codeList (doc : Document) : List (Address × Cell) :=
  doc.cells.filter (fun p => p.2.isInstruction)

/-- The number of stored instructions. -/
def Document.codeCount (doc : Document) : Nat := doc.codeList.length

/-- The addresses the memory areas of the Document map. -/
def Document.addresses (doc : Document) : List Address :=
  doc.areas.flatMap (fun m =>
    (List.range m.size).map (fun i => ⟨m.virtualBase.base, m.virtualBase.offset + i⟩))

/-- The number of addresses the Document maps, each counted once for every area that maps
it. -/
def Document.addressCount (doc : Document) : Nat := doc.addresses.length

/-- What `DisassembleBasicBlock` has tested for each instruction of the block it returns: the
cell at its address was a raw value and no address of its range contained code. -/
def BlockFree (doc : Document) : Address → List Instruction → Prop
  | _, [] => True
  | addr, insn :: rest =>
    (∃ c, doc.RetrieveCell addr = some c ∧ c.isValue = true) ∧
    codeInRange doc addr insn.length = false ∧
    BlockFree doc (addr + insn.length) rest

/-- What the loop over a basic block maintains, with `doc0` the Document the block was decoded
from and `a` the address the next instruction of the block was decoded at: the cells are well
formed, the areas are those of `doc0`, a stored instruction is one of `doc0` or lies before
`a`, and the cursor of the driver is at `a` or at an address that contains code. -/
structure BlockInv (doc0 : Document) (a : Address) (st : BlockState) : Prop where
  wf : CellsWellFormed st.doc
  areas : st.doc.areas = doc0.areas
  fresh : ∀ p ∈ st.doc.codeList, p ∈ doc0.codeList ∨
    (p.1.base = a.base ∧ p.1.offset + p.2.GetLength ≤ a.offset)
  sync : st.CurAddr = a ∨ st.doc.ContainsCode st.CurAddr = true

/-- An iteration budget under which the loops of `DisassembleFollowingExecutionPath` and the
function creation that follows them return. -/
def DisassembleFollowingExecutionPath.budget (doc : Document) : Nat :=
  (doc.addressCount + 1) * (doc.endOffset + 8) + 4

/-- How the Document and the stack of the driver after some iterations compare with those
before: the cells are well formed, the areas are the same, no stored instruction has been
removed, and at most five addresses have been pushed for each instruction stored since. -/
structure DriverStep (st st2 : DriverState) : Prop where
  wf : CellsWellFormed st2.doc
  areas : st2.doc.areas = st.doc.areas
  kept : ∀ p ∈ st.doc.codeList, p ∈ st2.doc.codeList
  mono : st.doc.codeCount ≤ st2.doc.codeCount
  pushes : st2.CallStack.length + 5 * st.doc.codeCount ≤
    st.CallStack.length + 5 * st2.doc.codeCount

/-- Executable area at `0:1000` holding `call 0:1000; ret`: the call targets itself. -/
def selfCallDoc : Document :=
  rawDocument [⟨⟨0, 1000⟩, 6, MA_EXEC, [0xE8, 0xE8, 0x03, 0x00, 0x00, 0xC3]⟩]

/-! ## Definitions used by the theorems on function discovery -/

/-- The address is a call target this run discovered: it is the operand-0 target of an
instruction that the back-end decodes, that is stored in `doc` at an address which held no
code in `doc0`, the Document the run began with, and whose operation type selects the `OpCall`
case of the driver's dispatch (line 98). -/
def IsDiscoveredCallTarget (rArch : Architecture) (doc0 doc : Document) (d : Address) : Prop :=
  ∃ (insn : Instruction) (cur : Address),
    doc.RetrieveInstruction cur = some insn ∧
    doc0.ContainsCode cur = false ∧
    (∃ s o, rArch.Disassemble s o = some insn) ∧
    insn.opType &&& (OpCall ||| OpJump ||| OpRet) = OpCall ∧
    insn.GetOperandReference 0 cur = some d

/-! ## Definitions used by the theorem on the walks of the two traversals -/

/-- The inner loop of `meetsCfgGuard`: the walk of the inner loop of `ComputeFunctionLength`
(lines 252-298, no threshold) with its stack and its visited list only, stopped with `true`
where one of the two guards of `BuildControlFlowGraph` applies that `ComputeFunctionLength`
does not have: at an already visited unconditional return that is followed by code (lines
545-551 against 256-260), and at a conditional jump, not yet visited, whose operand 0 is
memory-indirect or does not resolve (lines 564-575 against 272-279). -/
def meetsCfgGuard.inner (doc : Document) :
    Nat → Address → List Address → List Address → Option (Bool × List Address × List Address)
  | 0, _, _, _ => none
  | fuel + 1, CurAddr, CallStack, Visited =>
    match doc.RetrieveInstruction CurAddr with
    | none => some (false, CallStack, Visited)
    | some rInsn =>
      if Visited.contains CurAddr then
        if (rInsn.opType &&& OpRet ≠ 0 ∧ ¬ (rInsn.opType &&& OpCond ≠ 0)) ∧
            (doc.RetrieveInstruction (CurAddr + rInsn.length)).isSome = true then
          some (true, CallStack, Visited)
        else meetsCfgGuard.inner doc fuel (CurAddr + rInsn.length) CallStack Visited
      else
        if rInsn.opType &&& OpJump ≠ 0 then
          if rInsn.opType &&& OpCond ≠ 0 then
            if (rInsn.Operand 0).type &&& O_MEM ≠ 0 then
              some (true, CallStack, CurAddr :: Visited)
            else
              match rInsn.GetOperandReference 0 CurAddr with
              | none => some (true, CallStack, CurAddr :: Visited)
              | some DstAddr =>
                meetsCfgGuard.inner doc fuel DstAddr ((CurAddr + rInsn.length) :: CallStack)
                  (CurAddr :: Visited)
          else
            if (rInsn.Operand 0).type &&& O_MEM ≠ 0 then
              some (false, CallStack, CurAddr :: Visited)
            else
              match rInsn.GetOperandReference 0 CurAddr with
              | none => some (false, CallStack, CurAddr :: Visited)
              | some DstAddr =>
                meetsCfgGuard.inner doc fuel DstAddr CallStack (CurAddr :: Visited)
        else if rInsn.opType &&& OpRet ≠ 0 ∧ ¬ (rInsn.opType &&& OpCond ≠ 0) then
          some (false, CallStack, CurAddr :: Visited)
        else meetsCfgGuard.inner doc fuel (CurAddr + rInsn.length) CallStack (CurAddr :: Visited)

/-- The outer loop of `meetsCfgGuard`: the walk of the outer loop of `ComputeFunctionLength`
(lines 247-301). -/
def meetsCfgGuard.outer (doc : Document) : Nat → List Address → List Address → Option Bool
  | 0, _, _ => none
  | fuel + 1, CallStack, Visited =>
    match CallStack with
    | [] => some false
    | CurAddr :: rest =>
      match meetsCfgGuard.inner doc fuel CurAddr rest Visited with
      | none => none
      | some (true, _, _) => some true
      | some (false, CallStack, Visited) => meetsCfgGuard.outer doc fuel CallStack Visited

/-- Whether the walk of `ComputeFunctionLength` from `rAddr` comes, before it ends, to a
place where `BuildControlFlowGraph` is guarded and `ComputeFunctionLength` is not: it
re-enters an already visited unconditional return that is followed by code, or it visits a
conditional jump whose operand 0 is memory-indirect or does not resolve. `none` when the
iteration budget `fuel` is used up. -/
def meetsCfgGuard (fuel : Nat) (doc : Document) (rAddr : Address) : Option Bool :=
  meetsCfgGuard.outer doc fuel [rAddr] []

/-- Code cells `nop` at `0:1000`, `ret` at `0:1001`, `nop` at `0:1002` and `ret` at `0:1003`:
the first return is followed by code. -/
def retMidDoc : Document :=
  codeDocument 4 [(⟨0, 1000⟩, toyNop), (⟨0, 1001⟩, toyRet), (⟨0, 1002⟩, toyNop),
    (⟨0, 1003⟩, toyRet)]

/-! ## Theorems: architecture registry -/

theorem and_one_shiftLeft_eq_zero (p i : Nat) :
    p &&& (1 <<< i) = 0 ↔ p.testBit i = false := by
  rw [Nat.one_shiftLeft]
  constructor
  · intro h
    have h2 : (p &&& 2 ^ i).testBit i = false := by rw [h]; simp
    rw [Nat.testBit_and, Nat.testBit_two_pow_self] at h2
    simpa using h2
  · intro h
    apply Nat.eq_of_testBit_eq
    intro j
    rw [Nat.testBit_and, Nat.testBit_two_pow, Nat.zero_testBit]
    by_cases hij : i = j
    · subst hij; simp [h]
    · simp [hij]

theorem findId_some (pool : Nat) : ∀ (n i k : Nat),
    RegisterArchitecture.findId pool i n = some k ↔
      (i ≤ k ∧ k < i + n ∧ pool.testBit k = false ∧ ∀ j, i ≤ j → j < k → pool.testBit j = true) := by
  intro n
  induction n with
  | zero =>
    intro i k
    simp only [RegisterArchitecture.findId]
    constructor
    · intro h; cases h
    · rintro ⟨h1, h2, -, -⟩; omega
  | succ n ih =>
    intro i k
    simp only [RegisterArchitecture.findId]
    by_cases hb : pool &&& (1 <<< i) = 0
    · rw [if_pos hb]
      have hbit := (and_one_shiftLeft_eq_zero pool i).1 hb
      constructor
      · intro h
        cases h
        exact ⟨le_refl _, by omega, hbit, fun j h1 h2 => by omega⟩
      · rintro ⟨h1, -, -, h4⟩
        by_cases hik : i = k
        · rw [hik]
        · have := h4 i (le_refl _) (by omega)
          rw [hbit] at this
          cases this
    · rw [if_neg hb, ih]
      have hbit : pool.testBit i = true := by
        cases hc : pool.testBit i
        · exact absurd ((and_one_shiftLeft_eq_zero pool i).2 hc) hb
        · rfl
      constructor
      · rintro ⟨h1, h2, h3, h4⟩
        refine ⟨by omega, by omega, h3, ?_⟩
        intro j hj1 hj2
        by_cases hji : j = i
        · rw [hji]; exact hbit
        · exact h4 j (by omega) hj2
      · rintro ⟨h1, h2, h3, h4⟩
        have hne : i ≠ k := by
          intro hik
          rw [hik] at hbit
          rw [hbit] at h3
          cases h3
        exact ⟨by omega, by omega, h3, fun j hj1 hj2 => h4 j (by omega) hj2⟩

theorem findId_none (pool : Nat) : ∀ (n i : Nat),
    RegisterArchitecture.findId pool i n = none ↔
      ∀ j, i ≤ j → j < i + n → pool.testBit j = true := by
  intro n
  induction n with
  | zero =>
    intro i
    simp only [RegisterArchitecture.findId]
    constructor
    · intro _ j h1 h2; omega
    · intro _; trivial
  | succ n ih =>
    intro i
    simp only [RegisterArchitecture.findId]
    by_cases hb : pool &&& (1 <<< i) = 0
    · rw [if_pos hb]
      have hbit := (and_one_shiftLeft_eq_zero pool i).1 hb
      constructor
      · intro h; cases h
      · intro h
        have := h i (le_refl _) (by omega)
        rw [hbit] at this
        cases this
    · rw [if_neg hb, ih]
      have hbit : pool.testBit i = true := by
        cases hc : pool.testBit i
        · exact absurd ((and_one_shiftLeft_eq_zero pool i).2 hc) hb
        · rfl
      constructor
      · intro h j hj1 hj2
        by_cases hji : j = i
        · rw [hji]; exact hbit
        · exact h j (by omega) (by omega)
      · intro h j hj1 hj2
        exact h j (by omega) (by omega)

/-- A 32-bit pool has all of its bits set exactly when it is `2^32 - 1`. -/
theorem pool_full_iff (pool : Nat) (h : pool < 2 ^ 32) :
    (∀ j, j < 32 → pool.testBit j = true) ↔ pool = 2 ^ 32 - 1 := by
  constructor
  · intro hall
    apply Nat.eq_of_testBit_eq
    intro j
    rw [Nat.testBit_two_pow_sub_one]
    by_cases hj : j < 32
    · simp [hj, hall j hj]
    · have : pool < 2 ^ j :=
        lt_of_lt_of_le h (Nat.pow_le_pow_right (by decide) (by omega))
      simp [hj, Nat.testBit_lt_two_pow this]
  · intro heq j hj
    rw [heq, Nat.testBit_two_pow_sub_one]
    simp [hj]

/-- The pool written by a successful registration: bit `i` is added, nothing else changes. -/
theorem pool_set_bit (pool i : Nat) (h : pool < 2 ^ 32) (hi : i < 32) :
    (pool ||| (1 <<< i)) % 2 ^ 32 = pool ||| 2 ^ i ∧ (pool ||| 2 ^ i) < 2 ^ 32 := by
  rw [Nat.one_shiftLeft]
  have h2 : 2 ^ i < 2 ^ 32 := Nat.pow_lt_pow_right (by decide) hi
  have h3 : pool ||| 2 ^ i < 2 ^ 32 := Nat.or_lt_two_pow h h2
  exact ⟨Nat.mod_eq_of_lt h3, h3⟩

/-- What `RegisterArchitecture` does when `i` is the lowest clear bit of the pool. -/
theorem register_of_lowest_clear (an : Analyzer) (a : Architecture) (i : Nat)
    (hi : i < 32) (hclear : an.m_ArchIdPool.testBit i = false)
    (hlow : ∀ j, j < i → an.m_ArchIdPool.testBit j = true) :
    RegisterArchitecture an a =
      (true,
        { an with
          m_ArchIdPool := (an.m_ArchIdPool ||| (1 <<< i)) % 2 ^ 32
          m_UsedArchitectures := fun t =>
            if t = a.tag then some { a with id := i } else an.m_UsedArchitectures t
          m_DefaultArchitectureTag :=
            if an.m_DefaultArchitectureTag = MEDUSA_ARCH_UNK then a.tag
            else an.m_DefaultArchitectureTag }) := by
  have hf : RegisterArchitecture.findId an.m_ArchIdPool 0 32 = some i :=
    (findId_some _ 32 0 i).2 ⟨Nat.zero_le _, by omega, hclear, fun j _ hj => hlow j hj⟩
  simp only [RegisterArchitecture, hf, Architecture.UpdateId, Architecture.GetTag]

/-- C1. `RegisterArchitecture`, for every 32-bit pool value: when `i` is the lowest clear bit
it returns true, sets exactly bit `i` of the pool, gives the architecture the id `i` and
stores it under its tag (other tags are untouched); it returns false exactly when all 32 bits
are set, and then the analyzer (pool, map, default tag) is unchanged. -/
theorem C1_register_architecture (an : Analyzer) (a : Architecture)
    (h32 : an.m_ArchIdPool < 2 ^ 32) :
    (∀ i, i < 32 → an.m_ArchIdPool.testBit i = false →
        (∀ j, j < i → an.m_ArchIdPool.testBit j = true) →
        (RegisterArchitecture an a).1 = true ∧
        (∀ k, (RegisterArchitecture an a).2.m_ArchIdPool.testBit k =
            (decide (k = i) || an.m_ArchIdPool.testBit k)) ∧
        (RegisterArchitecture an a).2.m_ArchIdPool < 2 ^ 32 ∧
        (RegisterArchitecture an a).2.m_UsedArchitectures a.GetTag = some { a with id := i } ∧
        (∀ t, t ≠ a.GetTag →
            (RegisterArchitecture an a).2.m_UsedArchitectures t = an.m_UsedArchitectures t)) ∧
    ((RegisterArchitecture an a).1 = false ↔ an.m_ArchIdPool = 2 ^ 32 - 1) ∧
    ((RegisterArchitecture an a).1 = false → (RegisterArchitecture an a).2 = an) := by
  refine ⟨?_, ?_, ?_⟩
  · intro i hi hclear hlow
    rw [register_of_lowest_clear an a i hi hclear hlow]
    obtain ⟨hp1, hp2⟩ := pool_set_bit an.m_ArchIdPool i h32 hi
    refine ⟨rfl, ?_, ?_, ?_, ?_⟩
    · intro k
      simp only [hp1, Nat.testBit_or, Nat.testBit_two_pow]
      by_cases hk : k = i
      · subst hk; simp
      · have : ¬ i = k := fun h => hk h.symm
        simp [hk, this]
    · simp only [hp1]; exact hp2
    · simp [Architecture.GetTag]
    · intro t ht
      simp only [Architecture.GetTag] at ht
      simp [ht]
  · rw [← pool_full_iff _ h32]
    cases hf : RegisterArchitecture.findId an.m_ArchIdPool 0 32 with
    | none =>
      simp only [RegisterArchitecture, hf, true_iff]
      intro j hj
      exact (findId_none _ 32 0).1 hf j (Nat.zero_le _) (by omega)
    | some k =>
      simp only [RegisterArchitecture, hf]
      constructor
      · intro h; cases h
      · intro hall
        obtain ⟨-, h2, h3, -⟩ := (findId_some _ 32 0 k).1 hf
        rw [hall k (by omega)] at h3
        cases h3
  · cases hf : RegisterArchitecture.findId an.m_ArchIdPool 0 32 with
    | none => simp only [RegisterArchitecture, hf, implies_true]
    | some k =>
      simp only [RegisterArchitecture, hf]
      intro h; cases h

/-- C1, at a concrete pool: ids 0, 1 and 3 are taken, so id 2 is handed out. -/
theorem C1_register_architecture_witness :
    (11 : Nat) < 2 ^ 32 ∧
    (RegisterArchitecture { Analyzer.initial with m_ArchIdPool := 11 } (archWithTag 7)).1 = true ∧
    (RegisterArchitecture { Analyzer.initial with m_ArchIdPool := 11 }
      (archWithTag 7)).2.m_UsedArchitectures (archWithTag 7).GetTag
        = some { archWithTag 7 with id := 2 } :=
  ⟨by decide,
   ((C1_register_architecture { Analyzer.initial with m_ArchIdPool := 11 } (archWithTag 7)
      (by decide)).1 2 (by decide) (by decide) (by decide)).1,
   ((C1_register_architecture { Analyzer.initial with m_ArchIdPool := 11 } (archWithTag 7)
      (by decide)).1 2 (by decide) (by decide) (by decide)).2.2.2.1⟩

/-- The two outcomes of `RegisterArchitecture`. -/
theorem register_cases (an : Analyzer) (a : Architecture) :
    (∃ i, i < 32 ∧ an.m_ArchIdPool.testBit i = false ∧
        (∀ j, j < i → an.m_ArchIdPool.testBit j = true) ∧
        RegisterArchitecture an a =
          (true,
            { an with
              m_ArchIdPool := (an.m_ArchIdPool ||| (1 <<< i)) % 2 ^ 32
              m_UsedArchitectures := fun t =>
                if t = a.tag then some { a with id := i } else an.m_UsedArchitectures t
              m_DefaultArchitectureTag :=
                if an.m_DefaultArchitectureTag = MEDUSA_ARCH_UNK then a.tag
                else an.m_DefaultArchitectureTag })) ∨
    ((∀ j, j < 32 → an.m_ArchIdPool.testBit j = true) ∧ RegisterArchitecture an a = (false, an)) := by
  cases hf : RegisterArchitecture.findId an.m_ArchIdPool 0 32 with
  | none =>
    right
    refine ⟨fun j hj => (findId_none _ 32 0).1 hf j (Nat.zero_le _) (by omega), ?_⟩
    simp only [RegisterArchitecture, hf]
  | some k =>
    left
    obtain ⟨-, h2, h3, h4⟩ := (findId_some _ 32 0 k).1 hf
    exact ⟨k, by omega, h3, fun j hj => h4 j (Nat.zero_le _) hj,
      register_of_lowest_clear an a k (by omega) h3 (fun j hj => h4 j (Nat.zero_le _) hj)⟩

/-- Bits below 32 of the pool written by a registration that found bit `i`. -/
theorem testBit_pool_after (pool i k : Nat) (hk : k < 32) :
    ((pool ||| (1 <<< i)) % 2 ^ 32).testBit k = (decide (k = i) || pool.testBit k) := by
  rw [Nat.testBit_mod_two_pow, Nat.testBit_or, Nat.one_shiftLeft, Nat.testBit_two_pow]
  by_cases hki : k = i
  · subst hki; simp [hk]
  · have : ¬ i = k := fun h => hki h.symm
    simp [hk, hki, this]

theorem allocated_after (pool i : Nat) (hi : i < 32) (hclear : pool.testBit i = false) :
    allocated ((pool ||| (1 <<< i)) % 2 ^ 32) = insert i (allocated pool) ∧
      i ∉ allocated pool := by
  constructor
  · ext k
    simp only [allocated, Finset.mem_filter, Finset.mem_range, Finset.mem_insert]
    constructor
    · rintro ⟨hk, hb⟩
      rw [testBit_pool_after _ _ _ hk] at hb
      by_cases hki : k = i
      · exact Or.inl hki
      · right; simp [hki] at hb; exact ⟨hk, hb⟩
    · rintro (hki | ⟨hk, hb⟩)
      · subst hki
        refine ⟨hi, ?_⟩
        rw [testBit_pool_after _ _ _ hi]; simp
      · refine ⟨hk, ?_⟩
        rw [testBit_pool_after _ _ _ hk, hb]; simp
  · simp [allocated, hclear]

theorem allocated_card_le (pool : Nat) : (allocated pool).card ≤ 32 := by
  have := Finset.card_filter_le (Finset.range 32) (fun j => pool.testBit j = true)
  simpa [allocated] using this

theorem allocated_full (pool : Nat) (h : 32 ≤ (allocated pool).card) :
    ∀ j, j < 32 → pool.testBit j = true := by
  have hsub : allocated pool ⊆ Finset.range 32 := Finset.filter_subset _ _
  have heq : allocated pool = Finset.range 32 :=
    Finset.eq_of_subset_of_card_le hsub (by simpa using h)
  intro j hj
  have : j ∈ allocated pool := by rw [heq]; simpa using hj
  exact (Finset.mem_filter.1 this).2

/-- One call never frees an id, and a `RegisterArchitecture` call either allocates a fresh id
or finds the pool full. -/
theorem registry_count (calls : List RegistryCall) : ∀ an : Analyzer,
    min 32 ((allocated an.m_ArchIdPool).card + (calls.filter RegistryCall.isRegister).length)
      ≤ (allocated (runRegistry an calls).1.m_ArchIdPool).card := by
  induction calls with
  | nil => intro an; simp [runRegistry]
  | cons c rest ih =>
    intro an
    cases c with
    | reset =>
      simpa [runRegistry, RegistryCall.isRegister, ResetArchitecture] using
        ih (ResetArchitecture an)
    | register a =>
      simp only [runRegistry, List.filter_cons, RegistryCall.isRegister, if_true,
        List.length_cons]
      have hrest := ih (RegisterArchitecture an a).2
      rcases register_cases an a with ⟨i, hi, hclear, -, heq⟩ | ⟨hfull, heq⟩
      · rw [heq] at hrest ⊢
        simp only at hrest ⊢
        obtain ⟨hins, hnot⟩ := allocated_after an.m_ArchIdPool i hi hclear
        rw [hins, Finset.card_insert_of_not_mem hnot] at hrest
        omega
      · rw [heq] at hrest ⊢
        simp only at hrest ⊢
        have : min 32 ((allocated an.m_ArchIdPool).card +
            ((rest.filter RegistryCall.isRegister).length + 1)) ≤
            min 32 ((allocated an.m_ArchIdPool).card +
            (rest.filter RegistryCall.isRegister).length) := by
          have h32 : 32 ≤ (allocated an.m_ArchIdPool).card := by
            have : allocated an.m_ArchIdPool = Finset.range 32 := by
              ext k
              simp only [allocated, Finset.mem_filter, Finset.mem_range]
              exact ⟨fun h => h.1, fun h => ⟨h, hfull k h⟩⟩
            rw [this]; simp
          omega
        exact le_trans this hrest

/-- Every id handed out by a run was free before the run and is below 32. -/
theorem handedOut_fresh (calls : List RegistryCall) : ∀ (an : Analyzer) (i : Nat),
    i ∈ handedOut an calls → i < 32 ∧ an.m_ArchIdPool.testBit i = false := by
  induction calls with
  | nil => intro an i h; simp [handedOut, runRegistry] at h
  | cons c rest ih =>
    intro an i h
    cases c with
    | reset =>
      have := ih (ResetArchitecture an) i (by simpa [handedOut, runRegistry] using h)
      simpa [ResetArchitecture] using this
    | register a =>
      rcases register_cases an a with ⟨k, hk, hclear, -, heq⟩ | ⟨-, heq⟩
      · simp only [handedOut, runRegistry, heq, if_true, Architecture.GetTag, Option.map_some',
          List.filterMap_cons, id_eq, List.mem_cons] at h
        rcases h with h | h
        · subst h; exact ⟨hk, hclear⟩
        · have := ih _ i (by simpa [handedOut] using h)
          refine ⟨this.1, ?_⟩
          have hb : ((an.m_ArchIdPool ||| (1 <<< k)) % 2 ^ 32).testBit i = false := this.2
          rw [testBit_pool_after _ _ _ this.1] at hb
          simp at hb
          exact hb.2
      · simp only [handedOut, runRegistry, heq, Bool.false_eq_true, if_false,
          List.filterMap_cons, id_eq] at h
        exact ih an i (by simpa [handedOut] using h)

/-- No id is handed out twice in a run. -/
theorem handedOut_nodup (calls : List RegistryCall) : ∀ an : Analyzer,
    (handedOut an calls).Nodup := by
  induction calls with
  | nil => intro an; simp [handedOut, runRegistry]
  | cons c rest ih =>
    intro an
    cases c with
    | reset => simpa [handedOut, runRegistry] using ih (ResetArchitecture an)
    | register a =>
      rcases register_cases an a with ⟨k, hk, hclear, -, heq⟩ | ⟨-, heq⟩
      · simp only [handedOut, runRegistry, heq, if_true, Architecture.GetTag, Option.map_some',
          List.filterMap_cons, id_eq, List.nodup_cons]
        refine ⟨?_, by simpa [handedOut] using ih _⟩
        intro hmem
        have : ((an.m_ArchIdPool ||| (1 <<< k)) % 2 ^ 32).testBit k = false :=
          (handedOut_fresh rest _ k (by simpa [handedOut] using hmem)).2
        rw [testBit_pool_after _ _ _ hk] at this
        simp at this
      · simp only [handedOut, runRegistry, heq, Bool.false_eq_true, if_false,
          List.filterMap_cons, id_eq]
        simpa [handedOut] using ih an

/-- C2. `ResetArchitecture` empties the architecture map and sets the default tag to unknown
but leaves the id bitmap as it is; hence in any sequence of `RegisterArchitecture` and
`ResetArchitecture` calls no id is handed out twice (nor one that was taken before the
sequence), and once 32 `RegisterArchitecture` calls have been made every further one fails,
whatever resets are interleaved. -/
theorem C2_reset_keeps_id_bitmap (an : Analyzer) (calls : List RegistryCall) :
    ((ResetArchitecture an).m_ArchIdPool = an.m_ArchIdPool ∧
      (∀ t, (ResetArchitecture an).m_UsedArchitectures t = none) ∧
      (ResetArchitecture an).m_DefaultArchitectureTag = MEDUSA_ARCH_UNK) ∧
    (handedOut an calls).Nodup ∧
    (∀ i, i ∈ handedOut an calls → i < 32 ∧ an.m_ArchIdPool.testBit i = false) ∧
    (∀ a : Architecture, 32 ≤ (calls.filter RegistryCall.isRegister).length →
      (RegisterArchitecture (runRegistry an calls).1 a).1 = false ∧
      (RegisterArchitecture (ResetArchitecture (runRegistry an calls).1) a).1 = false) := by
  refine ⟨⟨rfl, fun _ => rfl, rfl⟩, handedOut_nodup calls an, handedOut_fresh calls an, ?_⟩
  intro a h32
  have hcount := registry_count calls an
  have hfull := allocated_full (runRegistry an calls).1.m_ArchIdPool (by omega)
  constructor
  · rcases register_cases (runRegistry an calls).1 a with ⟨i, hi, hclear, -, -⟩ | ⟨-, heq⟩
    · rw [hfull i hi] at hclear; cases hclear
    · rw [heq]
  · rcases register_cases (ResetArchitecture (runRegistry an calls).1) a with
      ⟨i, hi, hclear, -, -⟩ | ⟨-, heq⟩
    · have := hfull i hi
      simp only [ResetArchitecture] at hclear
      rw [this] at hclear; cases hclear
    · rw [heq]

/-- C2, on a fresh analyzer: 32 registrations followed by a reset hand out the ids 0..31, and
the 33rd registration fails although the reset has emptied the map. -/
theorem C2_reset_keeps_id_bitmap_witness :
    32 ≤ ((List.replicate 32 (RegistryCall.register (archWithTag 7)) ++
        [RegistryCall.reset]).filter RegistryCall.isRegister).length ∧
    handedOut Analyzer.initial (List.replicate 32 (RegistryCall.register (archWithTag 7)) ++
        [RegistryCall.reset]) = List.range 32 ∧
    (RegisterArchitecture (runRegistry Analyzer.initial
        (List.replicate 32 (RegistryCall.register (archWithTag 7)) ++
          [RegistryCall.reset])).1 (archWithTag 9)).1 = false :=
  ⟨by decide, by decide,
   ((C2_reset_keeps_id_bitmap Analyzer.initial
      (List.replicate 32 (RegistryCall.register (archWithTag 7)) ++ [RegistryCall.reset])).2.2.2
      (archWithTag 9) (by decide)).1⟩

/-- The default tag, once it is not the unknown tag, is kept by every later registration. -/
theorem registerAll_default_kept (rest : List Architecture) : ∀ (an an2 : Analyzer),
    an.m_DefaultArchitectureTag ≠ MEDUSA_ARCH_UNK → registerAll an rest = some an2 →
    an2.m_DefaultArchitectureTag = an.m_DefaultArchitectureTag := by
  induction rest with
  | nil =>
    intro an an2 _ h
    simp only [registerAll, Option.some.injEq] at h
    rw [h]
  | cons b rest ih =>
    intro an an2 hne h
    rcases register_cases an b with ⟨i, -, -, -, heq⟩ | ⟨-, heq⟩
    · simp only [registerAll, heq, if_true] at h
      have := ih _ an2 (by simp [hne]) h
      simpa [hne] using this
    · simp [registerAll, heq] at h

/-- C3 (amended). `GetArchitecture tag` returns what the map stores under `tag`, and under the
default tag when `tag` is the unknown tag; after a non-empty sequence of successful
registrations on a registry whose default tag is unknown (fresh or freshly reset), provided the
first registered architecture's tag is not the unknown tag, the default tag is the tag of the
first architecture whatever was registered later, and `GetArchitecture` of the unknown tag
returns the architecture stored under that tag. -/
theorem C3_get_architecture_default (an an2 : Analyzer) (a : Architecture)
    (rest : List Architecture) (hfresh : an.m_DefaultArchitectureTag = MEDUSA_ARCH_UNK)
    (htag : a.GetTag ≠ MEDUSA_ARCH_UNK) (hreg : registerAll an (a :: rest) = some an2) :
    (∀ t, t ≠ MEDUSA_ARCH_UNK → GetArchitecture an2 t = an2.m_UsedArchitectures t) ∧
    GetArchitecture an2 MEDUSA_ARCH_UNK =
      an2.m_UsedArchitectures an2.m_DefaultArchitectureTag ∧
    an2.m_DefaultArchitectureTag = a.GetTag ∧
    GetArchitecture an2 MEDUSA_ARCH_UNK = an2.m_UsedArchitectures a.GetTag := by
  have hdef : an2.m_DefaultArchitectureTag = a.GetTag := by
    rcases register_cases an a with ⟨i, -, -, -, heq⟩ | ⟨-, heq⟩
    · simp only [registerAll, heq, if_true] at hreg
      have := registerAll_default_kept rest _ an2 (by simpa [hfresh] using htag) hreg
      simpa [hfresh, Architecture.GetTag] using this
    · simp [registerAll, heq] at hreg
  refine ⟨?_, ?_, hdef, ?_⟩
  · intro t ht
    simp [GetArchitecture, ht]
  · simp [GetArchitecture]
  · simp [GetArchitecture, hdef]

/-- C3 (amended), on a fresh analyzer: tags 5 then 6 are registered; the default stays 5. -/
theorem C3_get_architecture_default_witness :
    Analyzer.initial.m_DefaultArchitectureTag = MEDUSA_ARCH_UNK ∧
    (archWithTag 5).GetTag ≠ MEDUSA_ARCH_UNK ∧
    (registerAll Analyzer.initial [archWithTag 5, archWithTag 6]).isSome = true ∧
    ∀ an2, registerAll Analyzer.initial [archWithTag 5, archWithTag 6] = some an2 →
      an2.m_DefaultArchitectureTag = 5 :=
  ⟨rfl, by decide, by decide, fun an2 h =>
    (C3_get_architecture_default Analyzer.initial an2 (archWithTag 5) [archWithTag 6] rfl
      (by decide) h).2.2.1⟩

/-- C3 as stated fails: on a fresh analyzer register first an architecture whose tag is the
unknown tag and then one with tag 6. Both registrations succeed; the second one changes the
default tag to 6, and `GetArchitecture` of the unknown tag returns the second architecture
(id 1), not the one stored under the first architecture's tag (id 0). -/
theorem C3_counterexample :
    ∃ an2, registerAll Analyzer.initial [archWithTag MEDUSA_ARCH_UNK, archWithTag 6] = some an2 ∧
      Analyzer.initial.m_DefaultArchitectureTag = MEDUSA_ARCH_UNK ∧
      an2.m_DefaultArchitectureTag = 6 ∧
      an2.m_DefaultArchitectureTag ≠ (archWithTag MEDUSA_ARCH_UNK).GetTag ∧
      (GetArchitecture an2 MEDUSA_ARCH_UNK).map (fun x => x.id) = some 1 ∧
      (an2.m_UsedArchitectures (archWithTag MEDUSA_ARCH_UNK).GetTag).map (fun x => x.id) = some 0 ∧
      GetArchitecture an2 MEDUSA_ARCH_UNK ≠
        an2.m_UsedArchitectures (archWithTag MEDUSA_ARCH_UNK).GetTag :=
  ⟨(RegisterArchitecture (RegisterArchitecture Analyzer.initial
      (archWithTag MEDUSA_ARCH_UNK)).2 (archWithTag 6)).2,
    rfl, rfl, by decide, by decide, by decide, by decide,
    fun h => absurd (congrArg (Option.map (fun x => x.id)) h) (by decide)⟩

/-! ## Theorems: basic-block disassembler -/

theorem Address.add_add (a : Address) (n m : Nat) : (a + n) + m = a + (n + m) := by
  show Address.add (Address.add a n) m = Address.add a (n + m)
  simp [Address.add, Nat.add_assoc]

theorem Address.add_zero (a : Address) : a + 0 = a := by
  show Address.add a 0 = a
  simp [Address.add]

/-- What the decoding loop guarantees about its result. -/
theorem DisassembleBasicBlock.loop_spec (doc : Document) (rArch : Architecture) (Res : Bool) :
    ∀ (fuel : Nat) (CurAddr : Address) (pMemArea : MemoryArea) (bb : List Instruction)
      (reason : ExitReason) (Res2 : Bool) (bb2 : List Instruction),
    DisassembleBasicBlock.loop doc rArch fuel CurAddr pMemArea Res bb = some (reason, Res2, bb2) →
    ∃ ext, bb2 = bb ++ ext ∧
      (reason = ExitReason.terminator →
        Res2 = true ∧ ∃ last, bb2.getLast? = some last ∧ isTerminator last.opType = true) ∧
      (reason = ExitReason.containsCode →
        Res2 = true ∧ ∃ (m : MemoryArea) (pInsn : Instruction),
          rArch.Disassemble m.GetBinaryStream
            ((CurAddr + totalLength ext).offset - m.GetVirtualBase.offset)
              = some pInsn ∧
          codeInRange doc (CurAddr + totalLength ext) pInsn.length = true) ∧
      (reason = ExitReason.decoderFailed →
        ∃ m : MemoryArea,
          rArch.Disassemble m.GetBinaryStream
            ((CurAddr + totalLength ext).offset - m.GetVirtualBase.offset)
              = none) ∧
      (reason ≠ ExitReason.terminator → reason ≠ ExitReason.containsCode → Res2 = Res) := by
  intro fuel
  induction fuel with
  | zero => intro CurAddr pMemArea bb reason Res2 bb2 h; simp [DisassembleBasicBlock.loop] at h
  | succ fuel ih =>
    intro CurAddr pMemArea bb reason Res2 bb2 h
    unfold DisassembleBasicBlock.loop at h
    split at h
    · split at h
      · simp only [Option.some.injEq, Prod.mk.injEq] at h
        obtain ⟨rfl, rfl, rfl⟩ := h
        exact ⟨[], by simp, by simp, by simp, by simp, by simp⟩
      · split at h
        · simp only [Option.some.injEq, Prod.mk.injEq] at h
          obtain ⟨rfl, rfl, rfl⟩ := h
          exact ⟨[], by simp, by simp, by simp, by simp, by simp⟩
        · split at h
          · simp only [Option.some.injEq, Prod.mk.injEq] at h
            obtain ⟨rfl, rfl, rfl⟩ := h
            exact ⟨[], by simp, by simp, by simp, by simp, by simp⟩
          · split at h
            · simp only [Option.some.injEq, Prod.mk.injEq] at h
              obtain ⟨rfl, rfl, rfl⟩ := h
              exact ⟨[], by simp, by simp, by simp, by simp, by simp⟩
            · split at h
              · simp only [Option.some.injEq, Prod.mk.injEq] at h
                obtain ⟨rfl, rfl, rfl⟩ := h
                refine ⟨[], by simp, by simp, by simp, ?_, by simp⟩
                intro _
                refine ⟨?w, ?h⟩
                case h =>
                  simp only [totalLength, List.map_nil, List.sum_nil, Address.add_zero]
                  assumption
              · rename_i pInsn hdec
                split at h
                · rename_i hcode
                  simp only [Option.some.injEq, Prod.mk.injEq] at h
                  obtain ⟨rfl, rfl, rfl⟩ := h
                  refine ⟨[], by simp, by simp, ?_, by simp, by simp⟩
                  intro _
                  refine ⟨rfl, ?w, pInsn, ?h1, ?h2⟩
                  case h1 =>
                    simp only [totalLength, List.map_nil, List.sum_nil, Address.add_zero]
                    exact hdec
                  case h2 =>
                    simp only [totalLength, List.map_nil, List.sum_nil, Address.add_zero]
                    exact hcode
                · split at h
                  · rename_i hterm
                    simp only [Option.some.injEq, Prod.mk.injEq] at h
                    obtain ⟨rfl, rfl, rfl⟩ := h
                    refine ⟨[pInsn], rfl, ?_, by simp, by simp, by simp⟩
                    intro _
                    exact ⟨rfl, pInsn, by simp, hterm⟩
                  · obtain ⟨ext, hext, h1, h2, h3, h4⟩ := ih _ _ _ _ _ _ h
                    refine ⟨pInsn :: ext, by simp [hext], ?_, ?_, ?_, h4⟩
                    · intro hr
                      exact h1 hr
                    · intro hr
                      obtain ⟨hres, m2, p2, hd2, hc2⟩ := h2 hr
                      refine ⟨hres, m2, p2, ?_, ?_⟩
                      · simpa [totalLength, Address.add_add] using hd2
                      · simpa [totalLength, Address.add_add] using hc2
                    · intro hr
                      obtain ⟨m2, hd2⟩ := h3 hr
                      exact ⟨m2, by simpa [totalLength, Address.add_add] using hd2⟩
    · simp only [Option.some.injEq, Prod.mk.injEq] at h
      obtain ⟨rfl, rfl, rfl⟩ := h
      exact ⟨[], by simp, by simp, by simp, by simp, by simp⟩

theorem offset_lt_foldr_max (a : Address) : ∀ areas : List MemoryArea,
    areas.any (fun m => m.IsPresent a) = true →
    a.offset < (areas.map (fun m => m.virtualBase.offset + m.size)).foldr max 0 := by
  intro areas
  induction areas with
  | nil => intro h; simp at h
  | cons m rest ih =>
    intro h
    simp only [List.any_cons, Bool.or_eq_true] at h
    simp only [List.map_cons, List.foldr_cons]
    rcases h with h | h
    · simp only [MemoryArea.IsPresent, Bool.and_eq_true, decide_eq_true_eq] at h
      omega
    · have := ih h
      omega

theorem Document.offset_lt_endOffset (doc : Document) (a : Address)
    (h : doc.IsPresent a = true) : a.offset < doc.endOffset :=
  offset_lt_foldr_max a doc.areas h

/-- With a decoder that never yields an empty instruction, the decoding loop ends within as
many iterations as there are offsets left below the end of the Document. -/
theorem DisassembleBasicBlock.loop_terminates (doc : Document) (rArch : Architecture)
    (Res : Bool) (hlen : ∀ s o i, rArch.Disassemble s o = some i → 0 < i.length) :
    ∀ (fuel : Nat) (CurAddr : Address) (pMemArea : MemoryArea) (bb : List Instruction),
    doc.endOffset - CurAddr.offset < fuel →
    (DisassembleBasicBlock.loop doc rArch fuel CurAddr pMemArea Res bb).isSome = true := by
  intro fuel
  induction fuel with
  | zero => intro CurAddr pMemArea bb h; omega
  | succ fuel ih =>
    intro CurAddr pMemArea bb h
    unfold DisassembleBasicBlock.loop
    split
    · rename_i hp
      have hlt := doc.offset_lt_endOffset CurAddr hp
      split
      · rfl
      · split
        · rfl
        · split
          · rfl
          · split
            · rfl
            · split
              · rfl
              · rename_i pInsn hdec
                split
                · rfl
                · split
                  · rfl
                  · apply ih
                    have := hlen _ _ _ hdec
                    show doc.endOffset - (CurAddr.offset + pInsn.length) < fuel
                    omega
    · rfl

/-- The result of `DisassembleBasicBlock` in terms of the run up to `exit`. -/
theorem DisassembleBasicBlock.of_run (fuel : Nat) (doc : Document) (rArch : Architecture)
    (rAddr : Address) (bb0 : List Instruction) (reason : ExitReason) (Res : Bool)
    (bb : List Instruction)
    (himp : (doc.GetLabelFromAddress rAddr).GetType &&& Label.Imported = 0)
    (hrun : DisassembleBasicBlock.run fuel doc rArch rAddr bb0 = some (reason, Res, bb)) :
    DisassembleBasicBlock fuel doc rArch rAddr bb0 =
      if Res = false then some (false, []) else some (true, bb) := by
  simp [DisassembleBasicBlock, himp, hrun]

/-- What the run up to `exit` guarantees about its result. -/
theorem DisassembleBasicBlock.run_spec (fuel : Nat) (doc : Document) (rArch : Architecture)
    (rAddr : Address) (bb0 : List Instruction) (reason : ExitReason) (Res : Bool)
    (bb : List Instruction)
    (hrun : DisassembleBasicBlock.run fuel doc rArch rAddr bb0 = some (reason, Res, bb)) :
    ∃ ext, bb = bb0 ++ ext ∧
      (reason = ExitReason.terminator →
        Res = true ∧ ∃ last, bb.getLast? = some last ∧ isTerminator last.opType = true) ∧
      (reason = ExitReason.containsCode →
        Res = true ∧ ∃ (m : MemoryArea) (pInsn : Instruction),
          rArch.Disassemble m.GetBinaryStream
            ((rAddr + totalLength ext).offset - m.GetVirtualBase.offset) = some pInsn ∧
          codeInRange doc (rAddr + totalLength ext) pInsn.length = true) ∧
      (reason = ExitReason.decoderFailed →
        ∃ m : MemoryArea,
          rArch.Disassemble m.GetBinaryStream
            ((rAddr + totalLength ext).offset - m.GetVirtualBase.offset) = none) ∧
      (reason ≠ ExitReason.terminator → reason ≠ ExitReason.containsCode →
        Res = !rArch.DisassembleBasicBlockOnly) := by
  unfold DisassembleBasicBlock.run at hrun
  have hres : (if rArch.DisassembleBasicBlockOnly = false then true else false)
      = !rArch.DisassembleBasicBlockOnly := by
    cases rArch.DisassembleBasicBlockOnly <;> rfl
  simp only [hres] at hrun
  split at hrun
  · simp only [Option.some.injEq, Prod.mk.injEq] at hrun
    obtain ⟨rfl, rfl, rfl⟩ := hrun
    exact ⟨[], by simp, by simp, by simp, by simp, by simp⟩
  · exact DisassembleBasicBlock.loop_spec doc rArch _ fuel rAddr _ bb0 reason Res bb hrun

/-- C4 (amended). When the decoder fails at some step of a run of `DisassembleBasicBlock`
(`bb` being the list at that point: the caller's list followed by the instructions `ext`
appended at the earlier steps, the decoder rejecting the bytes at `rAddr` plus their total
length): for a basic-block-only architecture the call returns failure and the caller's list is
handed back empty; for an architecture that is not basic-block-only the call returns success
and hands back `bb`, the instructions appended at the earlier steps included. -/
theorem C4_decoder_failure (fuel : Nat) (doc : Document) (rArch : Architecture)
    (rAddr : Address) (bb0 bb : List Instruction) (Res : Bool)
    (himp : (doc.GetLabelFromAddress rAddr).GetType &&& Label.Imported = 0)
    (hrun : DisassembleBasicBlock.run fuel doc rArch rAddr bb0 =
      some (ExitReason.decoderFailed, Res, bb)) :
    (∃ ext, bb = bb0 ++ ext ∧ ∃ m : MemoryArea,
        rArch.Disassemble m.GetBinaryStream
          ((rAddr + totalLength ext).offset - m.GetVirtualBase.offset) = none) ∧
    (rArch.DisassembleBasicBlockOnly = true →
      DisassembleBasicBlock fuel doc rArch rAddr bb0 = some (false, [])) ∧
    (rArch.DisassembleBasicBlockOnly = false →
      DisassembleBasicBlock fuel doc rArch rAddr bb0 = some (true, bb)) := by
  obtain ⟨ext, hext, -, -, hdec, hres⟩ :=
    DisassembleBasicBlock.run_spec fuel doc rArch rAddr bb0 _ Res bb hrun
  have hR := hres (by decide) (by decide)
  have hof := DisassembleBasicBlock.of_run fuel doc rArch rAddr bb0 _ Res bb himp hrun
  refine ⟨⟨ext, hext, hdec rfl⟩, ?_, ?_⟩
  · intro hb
    rw [hof, hR, hb]; rfl
  · intro hb
    rw [hof, hR, hb]; rfl

/-- C4 (amended), at concrete inputs: a plain instruction followed by a byte the decoder
rejects. The basic-block-only back-end gets failure and an empty list. -/
theorem C4_decoder_failure_witness :
    (badByteDoc.GetLabelFromAddress ⟨0, 1000⟩).GetType &&& Label.Imported = 0 ∧
    DisassembleBasicBlock.run 5 badByteDoc toyArchBasicBlockOnly ⟨0, 1000⟩ [] =
      some (ExitReason.decoderFailed, false, [toyNop]) ∧
    DisassembleBasicBlock 5 badByteDoc toyArchBasicBlockOnly ⟨0, 1000⟩ [] = some (false, []) :=
  ⟨by decide, rfl,
    (C4_decoder_failure 5 badByteDoc toyArchBasicBlockOnly ⟨0, 1000⟩ [] [toyNop] false
      (by decide) rfl).2.1 rfl⟩

/-- C4 as stated fails for an architecture that is not basic-block-only: on a plain
instruction followed by a byte the decoder rejects, the decoder fails at the second step, and
the call returns success with the first instruction still in the list. -/
theorem C4_counterexample :
    toyArch.DisassembleBasicBlockOnly = false ∧
    toyArch.Disassemble [0x90, 0xFF] 0 = some toyNop ∧
    toyArch.Disassemble [0x90, 0xFF] 1 = none ∧
    DisassembleBasicBlock.run 5 badByteDoc toyArch ⟨0, 1000⟩ [] =
      some (ExitReason.decoderFailed, true, [toyNop]) ∧
    DisassembleBasicBlock 5 badByteDoc toyArch ⟨0, 1000⟩ [] = some (true, [toyNop]) ∧
    ¬ (∀ bb, DisassembleBasicBlock 5 badByteDoc toyArch ⟨0, 1000⟩ [] = some (true, bb) →
        bb = []) :=
  ⟨rfl, rfl, rfl, rfl, rfl, fun h => absurd (h [toyNop] rfl) (by simp)⟩

/-- C5. Whenever `DisassembleBasicBlock`, called (as the driver does) with an empty list,
returns failure, the list the caller receives is empty; on every failure reached through the
label `exit` the list is emptied whatever it held, instructions appended before the failure
point included, and a start address with an `Imported` label gives failure before anything is
appended, with the list as it was passed, hence empty. -/
theorem C5_failure_returns_empty_list (fuel : Nat) (doc : Document) (rArch : Architecture)
    (rAddr : Address) (bb : List Instruction) :
    (DisassembleBasicBlock fuel doc rArch rAddr [] = some (false, bb) → bb = []) ∧
    (∀ bb0, (doc.GetLabelFromAddress rAddr).GetType &&& Label.Imported = 0 →
      DisassembleBasicBlock fuel doc rArch rAddr bb0 = some (false, bb) → bb = []) ∧
    ((doc.GetLabelFromAddress rAddr).GetType &&& Label.Imported ≠ 0 →
      ∀ bb0, DisassembleBasicBlock fuel doc rArch rAddr bb0 = some (false, bb0)) := by
  have key : ∀ bb0, (doc.GetLabelFromAddress rAddr).GetType &&& Label.Imported = 0 →
      DisassembleBasicBlock fuel doc rArch rAddr bb0 = some (false, bb) → bb = [] := by
    intro bb0 himp h
    simp only [DisassembleBasicBlock, himp, ne_eq, not_true_eq_false, if_false] at h
    split at h
    · cases h
    · split at h
      · simp only [Option.some.injEq, Prod.mk.injEq, true_and] at h
        exact h.symm
      · simp at h
  refine ⟨?_, key, ?_⟩
  · intro h
    by_cases himp : (doc.GetLabelFromAddress rAddr).GetType &&& Label.Imported = 0
    · exact key [] himp h
    · simp only [DisassembleBasicBlock, ne_eq, himp, not_false_eq_true, if_true,
        Option.some.injEq, Prod.mk.injEq, true_and] at h
      exact h.symm
  · intro himp bb0
    simp [DisassembleBasicBlock, himp]

/-- C5, at concrete inputs: with the basic-block-only back-end the run over a plain
instruction and a rejected byte had one instruction in its list when it failed, and the caller
receives an empty list; the same holds for a start address labelled `Imported`. -/
theorem C5_failure_returns_empty_list_witness :
    DisassembleBasicBlock.run 5 badByteDoc toyArchBasicBlockOnly ⟨0, 1000⟩ [] =
      some (ExitReason.decoderFailed, false, [toyNop]) ∧
    DisassembleBasicBlock 5 badByteDoc toyArchBasicBlockOnly ⟨0, 1000⟩ [] = some (false, []) ∧
    DisassembleBasicBlock 5 importedDoc toyArch ⟨0, 1000⟩ [] = some (false, []) ∧
    ([] : List Instruction) = [] :=
  ⟨rfl, rfl, rfl,
    (C5_failure_returns_empty_list 5 badByteDoc toyArchBasicBlockOnly ⟨0, 1000⟩ []).1 rfl⟩

/-- C7. `DisassembleFollowingExecutionPath` called on an entry address that carries an
`Imported` label, or on one that has no memory area, returns (whatever the iteration budget)
and leaves the Document as it was: cells, multicells, labels and cross-references are
unchanged. -/
theorem C7_imported_or_unmapped_entry (fuel : Nat) (an : Analyzer) (view : Cell → Instruction)
    (doc : Document)
    (rEntrypoint : Address) (rArch : Architecture)
    (h : (doc.GetLabelFromAddress rEntrypoint).GetType &&& Label.Imported ≠ 0 ∨
      doc.GetMemoryArea rEntrypoint = none) :
    DisassembleFollowingExecutionPath fuel an view doc rEntrypoint rArch = some doc := by
  unfold DisassembleFollowingExecutionPath
  by_cases himp : (doc.GetLabelFromAddress rEntrypoint).GetType &&& Label.Imported ≠ 0
  · rw [if_pos himp]
  · rw [if_neg himp]
    rcases h with h | h
    · exact absurd h himp
    · rw [h]

/-- C7, at concrete inputs: an entry labelled `Imported`, and an entry outside every memory
area. -/
theorem C7_imported_or_unmapped_entry_witness :
    (importedDoc.GetLabelFromAddress ⟨0, 1000⟩).GetType &&& Label.Imported ≠ 0 ∧
    DisassembleFollowingExecutionPath 10 Analyzer.initial blankView importedDoc ⟨0, 1000⟩ toyArch =
      some importedDoc ∧
    straightLineDoc.GetMemoryArea ⟨0, 4000⟩ = none ∧
    DisassembleFollowingExecutionPath 10 Analyzer.initial blankView straightLineDoc ⟨0, 4000⟩
      toyArch =
      some straightLineDoc :=
  ⟨by decide,
    C7_imported_or_unmapped_entry 10 Analyzer.initial blankView importedDoc ⟨0, 1000⟩ toyArch
      (Or.inl (by decide)),
    rfl,
    C7_imported_or_unmapped_entry 10 Analyzer.initial blankView straightLineDoc ⟨0, 4000⟩ toyArch
      (Or.inr rfl)⟩

/-- C8. Run on an entry that already contains code, `DisassembleFollowingExecutionPath`
returns (an iteration budget of 2 is enough) and makes no change to the Document; so when the
entry contains code after a first call, the Document after a second call equals the Document
after the first. -/
theorem C8_driver_idempotent (fuel : Nat) (an : Analyzer) (view : Cell → Instruction)
    (doc : Document)
    (rEntrypoint : Address) (rArch : Architecture) (hfuel : 2 ≤ fuel) :
    (doc.ContainsCode rEntrypoint = true →
      DisassembleFollowingExecutionPath fuel an view doc rEntrypoint rArch = some doc) ∧
    (∀ doc1, DisassembleFollowingExecutionPath fuel an view doc rEntrypoint rArch = some doc1 →
      doc1.ContainsCode rEntrypoint = true →
      DisassembleFollowingExecutionPath fuel an view doc1 rEntrypoint rArch = some doc1) := by
  have key : ∀ d : Document, d.ContainsCode rEntrypoint = true →
      DisassembleFollowingExecutionPath fuel an view d rEntrypoint rArch = some d := by
    intro d hcode
    obtain ⟨f, rfl⟩ : ∃ f, fuel = f + 2 := ⟨fuel - 2, by omega⟩
    unfold DisassembleFollowingExecutionPath
    split
    · rfl
    · split
      · rfl
      · simp [DisassembleFollowingExecutionPath.outer, DisassembleFollowingExecutionPath.inner,
          hcode, createFunctions]
  exact ⟨key doc, fun doc1 _ h1 => key doc1 h1⟩

/-- C8, at concrete inputs: after the driver has run on two plain instructions and a return,
the entry contains code and a second run returns the same Document. -/
theorem C8_driver_idempotent_witness :
    (2 : Nat) ≤ 10 ∧
    DisassembleFollowingExecutionPath 10 Analyzer.initial blankView straightLineDoc ⟨0, 1000⟩
      toyArch =
      some straightLineAnalyzed ∧
    straightLineAnalyzed.ContainsCode ⟨0, 1000⟩ = true ∧
    DisassembleFollowingExecutionPath 10 Analyzer.initial blankView straightLineAnalyzed ⟨0, 1000⟩
      toyArch =
      some straightLineAnalyzed :=
  ⟨by decide, rfl, rfl,
    (C8_driver_idempotent 10 Analyzer.initial blankView straightLineDoc ⟨0, 1000⟩ toyArch
      (by decide)).2
      straightLineAnalyzed rfl rfl⟩

theorem ChangeValueSize_keeps {P : Document → Prop} (hP : KeptByLoops P) (d : Document)
    (a : Address) (n : Nat) (h : P d) : P (d.ChangeValueSize a n) := by
  unfold Document.ChangeValueSize
  split
  · exact h
  · split
    · split
      · exact h
      · exact hP.insertCell _ _ _ h
    · exact h

theorem CreateXRefs.operand_keeps {P : Document → Prop} (hP : KeptByLoops P) (an : Analyzer)
    (pInsn : Instruction) (rAddr : Address) (d : Document) (CurOp : Nat) (h : P d) :
    P (CreateXRefs.operand an pInsn rAddr d CurOp) := by
  unfold CreateXRefs.operand
  split
  · exact h
  · have h1 := ChangeValueSize_keeps hP d ‹Address› (pInsn.GetOperandReferenceLength CurOp) h
    dsimp only
    split
    · exact h1
    · have h2 := hP.addXRef _ ‹Address› ((pInsn.GetOperandAddress CurOp rAddr).getD rAddr) h1
      split
      · exact h2
      · split
        · exact hP.addLabel _ _ _ _ h2
        · split
          · split
            · exact h2
            · split
              · exact hP.addLabel _ _ _ _ h2
              · exact hP.addLabel _ _ _ _ h2
          · exact h2

theorem foldl_keeps {α : Type} {P : Document → Prop} (f : Document → α → Document)
    (hf : ∀ d x, P d → P (f d x)) : ∀ (l : List α) (d : Document), P d → P (l.foldl f d) := by
  intro l
  induction l with
  | nil => intro d h; exact h
  | cons x rest ih => intro d h; exact ih _ (hf d x h)

theorem CreateXRefs_keeps {P : Document → Prop} (hP : KeptByLoops P) (an : Analyzer)
    (d : Document) (rAddr : Address) (h : P d) : P (CreateXRefs an d rAddr) := by
  unfold CreateXRefs
  split
  · exact foldl_keeps _ (fun d x hd => CreateXRefs.operand_keeps hP an _ rAddr d x hd) _ _ h
  · exact h

theorem insertBasicBlock_keeps {P : Document → Prop} (hP : KeptByLoops P) (an : Analyzer) :
    ∀ (bb : List Instruction) (st : BlockState), P st.doc → P (insertBasicBlock an bb st).doc := by
  intro bb
  induction bb with
  | nil => intro st h; exact h
  | cons insn rest ih =>
    intro st h
    unfold insertBasicBlock
    split
    · exact ih _ h
    · split
      · exact ih _ h
      · rename_i d2 heq
        apply ih
        apply CreateXRefs_keeps hP
        have := hP.insertCell st.doc st.CurAddr (Cell.instruction insn) h
        rw [heq] at this
        exact this

theorem DisassembleFollowingExecutionPath.inner_keeps {P : Document → Prop}
    (hP : KeptByLoops P) (an : Analyzer) (rArch : Architecture) :
    ∀ (fuel : Nat) (CurAddr : Address) (st st2 : DriverState),
    DisassembleFollowingExecutionPath.inner an rArch fuel CurAddr st = some st2 →
    P st.doc → P st2.doc := by
  intro fuel
  induction fuel with
  | zero => intro CurAddr st st2 h; simp [DisassembleFollowingExecutionPath.inner] at h
  | succ fuel ih =>
    intro CurAddr st st2 h hd
    unfold DisassembleFollowingExecutionPath.inner at h
    split at h
    · split at h
      · cases h
      · simp only [Option.some.injEq] at h; subst h; exact hd
      · rename_i BasicBlock _
        have hb := insertBasicBlock_keeps hP an BasicBlock
          { doc := st.doc, CurAddr := CurAddr, CallStack := st.CallStack,
            FunctionIsFinished := false } hd
        dsimp only at h
        repeat' split at h
        all_goals first
          | (simp only [Option.some.injEq] at h; subst h; first | exact hd | exact hb)
          | exact ih _ _ _ h hb
    · simp only [Option.some.injEq] at h; subst h; exact hd

theorem DisassembleFollowingExecutionPath.outer_keeps {P : Document → Prop}
    (hP : KeptByLoops P) (an : Analyzer) (rArch : Architecture) :
    ∀ (fuel : Nat) (st st2 : DriverState),
    DisassembleFollowingExecutionPath.outer an rArch fuel st = some st2 →
    P st.doc → P st2.doc := by
  intro fuel
  induction fuel with
  | zero => intro st st2 h; simp [DisassembleFollowingExecutionPath.outer] at h
  | succ fuel ih =>
    intro st st2 h hd
    unfold DisassembleFollowingExecutionPath.outer at h
    split at h
    · simp only [Option.some.injEq] at h; subst h; exact hd
    · split at h
      · cases h
      · rename_i st3 heq
        exact ih _ _ h
          (DisassembleFollowingExecutionPath.inner_keeps hP an rArch _ _ _ _ heq hd)

theorem CreateFunction_keeps {P : Document → Prop} (hP : KeptByCreateFunction P) (fuel : Nat)
    (an : Analyzer) (view : Cell → Instruction) (d d2 : Document) (rAddr : Address) (r : Bool)
    (h : CreateFunction fuel an view d rAddr = some (r, d2)) (hd : P d) : P d2 := by
  unfold CreateFunction at h
  dsimp only at h
  repeat' split at h
  all_goals first
    | (cases h; done)
    | (simp only [Option.some.injEq, Prod.mk.injEq] at h; obtain ⟨-, rfl⟩ := h
       first
         | exact hd
         | exact hP.addLabel _ _ _ _ (hP.insertMultiCell _ _ _ _ hd)
         | exact hP.addLabel _ _ _ _ hd)

theorem createFunctions_keeps {P : Document → Prop} (hP : KeptByCreateFunction P) (fuel : Nat)
    (an : Analyzer) (view : Cell → Instruction) : ∀ (l : List Address) (d d2 : Document),
    createFunctions fuel an view l d = some d2 → P d → P d2 := by
  intro l
  induction l with
  | nil => intro d d2 h hd; simp only [createFunctions, Option.some.injEq] at h; subst h; exact hd
  | cons a rest ih =>
    intro d d2 h hd
    unfold createFunctions at h
    split at h
    · cases h
    · rename_i r d3 heq
      exact ih _ _ h (CreateFunction_keeps hP fuel an view d d3 a r heq hd)

theorem rangesDisjoint_of_not_meet (a : Address) (la : Nat) (b : Address) (lb : Nat)
    (h : rangesMeet b lb a la = false) : rangesDisjoint a la b lb := by
  intro hbase x h1 h2 h3 h4
  have : rangesMeet b lb a la = true := by
    simp only [rangesMeet, Bool.and_eq_true, decide_eq_true_eq]
    exact ⟨⟨hbase.symm, by omega⟩, by omega⟩
  rw [h] at this
  cases this

theorem NoCodeOverlap_insertCell (d : Document) (a : Address) (c : Cell)
    (h : NoCodeOverlap d) : NoCodeOverlap (d.InsertCell a c).2 := by
  unfold Document.InsertCell
  split
  · simp only [NoCodeOverlap, List.pairwise_cons]
    refine ⟨?_, List.Pairwise.sublist (List.filter_sublist _) h⟩
    intro q hq _ _
    have hq2 := (List.mem_filter.1 hq).2
    simp only [Bool.not_eq_true', Bool.or_eq_false_iff] at hq2
    exact rangesDisjoint_of_not_meet _ _ _ _ hq2.2
  · exact h

theorem NoCodeOverlap_keptByLoops : KeptByLoops NoCodeOverlap :=
  ⟨NoCodeOverlap_insertCell,
    fun d a b h => by simpa [NoCodeOverlap, Document.AddXRef] using h,
    fun d a l f h => by
      unfold Document.AddLabel
      split
      · exact h
      · simpa [NoCodeOverlap] using h⟩

theorem NoCodeOverlap_keptByCreateFunction : KeptByCreateFunction NoCodeOverlap :=
  ⟨fun d a f force h => by
      unfold Document.InsertMultiCell
      split
      · exact h
      · simpa [NoCodeOverlap] using h,
    NoCodeOverlap_keptByLoops.addLabel⟩

/-- What `DisassembleFollowingExecutionPath` keeps: a property kept by `InsertCell`, `AddXRef`,
`AddLabel` and `InsertMultiCell` holds after the call if it held before. -/
theorem DisassembleFollowingExecutionPath_keeps {P : Document → Prop} (hL : KeptByLoops P)
    (hF : KeptByCreateFunction P) (fuel : Nat) (an : Analyzer) (view : Cell → Instruction)
      (doc doc2 : Document)
    (rEntrypoint : Address) (rArch : Architecture)
    (h : DisassembleFollowingExecutionPath fuel an view doc rEntrypoint rArch = some doc2)
    (hd : P doc) : P doc2 := by
  unfold DisassembleFollowingExecutionPath at h
  split at h
  · simp only [Option.some.injEq] at h; subst h; exact hd
  · split at h
    · simp only [Option.some.injEq] at h; subst h; exact hd
    · split at h
      · cases h
      · rename_i st heq
        exact createFunctions_keeps hF fuel an view _ _ _ h
          (DisassembleFollowingExecutionPath.outer_keeps hL an rArch _ _ _ heq hd)

/-- C9. No overlap: when no two distinct code cells of the Document overlap before a call of
`DisassembleFollowingExecutionPath`, then after the call the byte ranges `[A1, A1+len1)` and
`[A2, A2+len2)` of any two distinct code cells are disjoint. -/
theorem C9_no_overlap (fuel : Nat) (an : Analyzer) (view : Cell → Instruction) (doc doc2 : Document)
    (rEntrypoint : Address) (rArch : Architecture) (h0 : NoCodeOverlap doc)
    (h : DisassembleFollowingExecutionPath fuel an view doc rEntrypoint rArch = some doc2) :
    doc2.cells.Pairwise (fun p q =>
      p.2.isInstruction = true → q.2.isInstruction = true →
        ∀ x, p.1.base = q.1.base →
          ¬ (p.1.offset ≤ x ∧ x < p.1.offset + p.2.GetLength ∧
             q.1.offset ≤ x ∧ x < q.1.offset + q.2.GetLength)) := by
  have hno : NoCodeOverlap doc2 :=
    DisassembleFollowingExecutionPath_keeps NoCodeOverlap_keptByLoops
      NoCodeOverlap_keptByCreateFunction fuel an view doc doc2 rEntrypoint rArch h h0
  refine List.Pairwise.imp ?_ hno
  intro p q hpq hp hq x hbase hx
  exact hpq hp hq hbase x hx.1 hx.2.1 hx.2.2.1 hx.2.2.2

/-- C9, at concrete inputs: `call 0:1006; ret; call 0:1001; ret` at `0:1000`. The second call
targets the middle of the first call instruction; the driver returns with four code cells (at
`0:1000`, `0:1005`, `0:1006`, `0:1011`), none at `0:1001`, and no two of them overlap. -/
theorem C9_no_overlap_witness :
    NoCodeOverlap midTargetDoc ∧
    DisassembleFollowingExecutionPath 20 Analyzer.initial blankView midTargetDoc ⟨0, 1000⟩ toyArch =
      some midTargetAnalyzed ∧
    midTargetAnalyzed.cells.map (fun p => (p.1, p.2.isInstruction, p.2.GetLength)) =
      [(⟨0, 1005⟩, true, 1), (⟨0, 1011⟩, true, 1), (⟨0, 1006⟩, true, 5), (⟨0, 1000⟩, true, 5)] ∧
    midTargetAnalyzed.ContainsCode ⟨0, 1001⟩ = false ∧
    midTargetAnalyzed.cells.Pairwise (fun p q =>
      p.2.isInstruction = true → q.2.isInstruction = true →
        ∀ x, p.1.base = q.1.base →
          ¬ (p.1.offset ≤ x ∧ x < p.1.offset + p.2.GetLength ∧
             q.1.offset ≤ x ∧ x < q.1.offset + q.2.GetLength)) :=
  ⟨List.Pairwise.nil, rfl, by decide, by decide,
    C9_no_overlap 20 Analyzer.initial blankView midTargetDoc midTargetAnalyzed ⟨0, 1000⟩ toyArch
      List.Pairwise.nil rfl⟩

/-- Every instruction in the list of the decoding loop is an output of the decoder. -/
theorem DisassembleBasicBlock.loop_decoded (doc : Document) (rArch : Architecture) (Res : Bool) :
    ∀ (fuel : Nat) (CurAddr : Address) (pMemArea : MemoryArea) (bb : List Instruction)
      (reason : ExitReason) (Res2 : Bool) (bb2 : List Instruction),
    DisassembleBasicBlock.loop doc rArch fuel CurAddr pMemArea Res bb = some (reason, Res2, bb2) →
    (∀ i ∈ bb, ∃ s o, rArch.Disassemble s o = some i) →
    ∀ i ∈ bb2, ∃ s o, rArch.Disassemble s o = some i := by
  intro fuel
  induction fuel with
  | zero => intro CurAddr pMemArea bb reason Res2 bb2 h; simp [DisassembleBasicBlock.loop] at h
  | succ fuel ih =>
    intro CurAddr pMemArea bb reason Res2 bb2 h hbb
    unfold DisassembleBasicBlock.loop at h
    have hsnoc : ∀ (m : MemoryArea) (pInsn : Instruction),
        rArch.Disassemble m.GetBinaryStream (CurAddr.offset - m.GetVirtualBase.offset)
          = some pInsn → ∀ i ∈ bb ++ [pInsn], ∃ s o, rArch.Disassemble s o = some i := by
      intro m pInsn hdec i hi
      rcases List.mem_append.1 hi with hi | hi
      · exact hbb i hi
      · simp only [List.mem_singleton] at hi
        subst hi
        exact ⟨_, _, hdec⟩
    repeat' split at h
    all_goals first
      | (simp only [Option.some.injEq, Prod.mk.injEq] at h
         obtain ⟨-, -, rfl⟩ := h
         first
           | exact hbb
           | exact hsnoc _ _ (by assumption))
      | exact ih _ _ _ _ _ _ h (hsnoc _ _ (by assumption))

theorem DisassembleBasicBlock_decoded (fuel : Nat) (doc : Document) (rArch : Architecture)
    (rAddr : Address) (r : Bool) (bb : List Instruction)
    (h : DisassembleBasicBlock fuel doc rArch rAddr [] = some (r, bb)) :
    ∀ i ∈ bb, ∃ s o, rArch.Disassemble s o = some i := by
  unfold DisassembleBasicBlock at h
  split at h
  · simp only [Option.some.injEq, Prod.mk.injEq] at h
    obtain ⟨-, rfl⟩ := h
    intro i hi; cases hi
  · split at h
    · cases h
    · rename_i reason Res bb2 hrun
      have hall : ∀ i ∈ bb2, ∃ s o, rArch.Disassemble s o = some i := by
        unfold DisassembleBasicBlock.run at hrun
        dsimp only at hrun
        split at hrun
        · simp only [Option.some.injEq, Prod.mk.injEq] at hrun
          obtain ⟨-, -, rfl⟩ := hrun
          intro i hi; cases hi
        · exact DisassembleBasicBlock.loop_decoded doc rArch _ fuel rAddr _ [] _ _ _ hrun
            (fun i hi => by cases hi)
      split at h
      · simp only [Option.some.injEq, Prod.mk.injEq] at h
        obtain ⟨-, rfl⟩ := h
        intro i hi; cases hi
      · simp only [Option.some.injEq, Prod.mk.injEq] at h
        obtain ⟨-, rfl⟩ := h
        exact hall

theorem RetrieveMultiCell_addLabel (d : Document) (a b : Address) (l : Label) (f : Bool) :
    (d.AddLabel b l f).RetrieveMultiCell a = d.RetrieveMultiCell a := by
  unfold Document.AddLabel
  split <;> rfl

/-- C11, the code at failing inputs. With threshold 1, `ComputeFunctionLength` on `nop; ret`
returns success with a byte length of 2, and on `jmp 0:1002; ret` it returns success with a
byte length of 3: the threshold test of line 296 is reached only after an instruction that
falls through, not after a jump (`continue`, line 283) or a return (`break`, line 291). On
`nop; nop; ret` the second `nop` does trigger it. -/
theorem C11_threshold_failing_input :
    ComputeFunctionLength 10 nopRetDoc ⟨0, 1000⟩ 1 = some (true, 2, 2) ∧
    ComputeFunctionLength 10 jmpRetDoc ⟨0, 1000⟩ 1 = some (true, 3, 2) ∧
    ComputeFunctionLength 10 straightLineAnalyzed ⟨0, 1000⟩ 1 = some (false, 2, 2) := by
  refine ⟨by decide, by decide, by decide⟩

/-! ## Theorems: control-flow graph -/

theorem contains_eq_true_iff (l : List Address) (a : Address) :
    l.contains a = true ↔ a ∈ l := by
  simp

/-- Visiting a new address keeps the invariant when the edges added are those of its
instruction. -/
theorem CfgInvariant.visit (doc : Document) (st st2 : CfgState) (CurAddr : Address)
    (E2 : List (Address × Address × EdgeType)) (h : CfgInvariant doc st)
    (hnew : CurAddr ∉ st.VisitedInstruction)
    (hcode : (doc.RetrieveInstruction CurAddr).isSome = true)
    (hA : st2.Addresses = st.Addresses ++ [CurAddr])
    (hV : st2.VisitedInstruction = CurAddr :: st.VisitedInstruction)
    (hE : st2.Edges = st.Edges ++ E2)
    (hE2 : E2 = edgesOfInstruction doc CurAddr)
    (hsrc : ∀ e ∈ E2, e.2.1 = CurAddr) : CfgInvariant doc st2 := by
  obtain ⟨h1, h2, h3, h4⟩ := h
  refine ⟨?_, ?_, ?_, ?_⟩
  · intro a
    rw [hA, hV]
    simp only [List.mem_append, List.mem_singleton, List.mem_cons]
    rw [h1 a]
    tauto
  · rw [hA]
    rw [List.nodup_append]
    refine ⟨h2, by simp, ?_⟩
    intro a ha hb
    simp only [List.mem_singleton] at hb
    subst hb
    exact hnew ((h1 a).1 ha)
  · intro a ha
    rw [hV] at ha
    rcases List.mem_cons.1 ha with rfl | ha
    · exact hcode
    · exact h3 a ha
  · intro s
    rw [hE, hV]
    simp only [edgesFrom, List.filter_append]
    have h4s := h4 s
    simp only [edgesFrom] at h4s
    rw [h4s]
    by_cases hs : s = CurAddr
    · subst hs
      rw [if_neg hnew]
      simp only [List.mem_cons, true_or, if_true, List.nil_append]
      rw [← hE2]
      apply List.filter_eq_self.2
      intro e he
      simp [hsrc e he]
    · have hnone : E2.filter (fun e => decide (e.2.1 = s)) = [] := by
        apply List.filter_eq_nil_iff.2
        intro e he
        simp only [decide_eq_true_eq]
        rw [hsrc e he]
        exact fun h => hs h.symm
      rw [hnone, List.append_nil]
      simp only [List.mem_cons, hs, false_or]

/-- The inner loop of `BuildControlFlowGraph` keeps the invariant. -/
theorem BuildControlFlowGraph.inner_invariant (doc : Document) :
    ∀ (fuel : Nat) (CurAddr : Address) (st st2 : CfgState),
    BuildControlFlowGraph.inner doc fuel CurAddr st = some st2 →
    CfgInvariant doc st → CfgInvariant doc st2 := by
  intro fuel
  induction fuel with
  | zero => intro CurAddr st st2 h; simp [BuildControlFlowGraph.inner] at h
  | succ fuel ih =>
    intro CurAddr st st2 h hinv
    unfold BuildControlFlowGraph.inner at h
    cases hri : doc.RetrieveInstruction CurAddr with
    | none =>
      simp only [hri, Option.some.injEq] at h
      subst h; exact hinv
    | some rInsn =>
      simp only [hri] at h
      by_cases hv : st.VisitedInstruction.contains CurAddr = true
      · simp only [hv, if_true] at h
        split at h
        · simp only [Option.some.injEq] at h; subst h; exact hinv
        · exact ih _ _ _ h hinv
      · simp only [hv, Bool.false_eq_true, if_false] at h
        have hnew : CurAddr ∉ st.VisitedInstruction := by
          intro hmem; exact hv ((contains_eq_true_iff _ _).2 hmem)
        have hcode : (doc.RetrieveInstruction CurAddr).isSome = true := by rw [hri]; rfl
        by_cases hj : ¬ rInsn.opType &&& OpJump = 0
        · simp only [ne_eq, hj, not_false_eq_true, if_true] at h
          by_cases hm : ¬ (rInsn.Operand 0).type &&& O_MEM = 0
          · simp only [ne_eq, hm, not_false_eq_true, if_true, Option.some.injEq] at h
            subst h
            exact CfgInvariant.visit doc st _ CurAddr [] hinv hnew hcode rfl rfl (by simp)
              (by simp [edgesOfInstruction, hri, hj, hm]) (by simp)
          · simp only [ne_eq, hm, not_true_eq_false, if_false] at h
            cases href : rInsn.GetOperandReference 0 CurAddr with
            | none =>
              simp only [href, Option.some.injEq] at h
              subst h
              exact CfgInvariant.visit doc st _ CurAddr [] hinv hnew hcode rfl rfl (by simp)
                (by simp [edgesOfInstruction, hri, hj, hm, href]) (by simp)
            | some DstAddr =>
              simp only [href] at h
              by_cases hc : ¬ rInsn.opType &&& OpCond = 0
              · simp only [ne_eq, hc, not_false_eq_true, if_true] at h
                refine ih _ _ _ h ?_
                exact CfgInvariant.visit doc st _ CurAddr
                  [(DstAddr, CurAddr, EdgeType.True),
                    (CurAddr + rInsn.length, CurAddr, EdgeType.False)]
                  hinv hnew hcode rfl rfl rfl
                  (by simp [edgesOfInstruction, hri, hj, hm, href, hc]) (by simp)
              · simp only [ne_eq, hc, not_true_eq_false, if_false] at h
                refine ih _ _ _ h ?_
                exact CfgInvariant.visit doc st _ CurAddr
                  [(DstAddr, CurAddr, EdgeType.Unconditional)]
                  hinv hnew hcode rfl rfl rfl
                  (by simp [edgesOfInstruction, hri, hj, hm, href, hc]) (by simp)
        · simp only [ne_eq, hj, not_true_eq_false, if_false] at h
          have hvis : ∀ st3 : CfgState, st3.Addresses = st.Addresses ++ [CurAddr] →
              st3.VisitedInstruction = CurAddr :: st.VisitedInstruction →
              st3.Edges = st.Edges → CfgInvariant doc st3 := by
            intro st3 hA hV hE
            exact CfgInvariant.visit doc st st3 CurAddr [] hinv hnew hcode hA hV (by simp [hE])
              (by simp [edgesOfInstruction, hri, hj]) (by simp)
          split at h
          · simp only [Option.some.injEq] at h; subst h
            exact hvis _ rfl rfl rfl
          · exact ih _ _ _ h (hvis _ rfl rfl rfl)

/-- The outer loop of `BuildControlFlowGraph` keeps the invariant. -/
theorem BuildControlFlowGraph.outer_invariant (doc : Document) :
    ∀ (fuel : Nat) (st st2 : CfgState),
    BuildControlFlowGraph.outer doc fuel st = some st2 →
    CfgInvariant doc st → CfgInvariant doc st2 := by
  intro fuel
  induction fuel with
  | zero => intro st st2 h; simp [BuildControlFlowGraph.outer] at h
  | succ fuel ih =>
    intro st st2 h hinv
    unfold BuildControlFlowGraph.outer at h
    split at h
    · simp only [Option.some.injEq] at h; subst h; exact hinv
    · split at h
      · cases h
      · rename_i st3 heq
        exact ih _ _ h (BuildControlFlowGraph.inner_invariant doc _ _ _ _ heq hinv)

theorem CfgInvariant.initial (doc : Document) (rAddr : Address) :
    CfgInvariant doc (CfgState.initial rAddr) := by
  refine ⟨fun a => by simp [CfgState.initial], by simp [CfgState.initial],
    fun a ha => by simp [CfgState.initial] at ha, fun s => by simp [CfgState.initial, edgesFrom]⟩

theorem foldl_split_edges (E : List (Address × Address × EdgeType)) :
    ∀ g : ControlFlowGraph,
    (E.foldl (fun g e => g.SplitBasicBlock e.1 e.2.1 e.2.2) g).edges = g.edges := by
  induction E with
  | nil => intro g; rfl
  | cons e rest ih => intro g; simp only [List.foldl_cons]; rw [ih]; rfl

theorem foldl_add_edges (E : List (Address × Address × EdgeType)) :
    ∀ g : ControlFlowGraph,
    (E.foldl (fun g e => g.AddBasicBlockEdge e.2.2 e.2.1 e.1) g).edges =
      g.edges ++ E.map (fun e => (e.2.1, e.1, e.2.2)) := by
  induction E with
  | nil => intro g; simp
  | cons e rest ih =>
    intro g
    simp only [List.foldl_cons, List.map_cons]
    rw [ih]
    simp [ControlFlowGraph.AddBasicBlockEdge]

/-- C13 (amended). The edges `BuildControlFlowGraph` collects and hands to the graph: for
every visited conditional jump whose operand 0 is not memory-indirect and resolves, the
collected edges with that source are exactly `True` to the target and `False` to the
fall-through; for every such unconditional jump exactly `Unconditional` to the target; for
every visited jump whose operand 0 is memory-indirect or unresolved, and for every visited
instruction that is not a jump (returns included), there is none; no edge has a source that
is not a visited jump; and the edges given to the graph (for a mapped start address) are the
collected ones. -/
theorem C13_cfg_edges (fuel : Nat) (doc : Document) (rAddr : Address) (st : CfgState)
    (h : BuildControlFlowGraph.outer doc fuel (CfgState.initial rAddr) = some st) :
    (∀ s insn tgt, s ∈ st.Addresses → doc.RetrieveInstruction s = some insn →
      insn.opType &&& OpJump ≠ 0 → (insn.Operand 0).type &&& O_MEM = 0 →
      insn.GetOperandReference 0 s = some tgt →
      (insn.opType &&& OpCond ≠ 0 →
        edgesFrom st.Edges s = [(tgt, s, EdgeType.True), (s + insn.length, s, EdgeType.False)]) ∧
      (insn.opType &&& OpCond = 0 →
        edgesFrom st.Edges s = [(tgt, s, EdgeType.Unconditional)])) ∧
    (∀ s insn, s ∈ st.Addresses → doc.RetrieveInstruction s = some insn →
      insn.opType &&& OpJump ≠ 0 →
      (insn.Operand 0).type &&& O_MEM ≠ 0 ∨ insn.GetOperandReference 0 s = none →
      edgesFrom st.Edges s = []) ∧
    (∀ s insn, s ∈ st.Addresses → doc.RetrieveInstruction s = some insn →
      insn.opType &&& OpJump = 0 → edgesFrom st.Edges s = []) ∧
    (∀ e, e ∈ st.Edges → e.2.1 ∈ st.Addresses ∧
      ∃ insn, doc.RetrieveInstruction e.2.1 = some insn ∧ insn.opType &&& OpJump ≠ 0) ∧
    st.Addresses.Nodup ∧
    (∀ r cfg, (doc.GetMemoryArea rAddr).isSome = true →
      BuildControlFlowGraph fuel doc rAddr ⟨[], []⟩ = some (r, cfg) →
      cfg.edges = st.Edges.map (fun e => (e.2.1, e.1, e.2.2))) := by
  obtain ⟨h1, h2, h3, h4⟩ :=
    BuildControlFlowGraph.outer_invariant doc fuel _ st h (CfgInvariant.initial doc rAddr)
  have hfrom : ∀ s, s ∈ st.Addresses → edgesFrom st.Edges s = edgesOfInstruction doc s := by
    intro s hs
    rw [h4 s, if_pos ((h1 s).1 hs)]
  refine ⟨?_, ?_, ?_, ?_, h2, ?_⟩
  · intro s insn tgt hs hri hj hm href
    rw [hfrom s hs]
    constructor
    · intro hc
      simp [edgesOfInstruction, hri, hj, hm, href, hc]
    · intro hc
      simp [edgesOfInstruction, hri, hj, hm, href, hc]
  · intro s insn hs hri hj hor
    rw [hfrom s hs]
    rcases hor with hm | href
    · simp [edgesOfInstruction, hri, hj, hm]
    · by_cases hm : (insn.Operand 0).type &&& O_MEM = 0
      · simp [edgesOfInstruction, hri, hj, hm, href]
      · simp [edgesOfInstruction, hri, hj, hm]
  · intro s insn hs hri hj
    rw [hfrom s hs]
    simp [edgesOfInstruction, hri, hj]
  · intro e he
    have hmem : e ∈ edgesFrom st.Edges e.2.1 := by
      simp [edgesFrom, he]
    rw [h4 e.2.1] at hmem
    by_cases hv : e.2.1 ∈ st.VisitedInstruction
    · rw [if_pos hv] at hmem
      refine ⟨(h1 _).2 hv, ?_⟩
      unfold edgesOfInstruction at hmem
      cases hri : doc.RetrieveInstruction e.2.1 with
      | none => simp [hri] at hmem
      | some insn =>
        refine ⟨insn, rfl, ?_⟩
        intro hj
        simp [hri, hj] at hmem
    · rw [if_neg hv] at hmem
      cases hmem
  · intro r cfg harea hb
    unfold BuildControlFlowGraph at hb
    split at hb
    · rename_i hnone
      rw [hnone] at harea
      cases harea
    · have h' : BuildControlFlowGraph.outer doc fuel
          { CallStack := [rAddr], Addresses := [], Edges := [], VisitedInstruction := [],
            RetReached := false } = some st := h
      rw [h'] at hb
      simp only [Option.some.injEq, Prod.mk.injEq] at hb
      rw [← hb.2]
      simp [ControlFlowGraph.Finalize, foldl_add_edges, foldl_split_edges,
        ControlFlowGraph.AddBasicBlockVertex]

/-- C13 (amended), at concrete inputs: the diamond `jz 0:1003; nop; ret`. The conditional
jump at `0:1000` has exactly the edges `True` to `0:1003` and `False` to `0:1002`. -/
theorem C13_cfg_edges_witness :
    (BuildControlFlowGraph.outer diamondDoc 10 (CfgState.initial ⟨0, 1000⟩)).map
        (fun st => (st.Addresses, st.Edges)) =
      some ([⟨0, 1000⟩, ⟨0, 1003⟩, ⟨0, 1002⟩],
        [(⟨0, 1003⟩, ⟨0, 1000⟩, EdgeType.True), (⟨0, 1002⟩, ⟨0, 1000⟩, EdgeType.False)]) ∧
    ∀ st, BuildControlFlowGraph.outer diamondDoc 10 (CfgState.initial ⟨0, 1000⟩) = some st →
      edgesFrom st.Edges ⟨0, 1003⟩ = [] := by
  refine ⟨by decide, ?_⟩
  intro st h
  have hdec : (BuildControlFlowGraph.outer diamondDoc 10 (CfgState.initial ⟨0, 1000⟩)).map
        (fun st => st.Addresses) = some [⟨0, 1000⟩, ⟨0, 1003⟩, ⟨0, 1002⟩] := by decide
  rw [h] at hdec
  simp only [Option.map_some', Option.some.injEq] at hdec
  exact (C13_cfg_edges 10 diamondDoc ⟨0, 1000⟩ st h).2.2.1 ⟨0, 1003⟩ toyRet
    (by rw [hdec]; decide) rfl (by decide)

/-- C13 as stated fails: the conditional jump at `0:1000` is visited, its operand 0 has a
reference (`0:1003`) but is memory-indirect, and no edge is collected for it. -/
theorem C13_counterexample :
    memJumpDoc.RetrieveInstruction ⟨0, 1000⟩ = some toyJzMem ∧
    toyJzMem.opType &&& OpJump ≠ 0 ∧ toyJzMem.opType &&& OpCond ≠ 0 ∧
    toyJzMem.GetOperandReference 0 ⟨0, 1000⟩ = some ⟨0, 1003⟩ ∧
    (BuildControlFlowGraph.outer memJumpDoc 10 (CfgState.initial ⟨0, 1000⟩)).map
        (fun st => (st.Addresses, st.Edges)) = some ([⟨0, 1000⟩], []) ∧
    (BuildControlFlowGraph 10 memJumpDoc ⟨0, 1000⟩ ⟨[], []⟩).map
        (fun r => (r.1, r.2.edges)) = some (false, []) := by
  refine ⟨rfl, by decide, by decide, rfl, by decide, by decide⟩

/-! ## Theorems: shape of a decoded basic block -/

theorem GetMemoryArea_mem (doc : Document) (a : Address) (m : MemoryArea)
    (h : doc.GetMemoryArea a = some m) : m ∈ doc.areas ∧ m.IsPresent a = true := by
  unfold Document.GetMemoryArea at h
  exact ⟨List.mem_of_find?_eq_some h, by simpa using List.find?_some h⟩

/-- The instructions the decoding loop appends have the shape of a basic block. -/
theorem DisassembleBasicBlock.loop_shape (doc : Document) (rArch : Architecture) (Res : Bool) :
    ∀ (fuel : Nat) (CurAddr : Address) (pMemArea : MemoryArea) (bb : List Instruction)
      (reason : ExitReason) (Res2 : Bool) (bb2 : List Instruction),
    DisassembleBasicBlock.loop doc rArch fuel CurAddr pMemArea Res bb = some (reason, Res2, bb2) →
    pMemArea ∈ doc.areas →
    ∃ ext, bb2 = bb ++ ext ∧ BlockShape doc rArch CurAddr ext := by
  intro fuel
  induction fuel with
  | zero => intro CurAddr pMemArea bb reason Res2 bb2 h; simp [DisassembleBasicBlock.loop] at h
  | succ fuel ih =>
    intro CurAddr pMemArea bb reason Res2 bb2 h hma
    unfold DisassembleBasicBlock.loop at h
    have hnil : ∀ {r : ExitReason} {R : Bool}, some (r, R, bb) = some (reason, Res2, bb2) →
        ∃ ext, bb2 = bb ++ ext ∧ BlockShape doc rArch CurAddr ext := by
      intro r R heq
      simp only [Option.some.injEq, Prod.mk.injEq] at heq
      exact ⟨[], by simp [heq.2.2], trivial⟩
    split at h
    · cases hsel : (if pMemArea.IsPresent CurAddr = true then some pMemArea
          else doc.GetMemoryArea CurAddr) with
      | none => rw [hsel] at h; exact hnil h
      | some m =>
        rw [hsel] at h
        have hm : m ∈ doc.areas ∧ m.IsPresent CurAddr = true := by
          by_cases hp : pMemArea.IsPresent CurAddr = true
          · rw [if_pos hp] at hsel
            simp only [Option.some.injEq] at hsel
            subst hsel
            exact ⟨hma, hp⟩
          · rw [if_neg hp] at hsel
            exact GetMemoryArea_mem doc CurAddr m hsel
        dsimp only at h
        split at h
        · exact hnil h
        · split at h
          · exact hnil h
          · split at h
            · exact hnil h
            · split at h
              · exact hnil h
              · rename_i pInsn hdec
                split at h
                · exact hnil h
                · rename_i hcode
                  have hcode2 : codeInRange doc CurAddr pInsn.length = false := by
                    simpa using hcode
                  split at h
                  · simp only [Option.some.injEq, Prod.mk.injEq] at h
                    refine ⟨[pInsn], h.2.2.symm, ?_⟩
                    exact ⟨⟨m, hm.1, hm.2, hdec⟩, hcode2, fun hne => absurd rfl hne, trivial⟩
                  · rename_i hterm
                    obtain ⟨ext, hext, hshape⟩ := ih _ _ _ _ _ _ h hm.1
                    refine ⟨pInsn :: ext, by simp [hext], ?_⟩
                    exact ⟨⟨m, hm.1, hm.2, hdec⟩, hcode2, fun _ => by simpa using hterm, hshape⟩
    · exact hnil h

/-- The list returned by `DisassembleBasicBlock`, called with an empty list, has the shape of
a basic block decoded at the start address. -/
theorem DisassembleBasicBlock_shape (fuel : Nat) (doc : Document) (rArch : Architecture)
    (rAddr : Address) (r : Bool) (bb : List Instruction)
    (h : DisassembleBasicBlock fuel doc rArch rAddr [] = some (r, bb)) :
    BlockShape doc rArch rAddr bb := by
  unfold DisassembleBasicBlock at h
  split at h
  · simp only [Option.some.injEq, Prod.mk.injEq] at h
    rw [← h.2]; trivial
  · split at h
    · cases h
    · rename_i reason Res bb2 hrun
      split at h
      · simp only [Option.some.injEq, Prod.mk.injEq] at h
        rw [← h.2]; trivial
      · simp only [Option.some.injEq, Prod.mk.injEq] at h
        rw [← h.2]
        unfold DisassembleBasicBlock.run at hrun
        dsimp only at hrun
        cases hma : doc.GetMemoryArea rAddr with
        | none =>
          rw [hma] at hrun
          simp only [Option.some.injEq, Prod.mk.injEq] at hrun
          rw [← hrun.2.2]; trivial
        | some m =>
          rw [hma] at hrun
          obtain ⟨ext, hext, hshape⟩ :=
            DisassembleBasicBlock.loop_shape doc rArch _ fuel rAddr m [] _ _ _ hrun
              (GetMemoryArea_mem doc rAddr m hma).1
          simp only [List.nil_append] at hext
          rw [hext]; exact hshape

theorem totalLength_cons (i : Instruction) (l : List Instruction) :
    totalLength (i :: l) = i.length + totalLength l := by
  simp [totalLength]

theorem codeInRange_false (doc : Document) (a : Address) (len : Nat)
    (h : codeInRange doc a len = false) : ∀ j, j < len → doc.ContainsCode (a + j) = false := by
  intro j hj
  unfold codeInRange at h
  have := List.any_eq_false.1 h j (List.mem_range.2 hj)
  simpa using this

/-- The shape of a basic block, read position by position. -/
theorem BlockShape.at_index (doc : Document) (rArch : Architecture) :
    ∀ (bb : List Instruction) (addr : Address), BlockShape doc rArch addr bb →
    ∀ (k : Nat) (insn : Instruction), bb.get? k = some insn →
      (k + 1 < bb.length → isTerminator insn.opType = false) ∧
      (∃ m : MemoryArea, m ∈ doc.areas ∧ m.IsPresent (addr + totalLength (bb.take k)) = true ∧
        rArch.Disassemble m.GetBinaryStream
          ((addr + totalLength (bb.take k)).offset - m.GetVirtualBase.offset) = some insn) ∧
      (∀ j, j < insn.length → doc.ContainsCode (addr + totalLength (bb.take k) + j) = false) := by
  intro bb
  induction bb with
  | nil => intro addr _ k insn hk; simp at hk
  | cons i rest ih =>
    intro addr hshape k insn hk
    obtain ⟨hdec, hcode, hterm, hrest⟩ := hshape
    cases k with
    | zero =>
      simp only [List.get?_cons_zero, Option.some.injEq] at hk
      subst hk
      simp only [List.take_zero, totalLength, List.map_nil, List.sum_nil, Address.add_zero]
      refine ⟨?_, hdec, codeInRange_false doc addr _ hcode⟩
      intro hlen
      apply hterm
      intro hnil
      rw [hnil] at hlen
      simp at hlen
    | succ k =>
      simp only [List.get?_cons_succ] at hk
      obtain ⟨h1, h2, h3⟩ := ih _ hrest k insn hk
      simp only [List.take_succ_cons, totalLength_cons, ← Address.add_add, List.length_cons]
      exact ⟨fun hlen => h1 (by omega), h2, h3⟩

/-- C20. Shape of a `DisassembleBasicBlock` result, for a call that starts with an empty list:
for the instruction at every position `k` of the returned list, (a) unless it is the last
one, its operation type contains none of Jump, Call, Ret; (b) it is what the back-end decodes
at `start_addr` plus the total length of the instructions before it, from the memory area of
the Document that holds that address; (c) no address of its range `[addr, addr+len)`
contained code in the Document. -/
theorem C20_basic_block_shape (fuel : Nat) (doc : Document) (rArch : Architecture)
    (rAddr : Address) (r : Bool) (bb : List Instruction)
    (h : DisassembleBasicBlock fuel doc rArch rAddr [] = some (r, bb)) :
    ∀ (k : Nat) (insn : Instruction), bb.get? k = some insn →
      (k + 1 < bb.length → isTerminator insn.opType = false) ∧
      (∃ m : MemoryArea, m ∈ doc.areas ∧ m.IsPresent (rAddr + totalLength (bb.take k)) = true ∧
        rArch.Disassemble m.GetBinaryStream
          ((rAddr + totalLength (bb.take k)).offset - m.GetVirtualBase.offset) = some insn) ∧
      (∀ j, j < insn.length →
        doc.ContainsCode (rAddr + totalLength (bb.take k) + j) = false) :=
  BlockShape.at_index doc rArch bb rAddr (DisassembleBasicBlock_shape fuel doc rArch rAddr r bb h)

/-- C20, at concrete inputs: the block `nop; nop; ret` decoded at `0:1000`; its second
instruction is not a terminator, was decoded at `0:1001`, and `0:1001` held no code. -/
theorem C20_basic_block_shape_witness :
    DisassembleBasicBlock 5 straightLineDoc toyArch ⟨0, 1000⟩ [] =
      some (true, [toyNop, toyNop, toyRet]) ∧
    [toyNop, toyNop, toyRet].get? 1 = some toyNop ∧
    ((⟨0, 1000⟩ : Address) + totalLength ([toyNop, toyNop, toyRet].take 1)) = ⟨0, 1001⟩ ∧
    ((1 + 1 < [toyNop, toyNop, toyRet].length → isTerminator toyNop.opType = false) ∧
      (∃ m : MemoryArea, m ∈ straightLineDoc.areas ∧
        m.IsPresent ((⟨0, 1000⟩ : Address) + totalLength ([toyNop, toyNop, toyRet].take 1))
          = true ∧
        toyArch.Disassemble m.GetBinaryStream
          (((⟨0, 1000⟩ : Address) + totalLength ([toyNop, toyNop, toyRet].take 1)).offset
            - m.GetVirtualBase.offset) = some toyNop) ∧
      (∀ j, j < toyNop.length →
        straightLineDoc.ContainsCode ((⟨0, 1000⟩ : Address) +
          totalLength ([toyNop, toyNop, toyRet].take 1) + j) = false)) :=
  ⟨rfl, rfl, rfl,
    C20_basic_block_shape 5 straightLineDoc toyArch ⟨0, 1000⟩ true [toyNop, toyNop, toyRet] rfl
      1 toyNop rfl⟩

/-! ## Theorems: cross-reference builder -/

theorem ChangeValueSize_labels (d : Document) (a : Address) (n : Nat) :
    (d.ChangeValueSize a n).labels = d.labels ∧ (d.ChangeValueSize a n).areas = d.areas ∧
    (d.ChangeValueSize a n).xrefs = d.xrefs := by
  unfold Document.ChangeValueSize
  split
  · exact ⟨rfl, rfl, rfl⟩
  · split
    · split
      · exact ⟨rfl, rfl, rfl⟩
      · unfold Document.InsertCell
        split <;> exact ⟨rfl, rfl, rfl⟩
    · exact ⟨rfl, rfl, rfl⟩

theorem AddLabel_labels_congr (d1 d2 : Document) (h : d1.labels = d2.labels) (a : Address)
    (l : Label) (f : Bool) : (d1.AddLabel a l f).labels = (d2.AddLabel a l f).labels := by
  unfold Document.AddLabel
  rw [h]
  split
  · exact h
  · rfl

theorem IsPresent_of_RetrieveCell (d : Document) (a : Address) (c : Cell)
    (h : d.RetrieveCell a = some c) : d.IsPresent a = true := by
  unfold Document.RetrieveCell at h
  split at h
  · assumption
  · cases h

theorem GetMemoryArea_isSome_of_IsPresent (d : Document) (a : Address)
    (h : d.IsPresent a = true) : ∃ m, d.GetMemoryArea a = some m := by
  unfold Document.IsPresent at h
  unfold Document.GetMemoryArea
  obtain ⟨m, hm, hp⟩ := List.any_eq_true.1 h
  cases hf : d.areas.find? (fun m => m.IsPresent a) with
  | none =>
    have := List.find?_eq_none.1 hf m hm
    exact absurd hp this
  | some m2 => exact ⟨m2, rfl⟩

theorem AddLabel_frame (d : Document) (a : Address) (l : Label) (f : Bool) :
    (d.AddLabel a l f).xrefs = d.xrefs ∧ (d.AddLabel a l f).areas = d.areas ∧
    (d.AddLabel a l f).cells = d.cells ∧ (d.AddLabel a l f).multicells = d.multicells := by
  unfold Document.AddLabel
  split <;> exact ⟨rfl, rfl, rfl, rfl⟩

/-- C18, the code at a failing input. The `Data` label at `0:5000` lies over the bytes
`48 00 69 6A 00`. Read as ASCII from the label's address the text is "H" (then the NUL), and a
fresh ASCII probe accepts it. `FindStrings` first reads the valid unit `0048` and stops at the
invalid unit `6A69`; the ASCII loop then goes on at offset 2 with "H" still in `CurString`,
and the `String` cell inserted has the text "Hij". -/
theorem C18_ascii_fallback_failing_input :
    (FindStrings.readAscii toyStrategy [0x48, 0x00, 0x69, 0x6A, 0x00]
        { PhysicalOffset := 0, CurString := [], LastChar := none }).CurString = "H".toList ∧
    FindStrings.accepted toyStrategy (FindStrings.readAscii toyStrategy
        [0x48, 0x00, 0x69, 0x6A, 0x00]
        { PhysicalOffset := 0, CurString := [], LastChar := none }) = true ∧
    FindStrings.readUtf16 toyStrategy [0x48, 0x00, 0x69, 0x6A, 0x00]
        { PhysicalOffset := 0, CurString := [], LastChar := none } =
      { PhysicalOffset := 2, CurString := "H".toList, LastChar := some 0x6A69 } ∧
    (FindStrings Analyzer.initial toyStrategy toyStrategy mixedDoc toyArch).cells =
      [(⟨0, 5000⟩, Cell.string String.AsciiType "Hij".toList 4)] := by
  refine ⟨by decide, by decide, rfl, rfl⟩

/-! ## Theorems: function creation -/

theorem RetrieveMultiCell_insert_none (d : Document) (a : Address) (f : Function)
    (h : d.RetrieveMultiCell a = none) :
    (d.InsertMultiCell a f false).2.RetrieveMultiCell a = some f := by
  have hc : ¬ (!false && (d.RetrieveMultiCell a).isSome) = true := by simp [h]
  unfold Document.InsertMultiCell
  rw [if_neg hc]
  simp [Document.RetrieveMultiCell]

theorem RetrieveMultiCell_insert_some (d : Document) (a : Address) (f f0 : Function)
    (h : d.RetrieveMultiCell a = some f0) :
    (d.InsertMultiCell a f false).2.RetrieveMultiCell a = some f0 := by
  have hc : (!false && (d.RetrieveMultiCell a).isSome) = true := by simp [h]
  unfold Document.InsertMultiCell
  rw [if_pos hc]
  exact h

theorem GetLabelFromAddress_AddLabel_fresh (d : Document) (a : Address) (l : Label) (f : Bool)
    (h : ∀ p ∈ d.labels, p.1 ≠ a ∧ p.2.name ≠ l.name) :
    (d.AddLabel a l f).GetLabelFromAddress a = l := by
  have hany : (d.labels.any fun p => decide (p.1 = a) || decide (p.2.name = l.name)) = false := by
    apply List.any_eq_false.2
    intro p hp
    obtain ⟨h1, h2⟩ := h p hp
    simp [h1, h2]
  simp [Document.AddLabel, hany, Document.GetLabelFromAddress]

theorem AddLabel_labels_of_InsertMultiCell (d : Document) (a b : Address) (f : Function)
    (force : Bool) (l : Label) (fl : Bool) :
    ((d.InsertMultiCell b f force).2.AddLabel a l fl).labels = (d.AddLabel a l fl).labels := by
  apply AddLabel_labels_congr
  unfold Document.InsertMultiCell
  split <;> rfl

/-- C16. `CreateFunction` when `ComputeFunctionLength(doc, addr, 0x1000)` succeeds with
`(len, cnt)`: if `BuildControlFlowGraph` succeeds with the graph `cfg`, it returns true,
having called `InsertMultiCell` (not forcing) with the `Function` of exactly that `len`, `cnt`
and `cfg` and then `AddLabel` with the label of kind `Code|Global` named by the function
prefix followed by the address text with `':'` replaced by `'_'`; so the multicell at `addr`
is that `Function` if there was none and the old one otherwise, and the label at `addr` is the
new one when neither the address nor the name was taken. If `BuildControlFlowGraph` fails it
returns false and the Document is unchanged. For `0:2000` the name is `fcn_0_2000`. -/
theorem C16_create_function_success (fuel : Nat) (an : Analyzer) (view : Cell → Instruction)
    (doc : Document)
    (rAddr : Address) (len cnt : Nat)
    (hcfl : ComputeFunctionLength fuel doc rAddr 0x1000 = some (true, len, cnt)) :
    (∀ cfg, BuildControlFlowGraph fuel doc rAddr ⟨[], []⟩ = some (true, cfg) →
      ∃ d2, CreateFunction fuel an view doc rAddr = some (true, d2) ∧
        d2 = ((doc.InsertMultiCell rAddr ⟨len, cnt, cfg⟩ false).2).AddLabel rAddr
          ⟨an.m_FunctionPrefix ++ suffixName rAddr, Label.Code ||| Label.Global⟩ false ∧
        (doc.RetrieveMultiCell rAddr = none →
          d2.RetrieveMultiCell rAddr = some ⟨len, cnt, cfg⟩) ∧
        (∀ f0, doc.RetrieveMultiCell rAddr = some f0 → d2.RetrieveMultiCell rAddr = some f0) ∧
        ((∀ p ∈ doc.labels, p.1 ≠ rAddr ∧ p.2.name ≠ an.m_FunctionPrefix ++ suffixName rAddr) →
          d2.GetLabelFromAddress rAddr =
            ⟨an.m_FunctionPrefix ++ suffixName rAddr, Label.Code ||| Label.Global⟩) ∧
        d2.cells = doc.cells ∧ d2.xrefs = doc.xrefs) ∧
    (∀ cfg, BuildControlFlowGraph fuel doc rAddr ⟨[], []⟩ = some (false, cfg) →
      CreateFunction fuel an view doc rAddr = some (false, doc)) ∧
    Analyzer.initial.m_FunctionPrefix ++ suffixName ⟨0, 2000⟩ = "fcn_0_2000".toList := by
  refine ⟨?_, ?_, by decide⟩
  · intro cfg hcfg
    refine ⟨_, ?_, rfl, ?_, ?_, ?_, ?_, ?_⟩
    · simp only [CreateFunction, hcfl, hcfg]
    · intro hnone
      rw [RetrieveMultiCell_addLabel]
      exact RetrieveMultiCell_insert_none doc rAddr _ hnone
    · intro f0 hsome
      rw [RetrieveMultiCell_addLabel]
      exact RetrieveMultiCell_insert_some doc rAddr _ f0 hsome
    · intro hfresh
      apply GetLabelFromAddress_AddLabel_fresh
      intro p hp
      have : (doc.InsertMultiCell rAddr ⟨len, cnt, cfg⟩ false).2.labels = doc.labels := by
        unfold Document.InsertMultiCell
        split <;> rfl
      rw [this] at hp
      exact hfresh p hp
    · rw [(AddLabel_frame _ _ _ _).2.2.1]
      unfold Document.InsertMultiCell
      split <;> rfl
    · rw [(AddLabel_frame _ _ _ _).1]
      unfold Document.InsertMultiCell
      split <;> rfl
  · intro cfg hcfg
    simp only [CreateFunction, hcfl, hcfg]

/-- C16, at concrete inputs: the code cells `nop; ret` at `0:1000`; `CreateFunction` returns
true and the Document holds the `Function` of byte length 2 with 2 instructions and the label
`fcn_0_1000` at `0:1000`. -/
theorem C16_create_function_success_witness :
    ComputeFunctionLength 10 nopRetDoc ⟨0, 1000⟩ 0x1000 = some (true, 2, 2) ∧
    BuildControlFlowGraph 10 nopRetDoc ⟨0, 1000⟩ ⟨[], []⟩ =
      some (true, ⟨[[⟨0, 1000⟩, ⟨0, 1001⟩]], []⟩) ∧
    ∃ d2, CreateFunction 10 Analyzer.initial blankView nopRetDoc ⟨0, 1000⟩ = some (true, d2) ∧
      d2.RetrieveMultiCell ⟨0, 1000⟩ = some ⟨2, 2, ⟨[[⟨0, 1000⟩, ⟨0, 1001⟩]], []⟩⟩ ∧
      (d2.GetLabelFromAddress ⟨0, 1000⟩).name = "fcn_0_1000".toList := by
  obtain ⟨d2, h1, h2, h3, -, h5, -, -⟩ :=
    (C16_create_function_success 10 Analyzer.initial blankView nopRetDoc ⟨0, 1000⟩ 2 2
      (by decide)).1
      ⟨[[⟨0, 1000⟩, ⟨0, 1001⟩]], []⟩ rfl
  refine ⟨by decide, rfl, d2, h1, h3 rfl, ?_⟩
  rw [h5 (by intro p hp; cases hp)]
  decide

/-- The thunk path of `CreateFunction` (lines 486-505), with the cell at `addr` as the cast
of line 495 reads it: when `ComputeFunctionLength` fails at `addr`, the operation type read is
exactly Jump, operand 0 resolves to a target and the target carries a label of known kind,
`CreateFunction` returns true, having called `AddLabel` for `addr` with the label of kind
`Code|Global` named `<mnemonic>_<target label>` (which is the label at `addr` afterwards when
neither the address nor the name was taken), and it inserts no multicell; if one of these
conditions fails after `ComputeFunctionLength` failed, it returns false and the Document is
unchanged. For a cell that is an instruction the members read are its own. -/
theorem CreateFunction_thunk_naming (fuel : Nat) (an : Analyzer) (view : Cell → Instruction)
    (doc : Document) (rAddr : Address) (len cnt : Nat)
    (hcfl : ComputeFunctionLength fuel doc rAddr 0x1000 = some (false, len, cnt)) :
    (∀ pInsn pFuncInsn OpRefAddr, GetCell doc rAddr = some pInsn →
      pFuncInsn = pInsn.asInstruction view →
      pFuncInsn.opType = OpJump → pFuncInsn.GetOperandReference 0 rAddr = some OpRefAddr →
      (doc.GetLabelFromAddress OpRefAddr).GetType ≠ Label.Unknown →
      ∃ d2, CreateFunction fuel an view doc rAddr = some (true, d2) ∧
        d2 = doc.AddLabel rAddr
          ⟨pFuncInsn.name ++ "_".toList ++ (doc.GetLabelFromAddress OpRefAddr).GetLabel,
            Label.Code ||| Label.Global⟩ false ∧
        d2.multicells = doc.multicells ∧ d2.cells = doc.cells ∧
        ((∀ p ∈ doc.labels, p.1 ≠ rAddr ∧
            p.2.name ≠ pFuncInsn.name ++ "_".toList ++
              (doc.GetLabelFromAddress OpRefAddr).GetLabel) →
          d2.GetLabelFromAddress rAddr =
            ⟨pFuncInsn.name ++ "_".toList ++ (doc.GetLabelFromAddress OpRefAddr).GetLabel,
              Label.Code ||| Label.Global⟩)) ∧
    ((¬ ∃ pInsn OpRefAddr, GetCell doc rAddr = some pInsn ∧
        (pInsn.asInstruction view).opType = OpJump ∧
        (pInsn.asInstruction view).GetOperandReference 0 rAddr = some OpRefAddr ∧
        (doc.GetLabelFromAddress OpRefAddr).GetType ≠ Label.Unknown) →
      CreateFunction fuel an view doc rAddr = some (false, doc)) ∧
    (∀ pFuncInsn, (Cell.instruction pFuncInsn).asInstruction view = pFuncInsn) := by
  refine ⟨?_, ?_, fun _ => rfl⟩
  · intro pInsn pFuncInsn OpRefAddr hcell hview htype href hlbl
    subst hview
    obtain ⟨m, hm⟩ := GetMemoryArea_isSome_of_IsPresent doc rAddr
      (IsPresent_of_RetrieveCell doc rAddr _ hcell)
    refine ⟨_, ?_, rfl, (AddLabel_frame _ _ _ _).2.2.2, (AddLabel_frame _ _ _ _).2.2.1, ?_⟩
    · simp only [CreateFunction, hcfl, hm, hcell, htype, href, ne_eq, not_true_eq_false,
        if_false, hlbl]
    · intro hfresh
      exact GetLabelFromAddress_AddLabel_fresh doc rAddr _ false hfresh
  · intro hnot
    simp only [CreateFunction, hcfl]
    cases hm : doc.GetMemoryArea rAddr with
    | none => rfl
    | some m =>
      dsimp only
      cases hcell : GetCell doc rAddr with
      | none => rfl
      | some c =>
        dsimp only
        by_cases htype : (c.asInstruction view).opType = OpJump
        · rw [if_neg (by simpa using htype)]
          cases href : (c.asInstruction view).GetOperandReference 0 rAddr with
          | none => rfl
          | some OpRefAddr =>
            dsimp only
            by_cases hlbl : (doc.GetLabelFromAddress OpRefAddr).GetType = Label.Unknown
            · rw [if_pos hlbl]
            · exact absurd ⟨c, OpRefAddr, hcell, htype, href, hlbl⟩ hnot
        · rw [if_pos htype]

/-- The thunk of the seed scenario: `0:1000` holds a single unconditional jump to `0:3000`,
which carries the label `printf`; `CreateFunction(0:1000)` returns true, names the address
`jmp_printf` with kind `Code|Global` and inserts no multicell, whatever the cast would read
from other cells. -/
theorem CreateFunction_thunk_jmp_printf (view : Cell → Instruction) :
    ComputeFunctionLength 10 thunkDoc ⟨0, 1000⟩ 0x1000 = some (false, 2, 1) ∧
    GetCell thunkDoc ⟨0, 1000⟩ = some (Cell.instruction (toyJmp 1998)) ∧
    (toyJmp 1998).GetOperandReference 0 ⟨0, 1000⟩ = some ⟨0, 3000⟩ ∧
    ∃ d2, CreateFunction 10 Analyzer.initial view thunkDoc ⟨0, 1000⟩ = some (true, d2) ∧
      d2.multicells = thunkDoc.multicells ∧
      (d2.GetLabelFromAddress ⟨0, 1000⟩).name = "jmp_printf".toList ∧
      (d2.GetLabelFromAddress ⟨0, 1000⟩).type = Label.Code ||| Label.Global := by
  obtain ⟨d2, h1, h2, h3, -, h5⟩ :=
    (CreateFunction_thunk_naming 10 Analyzer.initial view thunkDoc ⟨0, 1000⟩ 2 1 (by decide)).1
      (Cell.instruction (toyJmp 1998)) (toyJmp 1998) ⟨0, 3000⟩ rfl rfl rfl rfl (by decide)
  have hfresh := h5 (by decide)
  refine ⟨by decide, rfl, rfl, d2, h1, h3, ?_, ?_⟩
  · rw [hfresh]; decide
  · rw [hfresh]

/-- C15, the code at a failing input. At `0:1000` the Document holds a raw byte, not an
instruction, and `0:3000` carries the label `printf`. `ComputeFunctionLength` fails at
`0:1000`, the cell there is not null, and line 495 casts it to an instruction without testing
its type: what `CreateFunction` returns is decided by what the cast reads. When it reads as a
`jmp` to `0:3000` the call returns true and names the raw byte `jmp_printf`, where the claim
has it return false; when it reads as zeroes the call returns false. The driver gets there:
on `call 0:2000; ret` with a byte at `0:2000` that does not decode, its loops hand the address
`0:2000`, which holds a raw byte, to `CreateFunction`. -/
theorem C15_unchecked_cast_failing_input :
    (GetCell rawThunkDoc ⟨0, 1000⟩).map (fun c => (c.isInstruction, c.isValue, c.GetLength)) =
      some (false, true, 1) ∧
    ComputeFunctionLength 10 rawThunkDoc ⟨0, 1000⟩ 0x1000 = some (false, 0, 0) ∧
    (∃ d2, CreateFunction 10 Analyzer.initial jmpView rawThunkDoc ⟨0, 1000⟩ = some (true, d2) ∧
      (d2.GetLabelFromAddress ⟨0, 1000⟩).name = "jmp_printf".toList ∧
      (d2.GetLabelFromAddress ⟨0, 1000⟩).type = Label.Code ||| Label.Global) ∧
    (CreateFunction 10 Analyzer.initial blankView rawThunkDoc ⟨0, 1000⟩).map
      (fun r => (r.1, r.2.labels.length)) = some (false, 1) ∧
    (DisassembleFollowingExecutionPath.outer Analyzer.initial toyArch 10
        { doc := badCallDoc, CallStack := [⟨0, 1000⟩], FuncAddr := [] }).map
      (fun st => (st.FuncAddr,
        (GetCell st.doc ⟨0, 2000⟩).map (fun c => (c.isInstruction, c.isValue, c.GetLength)))) =
      some ([⟨0, 2000⟩], some (false, true, 1)) :=
  ⟨by decide, by decide, ⟨_, rfl, by decide, by decide⟩, by decide, by decide⟩

/-! ## Theorems: label names -/

theorem mem_AddLabel (d : Document) (a : Address) (l : Label) (f : Bool) (p : Address × Label)
    (h : p ∈ (d.AddLabel a l f).labels) : p ∈ d.labels ∨ p = (a, l) := by
  unfold Document.AddLabel at h
  split at h
  · exact Or.inl h
  · rcases List.mem_cons.1 h with h | h
    · exact Or.inr h
    · exact Or.inl (List.mem_filter.1 h).1

theorem mem_SetLabelToAddress (d : Document) (a : Address) (l : Label) (p : Address × Label)
    (h : p ∈ (d.SetLabelToAddress a l).labels) : p ∈ d.labels ∨ p = (a, l) := by
  rcases List.mem_cons.1 h with h | h
  · exact Or.inr h
  · exact Or.inl (List.mem_filter.1 h).1

theorem InsertCell_labels (d : Document) (a : Address) (c : Cell) :
    (d.InsertCell a c).2.labels = d.labels := by
  unfold Document.InsertCell
  split <;> rfl

theorem InsertMultiCell_labels (d : Document) (a : Address) (f : Function) (force : Bool) :
    (d.InsertMultiCell a f force).2.labels = d.labels := by
  unfold Document.InsertMultiCell
  split <;> rfl

theorem CreateXRefs.operand_names (an : Analyzer) (pInsn : Instruction) (rAddr : Address)
    (d : Document) (CurOp : Nat) (p : Address × Label)
    (h : p ∈ (CreateXRefs.operand an pInsn rAddr d CurOp).labels) :
    p ∈ d.labels ∨ p.2.name = an.m_LabelPrefix ++ suffixName p.1 ∨
      p.2.name = an.m_DataPrefix ++ suffixName p.1 := by
  simp only [CreateXRefs.operand] at h
  have hcvs := fun a n => (ChangeValueSize_labels d a n).1
  repeat' split at h
  all_goals first
    | exact Or.inl h
    | exact Or.inl (by simpa only [Document.AddXRef, hcvs] using h)
    | (rcases mem_AddLabel _ _ _ _ _ h with h | h
       · exact Or.inl (by simpa only [Document.AddXRef, hcvs] using h)
       · subst h; first | exact Or.inr (Or.inl rfl) | exact Or.inr (Or.inr rfl))

theorem foldl_names {α : Type} (Q : Address × Label → Prop) (f : Document → α → Document)
    (hf : ∀ d x, ∀ p ∈ (f d x).labels, p ∈ d.labels ∨ Q p) (l : List α) :
    ∀ d : Document, ∀ p ∈ (l.foldl f d).labels, p ∈ d.labels ∨ Q p := by
  induction l with
  | nil => intro d p hp; exact Or.inl hp
  | cons x xs ih =>
    intro d p hp
    rcases ih (f d x) p hp with h | h
    · exact hf d x p h
    · exact Or.inr h

theorem FindStrings.label_names (an : Analyzer) (WinStr AsciiStr : CharacterStrategy)
    (d : Document) (q p : Address × Label)
    (h : p ∈ (FindStrings.label an WinStr AsciiStr d q).labels) :
    p ∈ d.labels ∨ ∃ text, p.2.name = an.m_StringPrefix ++ text := by
  simp only [FindStrings.label] at h
  repeat' split at h
  all_goals first
    | exact Or.inl h
    | (rcases mem_SetLabelToAddress _ _ _ _ h with h | h
       · exact Or.inl (by simpa only [InsertCell_labels] using h)
       · subst h; exact Or.inr ⟨_, rfl⟩)

/-- C14, corrected. The names of the labels the analyzer adds: a label of the Document after
`CreateXRefs` that was not there before is named by the label prefix or the data prefix
followed by the text of its address; after `CreateFunction` it is named by the function prefix
followed by the text of the address, or, on the thunk path (function length not computed, the
cell, as the cast of line 495 reads it, with a resolved operand 0), by the name read, which
is the mnemonic when the cell is an instruction, `_` and the label of the jump target, with no
configured prefix in front; after `FindStrings`, `MakeAsciiString` and `MakeWindowsString` it
is named by the string prefix followed by the decoded text. -/
theorem C14_label_names (fuel : Nat) (an : Analyzer) (view : Cell → Instruction)
    (WinStr AsciiStr : CharacterStrategy) (rArch : Architecture) (doc : Document)
    (rAddr : Address) :
    (∀ p ∈ (CreateXRefs an doc rAddr).labels, p ∈ doc.labels ∨
      p.2.name = an.m_LabelPrefix ++ suffixName p.1 ∨
      p.2.name = an.m_DataPrefix ++ suffixName p.1) ∧
    (∀ b d2, CreateFunction fuel an view doc rAddr = some (b, d2) → ∀ p ∈ d2.labels,
      p ∈ doc.labels ∨ p.2.name = an.m_FunctionPrefix ++ suffixName rAddr ∨
      ∃ pInsn pFuncInsn OpRefAddr len cnt,
        ComputeFunctionLength fuel doc rAddr 0x1000 = some (false, len, cnt) ∧
        GetCell doc rAddr = some pInsn ∧ pFuncInsn = pInsn.asInstruction view ∧
        pFuncInsn.GetOperandReference 0 rAddr = some OpRefAddr ∧
        p.2.name = pFuncInsn.name ++ "_".toList ++
          (doc.GetLabelFromAddress OpRefAddr).GetLabel) ∧
    (∀ p ∈ (FindStrings an WinStr AsciiStr doc rArch).labels, p ∈ doc.labels ∨
      ∃ text, p.2.name = an.m_StringPrefix ++ text) ∧
    (∀ p ∈ (MakeAsciiString an doc rAddr).2.labels, p ∈ doc.labels ∨
      ∃ text, p.2.name = an.m_StringPrefix ++ text) ∧
    (∀ p ∈ (MakeWindowsString an WinStr doc rAddr).2.labels, p ∈ doc.labels ∨
      ∃ text, p.2.name = an.m_StringPrefix ++ text) := by
  refine ⟨?_, ?_, ?_, ?_, ?_⟩
  · intro p hp
    unfold CreateXRefs at hp
    split at hp
    · exact foldl_names
        (fun p => p.2.name = an.m_LabelPrefix ++ suffixName p.1 ∨
          p.2.name = an.m_DataPrefix ++ suffixName p.1)
        _ (fun d x p h => CreateXRefs.operand_names an _ rAddr d x p h) _ doc p hp
    · exact Or.inl hp
  · intro b d2 h p hp
    simp only [CreateFunction] at h
    repeat' split at h
    all_goals first
      | (cases h; done)
      | (cases h; exact Or.inl hp)
      | (cases h
         rcases mem_AddLabel _ _ _ _ _ hp with h1 | h1
         · first
             | exact Or.inl h1
             | exact Or.inl (by simpa only [InsertMultiCell_labels] using h1)
         · subst h1
           first
             | exact Or.inr (Or.inl rfl)
             | exact Or.inr (Or.inr ⟨_, _, _, _, _, by assumption, by assumption, rfl,
                 by assumption, rfl⟩))
  · intro p hp
    exact foldl_names (fun p => ∃ text, p.2.name = an.m_StringPrefix ++ text) _
      (fun d x p h => FindStrings.label_names an WinStr AsciiStr d x p h) _ doc p hp
  · intro p hp
    simp only [MakeAsciiString] at hp
    repeat' split at hp
    all_goals first
      | exact Or.inl hp
      | (rcases mem_AddLabel _ _ _ _ _ hp with h1 | h1
         · exact Or.inl (by simpa only [InsertCell_labels] using h1)
         · subst h1; exact Or.inr ⟨_, rfl⟩)
  · intro p hp
    simp only [MakeWindowsString] at hp
    repeat' split at hp
    all_goals first
      | exact Or.inl hp
      | (rcases mem_AddLabel _ _ _ _ _ hp with h1 | h1
         · exact Or.inl (by simpa only [InsertCell_labels] using h1)
         · subst h1; exact Or.inr ⟨_, rfl⟩)

/-- C14, at concrete inputs: the label `CreateFunction` adds for the function `nop; ret` at
`0:1000` is named `fcn_0_1000`, which starts with the function prefix. -/
theorem C14_label_names_witness :
    ∃ d2, CreateFunction 10 Analyzer.initial blankView nopRetDoc ⟨0, 1000⟩ = some (true, d2) ∧
      (∀ p ∈ d2.labels, p ∈ nopRetDoc.labels ∨ p.2.name = "fcn_0_1000".toList) ∧
      hasConfiguredPrefix Analyzer.initial "fcn_0_1000".toList = true := by
  have hcfl : ComputeFunctionLength 10 nopRetDoc ⟨0, 1000⟩ 0x1000 = some (true, 2, 2) := by
    decide
  obtain ⟨d2, hd2⟩ : ∃ d2, CreateFunction 10 Analyzer.initial blankView nopRetDoc ⟨0, 1000⟩ =
      some (true, d2) := ⟨_, rfl⟩
  refine ⟨d2, hd2, ?_, by decide⟩
  intro p hp
  rcases (C14_label_names 10 Analyzer.initial blankView toyStrategy toyStrategy toyArch nopRetDoc
    ⟨0, 1000⟩).2.1 true d2 hd2 p hp with h | h | ⟨_, _, _, len, cnt, h, _⟩
  · exact Or.inl h
  · exact Or.inr h
  · rw [hcfl] at h
    cases h

/-- C14, counterexample to the claim as written: on the thunk path `CreateFunction` names
`0:1000`, which had no label, `jmp_printf`; the name starts with none of the configured
prefixes and no string was decoded. -/
theorem C14_counterexample :
    ∃ d2, CreateFunction 10 Analyzer.initial blankView thunkDoc ⟨0, 1000⟩ = some (true, d2) ∧
      thunkDoc.GetLabelFromAddress ⟨0, 1000⟩ = ⟨[], Label.Unknown⟩ ∧
      (d2.GetLabelFromAddress ⟨0, 1000⟩).name = "jmp_printf".toList ∧
      hasConfiguredPrefix Analyzer.initial "jmp_printf".toList = false ∧
      (∀ p ∈ thunkDoc.cells, ∀ k t n, p.2 ≠ Cell.string k t n) :=
  ⟨_, rfl, rfl, by decide, by decide, by
    intro p hp k t n
    simp only [thunkDoc, List.mem_singleton] at hp
    subst hp
    intro h
    cases h⟩

/-! ## Theorems: function delimitation and reachability -/

theorem RetrieveInstruction_stored (doc : Document) (a : Address) (insn : Instruction)
    (h : doc.RetrieveInstruction a = some insn) :
    doc.IsPresent a = true ∧ (a, Cell.instruction insn) ∈ doc.cells := by
  unfold Document.RetrieveInstruction at h
  split at h
  · rename_i i hc
    cases h
    refine ⟨IsPresent_of_RetrieveCell doc a _ hc, ?_⟩
    unfold Document.RetrieveCell at hc
    split at hc
    · split at hc
      · rename_i p hf
        have hp1 := List.find?_some hf
        have hmem := List.mem_of_find?_eq_some hf
        obtain ⟨p1, p2⟩ := p
        simp only [decide_eq_true_eq] at hp1
        simp only [Option.some.injEq] at hc
        subst hp1
        subst hc
        exact hmem
      · split at hc <;> cases hc
    · cases hc
  · cases h

theorem instruction_length_pos (doc : Document) (hlen : doc.codeHasLength = true)
    (a : Address) (insn : Instruction) (h : doc.RetrieveInstruction a = some insn) :
    1 ≤ insn.length := by
  have hmem := (RetrieveInstruction_stored doc a insn h).2
  have := List.all_eq_true.1 hlen _ hmem
  simpa using this

theorem countP_lt_of_mem {α : Type} (p q : α → Bool) : ∀ (l : List α),
    (∀ x ∈ l, q x = true → p x = true) → ∀ x ∈ l, p x = true → q x = false →
    l.countP q < l.countP p := by
  intro l
  induction l with
  | nil => intro _ x hx; cases hx
  | cons y ys ih =>
    intro himp x hx hp hq
    have hmono : ys.countP q ≤ ys.countP p :=
      List.countP_mono_left (fun z hz => himp z (List.mem_cons_of_mem _ hz))
    rw [List.countP_cons, List.countP_cons]
    rcases List.mem_cons.1 hx with rfl | hx
    · simp only [hp, hq, if_true]
      simp only [Bool.false_eq_true, if_false]
      omega
    · have := ih (fun z hz => himp z (List.mem_cons_of_mem _ hz)) x hx hp hq
      have hy := himp y (List.mem_cons_self _ _)
      by_cases hqy : q y = true
      · simp only [hqy, hy hqy, if_true]
        omega
      · have hqy2 : q y = false := by simpa using hqy
        simp only [hqy2, Bool.false_eq_true, if_false]
        split <;> omega

theorem unvisitedCode_visit (doc : Document) (V : List Address) (a : Address)
    (insn : Instruction) (h : doc.RetrieveInstruction a = some insn) (hv : a ∉ V) :
    unvisitedCode doc (a :: V) + 1 ≤ unvisitedCode doc V := by
  unfold unvisitedCode
  apply countP_lt_of_mem _ _ doc.cells _ (a, Cell.instruction insn)
    (RetrieveInstruction_stored doc a insn h).2
  · simp [h, hv]
  · simp
  · intro x _ hx
    simp only [Bool.and_eq_true, Bool.not_eq_true_eq_eq_false] at hx ⊢
    refine ⟨hx.1, ?_⟩
    have h2 := hx.2
    simp only [List.contains_eq_any_beq, List.any_eq_false, List.mem_cons] at h2 ⊢
    intro y hy
    exact h2 y (Or.inr hy)

theorem flowStep_cases (doc : Document) (a b : Address) (insn : Instruction)
    (hri : doc.RetrieveInstruction a = some insn) (h : flowStep doc a b = true) :
    (insn.opType &&& OpJump ≠ 0 ∧ insn.opType &&& OpCond ≠ 0 ∧ b = a + insn.length) ∨
    (insn.opType &&& OpJump ≠ 0 ∧ (insn.Operand 0).type &&& O_MEM = 0 ∧
      insn.GetOperandReference 0 a = some b) ∨
    (insn.opType &&& OpJump = 0 ∧ isUnconditionalRet insn = false ∧ b = a + insn.length) := by
  simp only [flowStep, hri] at h
  split at h
  · rename_i hj
    simp only [Bool.or_eq_true, Bool.and_eq_true, decide_eq_true_eq] at h
    rcases h with h | h
    · exact Or.inl ⟨hj, h.1, h.2⟩
    · exact Or.inr (Or.inl ⟨hj, h.1, h.2⟩)
  · rename_i hj
    simp only [Bool.and_eq_true, decide_eq_true_eq, Bool.not_eq_true_eq_eq_false] at h
    exact Or.inr (Or.inr ⟨by simpa using hj, h.1, h.2⟩)

/-- Visiting the instruction at `CurAddr` keeps the invariant of the traversal when every
successor of the instruction is pending afterwards. -/
theorem LengthInvariant.after_visit (doc : Document) (start : Address) (st st1 : LengthState)
    (CurAddr : Address) (pending : List Address)
    (hV : st1.VisitedInstruction = CurAddr :: st.VisitedInstruction)
    (hR : st.RetReached = true → st1.RetReached = true)
    (hinv : LengthInvariant doc start st (CurAddr :: st.CallStack))
    (hsub : ∀ a ∈ st.CallStack, a ∈ pending)
    (hsucc : ∀ b, flowStep doc CurAddr b = true → b ∈ pending)
    (hret : doc.retAt CurAddr = true → st1.RetReached = true) :
    LengthInvariant doc start st1 pending := by
  have hold : ∀ b, (b ∈ st.VisitedInstruction ∨ b ∈ CurAddr :: st.CallStack ∨
      doc.RetrieveInstruction b = none) →
      (b ∈ st1.VisitedInstruction ∨ b ∈ pending ∨ doc.RetrieveInstruction b = none) := by
    intro b hb
    rw [hV]
    rcases hb with hb | hb | hb
    · exact Or.inl (List.mem_cons_of_mem _ hb)
    · rcases List.mem_cons.1 hb with hb | hb
      · exact Or.inl (hb ▸ List.mem_cons_self _ _)
      · exact Or.inr (Or.inl (hsub b hb))
    · exact Or.inr (Or.inr hb)
  refine ⟨?_, ?_, hold start hinv.start⟩
  · intro v hv b hb
    rw [hV] at hv
    rcases List.mem_cons.1 hv with hv | hv
    · subst hv
      exact Or.inr (Or.inl (hsucc b hb))
    · exact hold b (hinv.closed v hv b hb)
  · intro v hv hr
    rw [hV] at hv
    rcases List.mem_cons.1 hv with hv | hv
    · subst hv
      exact hret hr
    · exact hR (hinv.ret v hv hr)

/-- The inner loop of `ComputeFunctionLength` without threshold ends, within the budget, and
keeps the invariant of the traversal. -/
theorem ComputeFunctionLength.inner_complete (doc : Document) (start : Address)
    (hlen : doc.codeHasLength = true) :
    ∀ (fuel : Nat) (CurAddr : Address) (st : LengthState),
      unvisitedCode doc st.VisitedInstruction * (doc.endOffset + 1) +
        (doc.endOffset - CurAddr.offset) < fuel →
      LengthInvariant doc start st (CurAddr :: st.CallStack) →
      ∃ st2, ComputeFunctionLength.inner doc 0 fuel CurAddr st = some (false, st2) ∧
        LengthInvariant doc start st2 st2.CallStack ∧
        st2.CallStack.length + unvisitedCode doc st2.VisitedInstruction ≤
          st.CallStack.length + unvisitedCode doc st.VisitedInstruction ∧
        unvisitedCode doc st2.VisitedInstruction ≤ unvisitedCode doc st.VisitedInstruction := by
  intro fuel
  induction fuel with
  | zero => intro _ _ h; omega
  | succ fuel ih =>
    intro CurAddr st hf hinv
    unfold ComputeFunctionLength.inner
    cases hri : doc.RetrieveInstruction CurAddr with
    | none =>
      refine ⟨st, rfl, ⟨?_, hinv.ret, ?_⟩, le_refl _, le_refl _⟩
      · intro v hv b hb
        rcases hinv.closed v hv b hb with h | h | h
        · exact Or.inl h
        · rcases List.mem_cons.1 h with h | h
          · exact Or.inr (Or.inr (h ▸ hri))
          · exact Or.inr (Or.inl h)
        · exact Or.inr (Or.inr h)
      · rcases hinv.start with h | h | h
        · exact Or.inl h
        · rcases List.mem_cons.1 h with h | h
          · exact Or.inr (Or.inr (h ▸ hri))
          · exact Or.inr (Or.inl h)
        · exact Or.inr (Or.inr h)
    | some rInsn =>
      have hl := instruction_length_pos doc hlen CurAddr rInsn hri
      have hoff := doc.offset_lt_endOffset CurAddr (RetrieveInstruction_stored doc _ _ hri).1
      have hnext : (CurAddr + rInsn.length).offset = CurAddr.offset + rInsn.length := rfl
      dsimp only
      by_cases hvis : st.VisitedInstruction.contains CurAddr = true
      · rw [if_pos hvis]
        have hmem := (contains_eq_true_iff _ _).1 hvis
        refine ih (CurAddr + rInsn.length) st (by omega) ⟨?_, hinv.ret, ?_⟩
        · intro v hv b hb
          rcases hinv.closed v hv b hb with h | h | h
          · exact Or.inl h
          · rcases List.mem_cons.1 h with h | h
            · exact Or.inl (h ▸ hmem)
            · exact Or.inr (Or.inl (List.mem_cons_of_mem _ h))
          · exact Or.inr (Or.inr h)
        · rcases hinv.start with h | h | h
          · exact Or.inl h
          · rcases List.mem_cons.1 h with h | h
            · exact Or.inl (h ▸ hmem)
            · exact Or.inr (Or.inl (List.mem_cons_of_mem _ h))
          · exact Or.inr (Or.inr h)
      · rw [if_neg hvis]
        have hnot : CurAddr ∉ st.VisitedInstruction := fun h =>
          hvis ((contains_eq_true_iff _ _).2 h)
        have hU := unvisitedCode_visit doc st.VisitedInstruction CurAddr rInsn hri hnot
        have hmul := Nat.mul_le_mul_right (doc.endOffset + 1) hU
        rw [Nat.add_mul, Nat.one_mul] at hmul
        by_cases hj : rInsn.opType &&& OpJump ≠ 0
        · rw [if_pos hj]
          have hnr : doc.retAt CurAddr = true → False := by
            intro hr
            simp only [Document.retAt, hri, isUnconditionalRet, Bool.and_eq_true,
              decide_eq_true_eq] at hr
            exact hj hr.1.1
          generalize hst2 : (if rInsn.opType &&& OpCond ≠ 0 then
            ({ CallStack := (CurAddr + rInsn.length) :: st.CallStack,
               VisitedInstruction := CurAddr :: st.VisitedInstruction,
               RetReached := st.RetReached,
               FuncLen := (st.FuncLen + rInsn.length % 2 ^ 32) % 2 ^ 32,
               EndAddr := st.EndAddr,
               rFunctionLength := (st.rFunctionLength + rInsn.length % 2 ^ 32) % 2 ^ 16,
               rInstructionCounter := (st.rInstructionCounter + 1) % 2 ^ 16 } : LengthState)
            else
            { CallStack := st.CallStack,
               VisitedInstruction := CurAddr :: st.VisitedInstruction,
               RetReached := st.RetReached,
               FuncLen := (st.FuncLen + rInsn.length % 2 ^ 32) % 2 ^ 32,
               EndAddr := st.EndAddr,
               rFunctionLength := (st.rFunctionLength + rInsn.length % 2 ^ 32) % 2 ^ 16,
               rInstructionCounter := (st.rInstructionCounter + 1) % 2 ^ 16 }) = st2
          have hV : st2.VisitedInstruction = CurAddr :: st.VisitedInstruction := by
            subst hst2; split <;> rfl
          have hR : st2.RetReached = st.RetReached := by
            subst hst2; split <;> rfl
          have hsub : ∀ a ∈ st.CallStack, a ∈ st2.CallStack := by
            subst hst2
            intro a ha
            split
            · exact List.mem_cons_of_mem _ ha
            · exact ha
          have hcond : rInsn.opType &&& OpCond ≠ 0 →
              CurAddr + rInsn.length ∈ st2.CallStack := by
            subst hst2
            intro hc
            rw [if_pos hc]
            exact List.mem_cons_self _ _
          have hlen2 : st2.CallStack.length ≤ st.CallStack.length + 1 := by
            subst hst2
            split
            · simp
            · simp
          by_cases hm : (rInsn.Operand 0).type &&& O_MEM ≠ 0
          · rw [if_pos hm]
            refine ⟨st2, rfl, ?_, by rw [hV]; omega, by rw [hV]; omega⟩
            refine LengthInvariant.after_visit doc start st st2 CurAddr _ hV (fun h => hR ▸ h) hinv
              hsub ?_ (fun h => (hnr h).elim)
            intro b hb
            rcases flowStep_cases doc CurAddr b rInsn hri hb with h | h | h
            · exact h.2.2 ▸ hcond h.2.1
            · exact absurd h.2.1 hm
            · exact absurd h.1 hj
          · rw [if_neg hm]
            cases href : rInsn.GetOperandReference 0 CurAddr with
            | none =>
              refine ⟨st2, rfl, ?_, by rw [hV]; omega, by rw [hV]; omega⟩
              refine LengthInvariant.after_visit doc start st st2 CurAddr _ hV (fun h => hR ▸ h) hinv
                hsub ?_ (fun h => (hnr h).elim)
              intro b hb
              rcases flowStep_cases doc CurAddr b rInsn hri hb with h | h | h
              · exact h.2.2 ▸ hcond h.2.1
              · rw [href] at h
                cases h.2.2
              · exact absurd h.1 hj
            | some DstAddr =>
              dsimp only
              have hinv2 : LengthInvariant doc start st2 (DstAddr :: st2.CallStack) := by
                refine LengthInvariant.after_visit doc start st st2 CurAddr _ hV (fun h => hR ▸ h)
                  hinv (fun a ha => List.mem_cons_of_mem _ (hsub a ha)) ?_
                  (fun h => (hnr h).elim)
                intro b hb
                rcases flowStep_cases doc CurAddr b rInsn hri hb with h | h | h
                · exact List.mem_cons_of_mem _ (h.2.2 ▸ hcond h.2.1)
                · rw [href] at h
                  cases h.2.2
                  exact List.mem_cons_self _ _
                · exact absurd h.1 hj
              obtain ⟨st3, h1, h2, h3, h4⟩ := ih DstAddr st2 (by rw [hV]; omega) hinv2
              rw [hV] at h3 h4
              exact ⟨st3, h1, h2, by omega, by omega⟩
        · rw [if_neg hj]
          have hj0 : rInsn.opType &&& OpJump = 0 := by simpa using hj
          by_cases hr : rInsn.opType &&& OpRet ≠ 0 ∧ ¬ (rInsn.opType &&& OpCond ≠ 0)
          · rw [if_pos hr]
            refine ⟨_, rfl, ?_, by dsimp only; omega, by dsimp only; omega⟩
            refine LengthInvariant.after_visit doc start st _ CurAddr _ rfl (fun _ => rfl) hinv
              (fun a ha => ha) ?_ (fun _ => rfl)
            intro b hb
            rcases flowStep_cases doc CurAddr b rInsn hri hb with h | h | h
            · exact absurd hj0 h.1
            · exact absurd hj0 h.1
            · have hu : isUnconditionalRet rInsn = true := by
                simp only [isUnconditionalRet, Bool.and_eq_true, decide_eq_true_eq]
                exact ⟨⟨hj0, hr.1⟩, by simpa using hr.2⟩
              rw [hu] at h
              cases h.2.1
          · rw [if_neg hr]
            rw [if_neg (fun h => h.1 rfl)]
            have hinv2 : LengthInvariant doc start
                { st with
                  FuncLen := (st.FuncLen + rInsn.length % 2 ^ 32) % 2 ^ 32
                  VisitedInstruction := CurAddr :: st.VisitedInstruction
                  rFunctionLength := (st.rFunctionLength + rInsn.length % 2 ^ 32) % 2 ^ 16
                  rInstructionCounter := (st.rInstructionCounter + 1) % 2 ^ 16 }
                ((CurAddr + rInsn.length) :: st.CallStack) := by
              refine LengthInvariant.after_visit doc start st _ CurAddr _ rfl (fun h => h) hinv
                (fun a ha => List.mem_cons_of_mem _ ha) ?_ ?_
              · intro b hb
                rcases flowStep_cases doc CurAddr b rInsn hri hb with h | h | h
                · exact absurd hj0 h.1
                · exact absurd hj0 h.1
                · exact h.2.2 ▸ List.mem_cons_self _ _
              · intro h
                exfalso
                apply hr
                simp only [Document.retAt, hri, isUnconditionalRet, Bool.and_eq_true,
                  decide_eq_true_eq] at h
                exact ⟨h.1.2, by simpa using h.2⟩
            obtain ⟨st3, h1, h2, h3, h4⟩ := ih (CurAddr + rInsn.length) _
              (by dsimp only; omega) hinv2
            dsimp only at h3 h4
            exact ⟨st3, h1, h2, by omega, by omega⟩

/-- The outer loop of `ComputeFunctionLength` without threshold ends, within the budget, with
its invariant and nothing left to follow; it returns `RetReached`. -/
theorem ComputeFunctionLength.outer_complete (doc : Document) (start : Address)
    (hlen : doc.codeHasLength = true) :
    ∀ (fuel : Nat) (st : LengthState),
      (st.CallStack.length + unvisitedCode doc st.VisitedInstruction) +
        unvisitedCode doc st.VisitedInstruction * (doc.endOffset + 1) +
        doc.endOffset + 2 ≤ fuel →
      LengthInvariant doc start st st.CallStack →
      ∃ st2, ComputeFunctionLength.outer doc 0 fuel st = some (st2.RetReached, st2) ∧
        LengthInvariant doc start st2 [] := by
  intro fuel
  induction fuel with
  | zero => intro _ h; omega
  | succ fuel ih =>
    intro st hf hinv
    unfold ComputeFunctionLength.outer
    cases hs : st.CallStack with
    | nil => exact ⟨st, rfl, hs ▸ hinv⟩
    | cons CurAddr rest =>
      dsimp only
      rw [hs] at hf hinv
      simp only [List.length_cons] at hf
      obtain ⟨st2, h1, h2, h3, h4⟩ := ComputeFunctionLength.inner_complete doc start hlen fuel
        CurAddr { st with CallStack := rest } (by dsimp only; omega)
        ⟨hinv.closed, hinv.ret, hinv.start⟩
      rw [h1]
      dsimp only at h3 h4 ⊢
      have hmul := Nat.mul_le_mul_right (doc.endOffset + 1) h4
      exact ih st2 (by omega) h2

/-- Once nothing is left to follow, every code cell that the control flow reaches from the
start has been visited. -/
theorem LengthInvariant.visited_of_reachable (doc : Document) (start : Address)
    (st : LengthState) (hinv : LengthInvariant doc start st []) (b : Address)
    (hb : Relation.ReflTransGen (fun a b => flowStep doc a b = true) start b) :
    doc.RetrieveInstruction b = none ∨ b ∈ st.VisitedInstruction := by
  induction hb with
  | refl =>
    rcases hinv.start with h | h | h
    · exact Or.inr h
    · cases h
    · exact Or.inl h
  | tail hab hbc ih =>
    rename_i m c
    rcases ih with h | h
    · simp [flowStep, h] at hbc
    · rcases hinv.closed m h c hbc with h2 | h2 | h2
      · exact Or.inr h2
      · cases h2
      · exact Or.inl h2

/-- What the inner loop of `ComputeFunctionLength` follows, and the return it finds, can be
reached from the start along control flow and layout steps, whatever the threshold. -/
theorem ComputeFunctionLength.inner_sound (doc : Document) (start : Address) (T : Nat) :
    ∀ (fuel : Nat) (CurAddr : Address) (st : LengthState) (flag : Bool) (st2 : LengthState),
      ComputeFunctionLength.inner doc T fuel CurAddr st = some (flag, st2) →
      LengthReach (fun a b => flowStep doc a b || layoutStep doc a b) doc start st →
      Relation.ReflTransGen
        (fun a b => (flowStep doc a b || layoutStep doc a b) = true) start CurAddr →
      LengthReach (fun a b => flowStep doc a b || layoutStep doc a b) doc start st2 := by
  intro fuel
  induction fuel with
  | zero => intro _ _ _ _ h; cases h
  | succ fuel ih =>
    intro CurAddr st flag st2 h hreach hcur
    unfold ComputeFunctionLength.inner at h
    cases hri : doc.RetrieveInstruction CurAddr with
    | none =>
      rw [hri] at h
      cases h
      exact hreach
    | some rInsn =>
      rw [hri] at h
      dsimp only at h
      have hnext : Relation.ReflTransGen
          (fun a b => (flowStep doc a b || layoutStep doc a b) = true) start
          (CurAddr + rInsn.length) :=
        Relation.ReflTransGen.tail hcur (by simp [layoutStep, hri])
      by_cases hvis : st.VisitedInstruction.contains CurAddr = true
      · rw [if_pos hvis] at h
        exact ih _ _ _ _ h hreach hnext
      · rw [if_neg hvis] at h
        by_cases hj : rInsn.opType &&& OpJump ≠ 0
        · rw [if_pos hj] at h
          have hreach2 : LengthReach (fun a b => flowStep doc a b || layoutStep doc a b) doc
              start (if rInsn.opType &&& OpCond ≠ 0 then
                ({ CallStack := (CurAddr + rInsn.length) :: st.CallStack,
                   VisitedInstruction := CurAddr :: st.VisitedInstruction,
                   RetReached := st.RetReached,
                   FuncLen := (st.FuncLen + rInsn.length % 2 ^ 32) % 2 ^ 32,
                   EndAddr := st.EndAddr,
                   rFunctionLength := (st.rFunctionLength + rInsn.length % 2 ^ 32) % 2 ^ 16,
                   rInstructionCounter := (st.rInstructionCounter + 1) % 2 ^ 16 } :
                  LengthState)
                else
                { CallStack := st.CallStack,
                   VisitedInstruction := CurAddr :: st.VisitedInstruction,
                   RetReached := st.RetReached,
                   FuncLen := (st.FuncLen + rInsn.length % 2 ^ 32) % 2 ^ 32,
                   EndAddr := st.EndAddr,
                   rFunctionLength := (st.rFunctionLength + rInsn.length % 2 ^ 32) % 2 ^ 16,
                   rInstructionCounter := (st.rInstructionCounter + 1) % 2 ^ 16 }) := by
            split
            · refine ⟨?_, hreach.ret⟩
              intro a ha
              rcases List.mem_cons.1 ha with ha | ha
              · exact ha ▸ hnext
              · exact hreach.stack a ha
            · exact ⟨hreach.stack, hreach.ret⟩
          by_cases hm : (rInsn.Operand 0).type &&& O_MEM ≠ 0
          · rw [if_pos hm] at h
            cases h
            exact hreach2
          · rw [if_neg hm] at h
            cases href : rInsn.GetOperandReference 0 CurAddr with
            | none =>
              rw [href] at h
              cases h
              exact hreach2
            | some DstAddr =>
              rw [href] at h
              dsimp only at h
              refine ih _ _ _ _ h hreach2 (Relation.ReflTransGen.tail hcur ?_)
              have hm0 : (rInsn.Operand 0).type &&& O_MEM = 0 := by simpa using hm
              simp [flowStep, hri, hj, hm0, href]
        · rw [if_neg hj] at h
          have hj0 : rInsn.opType &&& OpJump = 0 := by simpa using hj
          by_cases hr : rInsn.opType &&& OpRet ≠ 0 ∧ ¬ (rInsn.opType &&& OpCond ≠ 0)
          · rw [if_pos hr] at h
            cases h
            refine ⟨hreach.stack, fun _ => ⟨CurAddr, hcur, ?_⟩⟩
            simp only [Document.retAt, hri, isUnconditionalRet, Bool.and_eq_true,
              decide_eq_true_eq]
            exact ⟨⟨hj0, hr.1⟩, by simpa using hr.2⟩
          · rw [if_neg hr] at h
            split at h
            · cases h
              exact ⟨hreach.stack, hreach.ret⟩
            · exact ih _ _ _ _ h ⟨hreach.stack, hreach.ret⟩ hnext

/-- A success of the outer loop of `ComputeFunctionLength` comes from an unconditional return
that can be reached from the start along control flow and layout steps. -/
theorem ComputeFunctionLength.outer_sound (doc : Document) (start : Address) (T : Nat) :
    ∀ (fuel : Nat) (st : LengthState) (st2 : LengthState),
      ComputeFunctionLength.outer doc T fuel st = some (true, st2) →
      LengthReach (fun a b => flowStep doc a b || layoutStep doc a b) doc start st →
      RetReachable (fun a b => flowStep doc a b || layoutStep doc a b) doc start := by
  intro fuel
  induction fuel with
  | zero => intro _ _ h; cases h
  | succ fuel ih =>
    intro st st2 h hreach
    unfold ComputeFunctionLength.outer at h
    cases hs : st.CallStack with
    | nil =>
      rw [hs] at h
      simp only [Option.some.injEq, Prod.mk.injEq] at h
      exact hreach.ret h.1
    | cons CurAddr rest =>
      rw [hs] at h
      dsimp only at h
      cases hin : ComputeFunctionLength.inner doc T fuel CurAddr { st with CallStack := rest }
        with
      | none => rw [hin] at h; cases h
      | some r =>
        obtain ⟨flag, st3⟩ := r
        rw [hin] at h
        have hreach3 := ComputeFunctionLength.inner_sound doc start T fuel CurAddr _ flag st3 hin
          ⟨fun a ha => hreach.stack a (hs ▸ List.mem_cons_of_mem _ ha), hreach.ret⟩
          (hreach.stack CurAddr (hs ▸ List.mem_cons_self _ _))
        cases flag with
        | true => cases h
        | false => exact ih st3 st2 h hreach3

/-- C12, corrected. `ComputeFunctionLength` with threshold 0 on a mapped start address whose
label is not Imported, in a Document whose instructions all occupy at least one address,
returns within the iteration budget. It succeeds if an unconditional return (Ret bit set, Cond
and Jump bits clear) can be reached from the start along control flow over code cells:
fall-through after an instruction that is neither a jump nor an unconditional return, the
fall-through of a conditional jump, and the operand-0 target of a jump that is resolved and
not memory-indirect. It succeeds only if such a return can be reached along that control flow
extended by the step from any instruction to the address right after it, which the traversal
takes whenever it meets an instruction it has already visited. -/
theorem C12_function_length_reachability (doc : Document) (start : Address) (fuel : Nat)
    (hmapped : (doc.GetMemoryArea start).isSome = true)
    (himp : (doc.GetLabelFromAddress start).GetType &&& Label.Imported = 0)
    (hlen : doc.codeHasLength = true)
    (hfuel : ComputeFunctionLength.budget doc ≤ fuel) :
    ∃ res len cnt, ComputeFunctionLength fuel doc start 0 = some (res, len, cnt) ∧
      (RetReachable (flowStep doc) doc start → res = true) ∧
      (res = true →
        RetReachable (fun a b => flowStep doc a b || layoutStep doc a b) doc start) := by
  obtain ⟨m, hm⟩ := Option.isSome_iff_exists.1 hmapped
  have hU : unvisitedCode doc [] ≤ doc.cells.length := List.countP_le_length _
  have h1 := Nat.mul_le_mul_right (doc.endOffset + 2) hU
  have h2 : unvisitedCode doc [] * (doc.endOffset + 2) =
      unvisitedCode doc [] * (doc.endOffset + 1) + unvisitedCode doc [] := by ring
  have h3 : (doc.cells.length + 1) * (doc.endOffset + 2) =
      doc.cells.length * (doc.endOffset + 2) + (doc.endOffset + 2) := by ring
  have hb : ComputeFunctionLength.budget doc =
      (doc.cells.length + 1) * (doc.endOffset + 2) + 1 := rfl
  obtain ⟨st2, hout, hinv⟩ := ComputeFunctionLength.outer_complete doc start hlen fuel
    { CallStack := [start], VisitedInstruction := [], RetReached := false,
      FuncLen := 0, EndAddr := start, rFunctionLength := 0, rInstructionCounter := 0 }
    (by simp only [List.length_singleton]; omega)
    ⟨fun v hv => (by cases hv), fun v hv => (by cases hv),
      Or.inr (Or.inl (List.mem_singleton.2 rfl))⟩
  have hcfl : ComputeFunctionLength fuel doc start 0 =
      some (st2.RetReached, st2.rFunctionLength, st2.rInstructionCounter) := by
    unfold ComputeFunctionLength
    rw [if_neg (fun h => h himp), hm]
    dsimp only
    rw [hout]
  refine ⟨_, _, _, hcfl, ?_, ?_⟩
  · rintro ⟨r, hr, hret⟩
    rcases LengthInvariant.visited_of_reachable doc start st2 hinv r hr with h | h
    · simp [Document.retAt, h] at hret
    · exact hinv.ret r h hret
  · intro hres
    rw [hres] at hout
    exact ComputeFunctionLength.outer_sound doc start 0 fuel _ st2 hout
      ⟨fun a ha => (by rw [List.mem_singleton.1 ha]), fun h => (by cases h)⟩

/-- C12, at concrete inputs: in the Document with `nop` at `0:1000` and `ret` at `0:1001` the
return is reached from `0:1000` by one fall-through, and `ComputeFunctionLength` succeeds. -/
theorem C12_function_length_reachability_witness :
    (nopRetDoc.GetMemoryArea ⟨0, 1000⟩).isSome = true ∧
    (nopRetDoc.GetLabelFromAddress ⟨0, 1000⟩).GetType &&& Label.Imported = 0 ∧
    nopRetDoc.codeHasLength = true ∧
    flowStep nopRetDoc ⟨0, 1000⟩ ⟨0, 1001⟩ = true ∧ nopRetDoc.retAt ⟨0, 1001⟩ = true ∧
    ∃ len cnt, ComputeFunctionLength (ComputeFunctionLength.budget nopRetDoc) nopRetDoc
      ⟨0, 1000⟩ 0 = some (true, len, cnt) := by
  have hstep : flowStep nopRetDoc ⟨0, 1000⟩ ⟨0, 1001⟩ = true := by decide
  have hret : nopRetDoc.retAt ⟨0, 1001⟩ = true := by decide
  obtain ⟨res, len, cnt, h, h1, -⟩ := C12_function_length_reachability nopRetDoc ⟨0, 1000⟩
    (ComputeFunctionLength.budget nopRetDoc) (by decide) (by decide) (by decide) (le_refl _)
  have hres := h1 ⟨⟨0, 1001⟩, Relation.ReflTransGen.single hstep, hret⟩
  subst hres
  exact ⟨by decide, by decide, by decide, hstep, hret, len, cnt, h⟩

/-- C12, counterexample to the claim as written: with `nop` at `0:1000`, `jmp 0:1000` at
`0:1001` and a `ret` laid out after them at `0:1003`, control flow from `0:1000` only ever
reaches `0:1000` and `0:1001`, so no return is reachable; `ComputeFunctionLength` with
threshold 0 succeeds all the same, counting the three instructions. -/
theorem C12_counterexample :
    (loopRetDoc.GetMemoryArea ⟨0, 1000⟩).isSome = true ∧
    (loopRetDoc.GetLabelFromAddress ⟨0, 1000⟩).GetType &&& Label.Imported = 0 ∧
    ComputeFunctionLength 10 loopRetDoc ⟨0, 1000⟩ 0 = some (true, 4, 3) ∧
    ¬ RetReachable (flowStep loopRetDoc) loopRetDoc ⟨0, 1000⟩ := by
  refine ⟨by decide, by decide, by decide, ?_⟩
  have key : ∀ b, Relation.ReflTransGen (fun a b => flowStep loopRetDoc a b = true)
      ⟨0, 1000⟩ b → b = ⟨0, 1000⟩ ∨ b = ⟨0, 1001⟩ := by
    intro b hb
    induction hb with
    | refl => exact Or.inl rfl
    | tail hab hbc ih =>
      rename_i m c
      rcases ih with rfl | rfl
      · rcases flowStep_cases loopRetDoc ⟨0, 1000⟩ c toyNop rfl hbc with h | h | h
        · exact absurd (by decide) h.1
        · exact absurd (by decide) h.1
        · exact Or.inr h.2.2
      · rcases flowStep_cases loopRetDoc ⟨0, 1001⟩ c (toyJmpBack 1000) rfl hbc with h | h | h
        · exact absurd (by decide) h.2.1
        · have h2 : some (⟨0, 1000⟩ : Address) = some c := h.2.2
          exact Or.inl (Option.some.inj h2).symm
        · have h2 : (toyJmpBack 1000).opType &&& OpJump ≠ 0 := by decide
          exact absurd h.1 h2
  rintro ⟨r, hr, hret⟩
  rcases key r hr with rfl | rfl
  · exact absurd hret (by decide)
  · exact absurd hret (by decide)

/-- The layout step makes the bound of C12 an upper bound only: with `jmp 0:1003` at `0:1000`,
`ret` at `0:1002` and `nop` at `0:1003`, the return is one layout step away from the start,
yet `ComputeFunctionLength` follows the jump, falls off the code and fails. -/
theorem ComputeFunctionLength.layout_bound_not_exact :
    ComputeFunctionLength 10 skippedRetDoc ⟨0, 1000⟩ 0 = some (false, 3, 2) ∧
    RetReachable (fun a b => flowStep skippedRetDoc a b || layoutStep skippedRetDoc a b)
      skippedRetDoc ⟨0, 1000⟩ :=
  ⟨by decide, ⟨0, 1002⟩, Relation.ReflTransGen.single (by decide), by decide⟩

/-! ## Theorems: data labels and the string recognizer -/

theorem CreateXRefs.operand_kinds (an : Analyzer) (pInsn : Instruction) (rAddr : Address)
    (d : Document) (CurOp : Nat) (p : Address × Label)
    (h : p ∈ (CreateXRefs.operand an pInsn rAddr d CurOp).labels) :
    p ∈ d.labels ∨
      (p.2.name = an.m_LabelPrefix ++ suffixName p.1 ∧ p.2.type = Label.Code ||| Label.Local) ∨
      (p.2.name = an.m_DataPrefix ++ suffixName p.1 ∧ p.2.type = Label.Data ||| Label.Global) := by
  simp only [CreateXRefs.operand] at h
  have hcvs := fun a n => (ChangeValueSize_labels d a n).1
  repeat' split at h
  all_goals first
    | exact Or.inl h
    | exact Or.inl (by simpa only [Document.AddXRef, hcvs] using h)
    | (rcases mem_AddLabel _ _ _ _ _ h with h | h
       · exact Or.inl (by simpa only [Document.AddXRef, hcvs] using h)
       · subst h
         first
           | exact Or.inr (Or.inl ⟨rfl, rfl⟩)
           | exact Or.inr (Or.inr ⟨rfl, rfl⟩))

theorem FindStrings.label_skips (an : Analyzer) (WinStr AsciiStr : CharacterStrategy)
    (d : Document) (p : Address × Label) (h : p.2.GetType ≠ Label.Data) :
    FindStrings.label an WinStr AsciiStr d p = d := by
  unfold FindStrings.label
  rw [if_pos h]

theorem FindStrings.foldl_skips (an : Analyzer) (WinStr AsciiStr : CharacterStrategy) :
    ∀ (l : List (Address × Label)) (d : Document), (∀ p ∈ l, p.2.GetType ≠ Label.Data) →
      l.foldl (FindStrings.label an WinStr AsciiStr) d = d := by
  intro l
  induction l with
  | nil => intro d _; rfl
  | cons p rest ih =>
    intro d h
    rw [List.foldl_cons, FindStrings.label_skips an WinStr AsciiStr d p
      (h p (List.mem_cons_self _ _))]
    exact ih d (fun q hq => h q (List.mem_cons_of_mem _ hq))

/-- C25, corrected. A label that `CreateXRefs` adds is of kind `Code|Local` (named by the
label prefix) or of kind `Data|Global` (named by the data prefix), never of kind exactly
`Data`; `FindStrings` passes over every label whose kind is not exactly `Data`, leaving the
Document as it is; so on a Document whose own labels are not of kind exactly `Data`, a
`FindStrings` after `CreateXRefs` changes nothing: the labels `CreateXRefs` synthesized are
not probed. -/
theorem C25_data_labels_not_probed (an : Analyzer) (WinStr AsciiStr : CharacterStrategy)
    (rArch : Architecture) (doc : Document) (rAddr : Address)
    (hdoc : ∀ p ∈ doc.labels, p.2.GetType ≠ Label.Data) :
    (∀ p ∈ (CreateXRefs an doc rAddr).labels, p ∈ doc.labels ∨
      (p.2.name = an.m_LabelPrefix ++ suffixName p.1 ∧ p.2.type = Label.Code ||| Label.Local) ∨
      (p.2.name = an.m_DataPrefix ++ suffixName p.1 ∧
        p.2.type = Label.Data ||| Label.Global)) ∧
    (∀ (d : Document) (p : Address × Label), p ∈ (CreateXRefs an doc rAddr).labels →
      FindStrings.label an WinStr AsciiStr d p = d) ∧
    FindStrings an WinStr AsciiStr (CreateXRefs an doc rAddr) rArch =
      CreateXRefs an doc rAddr := by
  have hkinds : ∀ p ∈ (CreateXRefs an doc rAddr).labels, p ∈ doc.labels ∨
      (p.2.name = an.m_LabelPrefix ++ suffixName p.1 ∧ p.2.type = Label.Code ||| Label.Local) ∨
      (p.2.name = an.m_DataPrefix ++ suffixName p.1 ∧
        p.2.type = Label.Data ||| Label.Global) := by
    intro p hp
    unfold CreateXRefs at hp
    split at hp
    · exact foldl_names
        (fun p => (p.2.name = an.m_LabelPrefix ++ suffixName p.1 ∧
            p.2.type = Label.Code ||| Label.Local) ∨
          (p.2.name = an.m_DataPrefix ++ suffixName p.1 ∧
            p.2.type = Label.Data ||| Label.Global))
        _ (fun d x p h => CreateXRefs.operand_kinds an _ rAddr d x p h) _ doc p hp
    · exact Or.inl hp
  have hskip : ∀ p ∈ (CreateXRefs an doc rAddr).labels, p.2.GetType ≠ Label.Data := by
    intro p hp
    rcases hkinds p hp with h | h | h
    · exact hdoc p h
    · intro hc
      have h2 : p.2.type = Label.Data := hc
      rw [h.2] at h2
      exact absurd h2 (by decide)
    · intro hc
      have h2 : p.2.type = Label.Data := hc
      rw [h.2] at h2
      exact absurd h2 (by decide)
  exact ⟨hkinds, fun d p hp => FindStrings.label_skips an WinStr AsciiStr d p (hskip p hp),
    FindStrings.foldl_skips an WinStr AsciiStr _ _ hskip⟩

/-- C25, at concrete inputs: `mov` at `0:1000` refers to `0:5000` in an area that is not
executable; `CreateXRefs` adds there the label `dat_0_5000` of kind `Data|Global`, and
`FindStrings` afterwards leaves the Document as it is. -/
theorem C25_data_labels_not_probed_witness :
    dataRefDoc.labels = [] ∧
    (CreateXRefs Analyzer.initial dataRefDoc ⟨0, 1000⟩).labels =
      [(⟨0, 5000⟩, ⟨"dat_0_5000".toList, Label.Data ||| Label.Global⟩)] ∧
    FindStrings Analyzer.initial toyStrategy toyStrategy
      (CreateXRefs Analyzer.initial dataRefDoc ⟨0, 1000⟩) toyArch =
      CreateXRefs Analyzer.initial dataRefDoc ⟨0, 1000⟩ :=
  ⟨rfl, rfl,
    (C25_data_labels_not_probed Analyzer.initial toyStrategy toyStrategy toyArch dataRefDoc
      ⟨0, 1000⟩ (fun p hp => by cases hp)).2.2⟩

/-- C25, counterexample to the claim as written: the datum at `0:5000` is the UTF-16 text
"Hi" with its terminator and `CreateXRefs` has labelled it `dat_0_5000` for the reference of
the `mov` at `0:1000` into the area, which is not executable. `FindStrings` afterwards still
finds the raw byte at `0:5000`, not a `String` cell; with the kind of that label set to exactly
`Data` the same call does insert the `String` cell "Hi". -/
theorem C25_counterexample :
    dataRefAnalyzed.labels =
      [(⟨0, 5000⟩, ⟨"dat_0_5000".toList, Label.Data ||| Label.Global⟩)] ∧
    (FindStrings Analyzer.initial toyStrategy toyStrategy dataRefAnalyzed toyArch).RetrieveCell
      ⟨0, 5000⟩ = some (Cell.value 1) ∧
    (FindStrings Analyzer.initial toyStrategy toyStrategy
      (dataRefAnalyzed.SetLabelToAddress ⟨0, 5000⟩ ⟨"dat_0_5000".toList, Label.Data⟩)
      toyArch).RetrieveCell ⟨0, 5000⟩ = some (Cell.string String.Utf16Type "Hi".toList 3) :=
  ⟨rfl, rfl, rfl⟩

/-! ## Theorems: counting in the function delimiter -/

theorem visitedBytes_cons (doc : Document) (a : Address) (V : List Address) :
    visitedBytes doc (a :: V) = doc.lengthAt a + visitedBytes doc V := by
  simp [visitedBytes]

/-- Visiting a new instruction keeps the counters of `ComputeFunctionLength` in step with the
list of visited addresses. -/
theorem CountInvariant.after_count (doc : Document) (st : LengthState) (CurAddr : Address)
    (rInsn : Instruction) (hri : doc.RetrieveInstruction CurAddr = some rInsn)
    (hvis : ¬ st.VisitedInstruction.contains CurAddr = true) (hinv : CountInvariant doc st)
    (st1 : LengthState)
    (hV : st1.VisitedInstruction = CurAddr :: st.VisitedInstruction)
    (hF : st1.FuncLen = (st.FuncLen + rInsn.length % 2 ^ 32) % 2 ^ 32)
    (hL : st1.rFunctionLength = (st.rFunctionLength + rInsn.length % 2 ^ 32) % 2 ^ 16)
    (hC : st1.rInstructionCounter = (st.rInstructionCounter + 1) % 2 ^ 16) :
    CountInvariant doc st1 := by
  have hnot : CurAddr ∉ st.VisitedInstruction := fun h =>
    hvis ((contains_eq_true_iff _ _).2 h)
  have hlen : doc.lengthAt CurAddr = rInsn.length := by simp [Document.lengthAt, hri]
  refine ⟨?_, ?_, ?_, ?_, ?_⟩
  · rw [hV]
    exact List.nodup_cons.2 ⟨hnot, hinv.nodup⟩
  · intro a ha
    rw [hV] at ha
    rcases List.mem_cons.1 ha with ha | ha
    · rw [ha, hri]; rfl
    · exact hinv.code a ha
  · rw [hC, hV, hinv.count, List.length_cons]
    omega
  · rw [hL, hV, hinv.bytes, visitedBytes_cons, hlen]
    omega
  · rw [hF, hV, hinv.funcLen, visitedBytes_cons, hlen]
    omega

theorem ComputeFunctionLength.inner_counts (doc : Document) (T : Nat) :
    ∀ (fuel : Nat) (CurAddr : Address) (st : LengthState) (flag : Bool) (st2 : LengthState),
      ComputeFunctionLength.inner doc T fuel CurAddr st = some (flag, st2) →
      CountInvariant doc st → CountInvariant doc st2 := by
  intro fuel
  induction fuel with
  | zero => intro _ _ _ _ h; cases h
  | succ fuel ih =>
    intro CurAddr st flag st2 h hinv
    unfold ComputeFunctionLength.inner at h
    cases hri : doc.RetrieveInstruction CurAddr with
    | none =>
      rw [hri] at h
      cases h
      exact hinv
    | some rInsn =>
      rw [hri] at h
      dsimp only at h
      by_cases hvis : st.VisitedInstruction.contains CurAddr = true
      · rw [if_pos hvis] at h
        exact ih _ _ _ _ h hinv
      · rw [if_neg hvis] at h
        have hinv1 := CountInvariant.after_count doc st CurAddr rInsn hri hvis hinv
        by_cases hj : rInsn.opType &&& OpJump ≠ 0
        · rw [if_pos hj] at h
          have hinv2 : CountInvariant doc (if rInsn.opType &&& OpCond ≠ 0 then
                ({ CallStack := (CurAddr + rInsn.length) :: st.CallStack,
                   VisitedInstruction := CurAddr :: st.VisitedInstruction,
                   RetReached := st.RetReached,
                   FuncLen := (st.FuncLen + rInsn.length % 2 ^ 32) % 2 ^ 32,
                   EndAddr := st.EndAddr,
                   rFunctionLength := (st.rFunctionLength + rInsn.length % 2 ^ 32) % 2 ^ 16,
                   rInstructionCounter := (st.rInstructionCounter + 1) % 2 ^ 16 } :
                  LengthState)
                else
                { CallStack := st.CallStack,
                   VisitedInstruction := CurAddr :: st.VisitedInstruction,
                   RetReached := st.RetReached,
                   FuncLen := (st.FuncLen + rInsn.length % 2 ^ 32) % 2 ^ 32,
                   EndAddr := st.EndAddr,
                   rFunctionLength := (st.rFunctionLength + rInsn.length % 2 ^ 32) % 2 ^ 16,
                   rInstructionCounter := (st.rInstructionCounter + 1) % 2 ^ 16 }) := by
            split
            · exact hinv1 _ rfl rfl rfl rfl
            · exact hinv1 _ rfl rfl rfl rfl
          by_cases hm : (rInsn.Operand 0).type &&& O_MEM ≠ 0
          · rw [if_pos hm] at h
            cases h
            exact hinv2
          · rw [if_neg hm] at h
            cases href : rInsn.GetOperandReference 0 CurAddr with
            | none =>
              rw [href] at h
              cases h
              exact hinv2
            | some DstAddr =>
              rw [href] at h
              exact ih _ _ _ _ h hinv2
        · rw [if_neg hj] at h
          by_cases hr : rInsn.opType &&& OpRet ≠ 0 ∧ ¬ (rInsn.opType &&& OpCond ≠ 0)
          · rw [if_pos hr] at h
            cases h
            exact hinv1 _ rfl rfl rfl rfl
          · rw [if_neg hr] at h
            split at h
            · cases h
              exact hinv1 _ rfl rfl rfl rfl
            · exact ih _ _ _ _ h (hinv1 _ rfl rfl rfl rfl)

theorem ComputeFunctionLength.outer_counts (doc : Document) (T : Nat) :
    ∀ (fuel : Nat) (st : LengthState) (res : Bool) (st2 : LengthState),
      ComputeFunctionLength.outer doc T fuel st = some (res, st2) →
      CountInvariant doc st → CountInvariant doc st2 := by
  intro fuel
  induction fuel with
  | zero => intro _ _ _ h; cases h
  | succ fuel ih =>
    intro st res st2 h hinv
    unfold ComputeFunctionLength.outer at h
    cases hs : st.CallStack with
    | nil =>
      rw [hs] at h
      cases h
      exact hinv
    | cons CurAddr rest =>
      rw [hs] at h
      dsimp only at h
      cases hin : ComputeFunctionLength.inner doc T fuel CurAddr { st with CallStack := rest }
        with
      | none => rw [hin] at h; cases h
      | some r =>
        obtain ⟨flag, st3⟩ := r
        rw [hin] at h
        have hinv3 := ComputeFunctionLength.inner_counts doc T fuel CurAddr _ flag st3 hin
          ⟨hinv.nodup, hinv.code, hinv.count, hinv.bytes, hinv.funcLen⟩
        cases flag with
        | true =>
          cases h
          exact hinv3
        | false => exact ih st3 res st2 h hinv3

/-- Counting in `ComputeFunctionLength`, for every threshold and a mapped start address that
is not Imported: whenever the loops return, the addresses they visited are distinct code
addresses, the instruction count delivered is their number and the byte length delivered is
the sum of the lengths of their instructions, both modulo `2^16`. -/
theorem ComputeFunctionLength.counts (fuel : Nat) (doc : Document) (rAddr : Address) (T : Nat)
    (res : Bool) (st : LengthState)
    (hmapped : (doc.GetMemoryArea rAddr).isSome = true)
    (himp : (doc.GetLabelFromAddress rAddr).GetType &&& Label.Imported = 0)
    (h : ComputeFunctionLength.outer doc T fuel (LengthState.initial rAddr) = some (res, st)) :
    ComputeFunctionLength fuel doc rAddr T =
        some (res, st.rFunctionLength, st.rInstructionCounter) ∧
      st.VisitedInstruction.Nodup ∧
      (∀ a ∈ st.VisitedInstruction, (doc.RetrieveInstruction a).isSome = true) ∧
      st.rInstructionCounter = st.VisitedInstruction.length % 2 ^ 16 ∧
      st.rFunctionLength = visitedBytes doc st.VisitedInstruction % 2 ^ 16 := by
  have hinv := ComputeFunctionLength.outer_counts doc T fuel _ res st h
    ⟨List.nodup_nil, fun a ha => (by cases ha), rfl, rfl, rfl⟩
  refine ⟨?_, hinv.nodup, hinv.code, hinv.count, hinv.bytes⟩
  obtain ⟨m, hm⟩ := Option.isSome_iff_exists.1 hmapped
  have h2 : ComputeFunctionLength.outer doc T fuel
      { CallStack := [rAddr], VisitedInstruction := [], RetReached := false,
        FuncLen := 0, EndAddr := rAddr, rFunctionLength := 0,
        rInstructionCounter := 0 } = some (res, st) := h
  unfold ComputeFunctionLength
  rw [if_neg (fun hc => hc himp), hm]
  dsimp only
  rw [h2]

theorem find_key (l : List (Address × Cell)) (a : Address) (c : Cell) (hmem : (a, c) ∈ l)
    (huniq : ∀ p ∈ l, p.1 = a → p = (a, c)) :
    l.find? (fun p => decide (p.1 = a)) = some (a, c) := by
  cases h : l.find? (fun p => decide (p.1 = a)) with
  | none =>
    have := List.find?_eq_none.1 h (a, c) hmem
    simp at this
  | some p =>
    have h1 := List.find?_some h
    have h2 := List.mem_of_find?_eq_some h
    rw [huniq p h2 (by simpa using h1)]

theorem RetrieveInstruction_of_stored (doc : Document) (a : Address) (insn : Instruction)
    (hpres : doc.IsPresent a = true) (hmem : (a, Cell.instruction insn) ∈ doc.cells)
    (huniq : ∀ p ∈ doc.cells, p.1 = a → p = (a, Cell.instruction insn)) :
    doc.RetrieveInstruction a = some insn := by
  simp [Document.RetrieveInstruction, Document.RetrieveCell, hpres,
    find_key doc.cells a _ hmem huniq]

theorem jumpChainDoc_cells (n : Nat) (p : Address × Cell) :
    p ∈ (jumpChainDoc n).cells ↔
      (∃ i, i < n ∧ p = (⟨0, 1000 + 2 * i⟩, Cell.instruction (toyJmp 0))) ∨
      p = (⟨0, 1000 + 2 * n⟩, Cell.instruction toyRet) := by
  simp only [jumpChainDoc, codeDocument, List.map_append, List.map_map, List.mem_append,
    List.mem_map, List.mem_range, List.map_cons, List.map_nil, List.mem_singleton,
    Function.comp]
  constructor
  · rintro (⟨i, hi, rfl⟩ | rfl)
    · exact Or.inl ⟨i, hi, rfl⟩
    · exact Or.inr rfl
  · rintro (⟨i, hi, rfl⟩ | rfl)
    · exact Or.inl ⟨i, hi, rfl⟩
    · exact Or.inr rfl

theorem jumpChainDoc_present (n k : Nat) (hk : k ≤ 2 * n) :
    (jumpChainDoc n).IsPresent ⟨0, 1000 + k⟩ = true := by
  simp [jumpChainDoc, codeDocument, rawDocument, Document.IsPresent, MemoryArea.IsPresent]
  omega

theorem jumpChainDoc_jmp (n i : Nat) (hi : i < n) :
    (jumpChainDoc n).RetrieveInstruction ⟨0, 1000 + 2 * i⟩ = some (toyJmp 0) := by
  apply RetrieveInstruction_of_stored _ _ _ (jumpChainDoc_present n (2 * i) (by omega))
  · exact (jumpChainDoc_cells n _).2 (Or.inl ⟨i, hi, rfl⟩)
  · intro p hp hk
    rcases (jumpChainDoc_cells n p).1 hp with ⟨j, hj, rfl⟩ | rfl
    · simp only [Address.mk.injEq, true_and] at hk
      have : j = i := by omega
      subst this
      rfl
    · simp only [Address.mk.injEq, true_and] at hk
      omega

theorem jumpChainDoc_ret (n : Nat) :
    (jumpChainDoc n).RetrieveInstruction ⟨0, 1000 + 2 * n⟩ = some toyRet := by
  apply RetrieveInstruction_of_stored _ _ _ (jumpChainDoc_present n (2 * n) (by omega))
  · exact (jumpChainDoc_cells n _).2 (Or.inr rfl)
  · intro p hp hk
    rcases (jumpChainDoc_cells n p).1 hp with ⟨j, hj, rfl⟩ | rfl
    · simp only [Address.mk.injEq, true_and] at hk
      omega
    · rfl

/-- On the chain of jumps the inner loop of `ComputeFunctionLength` follows every jump to the
final `ret` and counts them all, whatever the threshold: no jump and no return reaches the
threshold test. -/
theorem jumpChainDoc_inner (n T : Nat) :
    ∀ (m i fuel : Nat) (st : LengthState), i + m = n → m + 1 ≤ fuel →
      (∀ j, i ≤ j → j ≤ n → (⟨0, 1000 + 2 * j⟩ : Address) ∉ st.VisitedInstruction) →
      ∃ st2, ComputeFunctionLength.inner (jumpChainDoc n) T fuel ⟨0, 1000 + 2 * i⟩ st =
          some (false, st2) ∧
        st2.RetReached = true ∧ st2.CallStack = st.CallStack ∧
        visitedBytes (jumpChainDoc n) st2.VisitedInstruction =
          visitedBytes (jumpChainDoc n) st.VisitedInstruction + (2 * m + 1) ∧
        st2.VisitedInstruction.length = st.VisitedInstruction.length + (m + 1) := by
  intro m
  induction m with
  | zero =>
    intro i fuel st him hfuel hV
    obtain ⟨fuel, rfl⟩ : ∃ f, fuel = f + 1 := ⟨fuel - 1, by omega⟩
    have hin : i = n := by omega
    subst hin
    have hri := jumpChainDoc_ret i
    have hvis : ¬ st.VisitedInstruction.contains (⟨0, 1000 + 2 * i⟩ : Address) = true :=
      fun h => hV i (le_refl _) (le_refl _) ((contains_eq_true_iff _ _).1 h)
    have hj : ¬ (toyRet.opType &&& OpJump ≠ 0) := by decide
    have hr : toyRet.opType &&& OpRet ≠ 0 ∧ ¬ (toyRet.opType &&& OpCond ≠ 0) := by decide
    unfold ComputeFunctionLength.inner
    rw [hri]
    dsimp only
    rw [if_neg hvis, if_neg hj, if_pos hr]
    refine ⟨_, rfl, rfl, rfl, ?_, ?_⟩
    · dsimp only
      rw [visitedBytes_cons]
      simp only [Document.lengthAt, hri]
      have : toyRet.length = 1 := rfl
      omega
    · simp
  | succ m ih =>
    intro i fuel st him hfuel hV
    obtain ⟨fuel, rfl⟩ : ∃ f, fuel = f + 1 := ⟨fuel - 1, by omega⟩
    have hri := jumpChainDoc_jmp n i (by omega)
    have hvis : ¬ st.VisitedInstruction.contains (⟨0, 1000 + 2 * i⟩ : Address) = true :=
      fun h => hV i (le_refl _) (by omega) ((contains_eq_true_iff _ _).1 h)
    have hj : (toyJmp 0).opType &&& OpJump ≠ 0 := by decide
    have hc : ¬ ((toyJmp 0).opType &&& OpCond ≠ 0) := by decide
    have hm : ¬ (((toyJmp 0).Operand 0).type &&& O_MEM ≠ 0) := by decide
    have href : (toyJmp 0).GetOperandReference 0 ⟨0, 1000 + 2 * i⟩ =
        some ⟨0, 1000 + 2 * (i + 1)⟩ := by
      show some ((⟨0, 1000 + 2 * i⟩ : Address) + (2 + 0)) = _
      congr 1
    unfold ComputeFunctionLength.inner
    rw [hri]
    dsimp only
    rw [if_neg hvis, if_pos hj, if_neg hc, if_neg hm, href]
    dsimp only
    obtain ⟨st2, h1, h2, h3, h4, h5⟩ := ih (i + 1) fuel
      { st with
        FuncLen := (st.FuncLen + (toyJmp 0).length % 2 ^ 32) % 2 ^ 32
        VisitedInstruction := ⟨0, 1000 + 2 * i⟩ :: st.VisitedInstruction
        rFunctionLength := (st.rFunctionLength + (toyJmp 0).length % 2 ^ 32) % 2 ^ 16
        rInstructionCounter := (st.rInstructionCounter + 1) % 2 ^ 16 }
      (by omega) (by omega)
      (by
        intro j hj1 hj2 hmem
        rcases List.mem_cons.1 hmem with h | h
        · simp only [Address.mk.injEq, true_and] at h
          omega
        · exact hV j (by omega) hj2 h)
    refine ⟨st2, h1, h2, h3, ?_, ?_⟩
    · rw [h4]
      dsimp only
      rw [visitedBytes_cons]
      simp only [Document.lengthAt, hri]
      have : (toyJmp 0).length = 2 := rfl
      omega
    · rw [h5]
      simp only [List.length_cons]
      omega

/-- On the chain of jumps `ComputeFunctionLength` succeeds for every threshold, having visited
the `n` jumps and the `ret`. -/
theorem jumpChainDoc_outer (n T fuel : Nat) (hfuel : n + 3 ≤ fuel) :
    ∃ st, ComputeFunctionLength.outer (jumpChainDoc n) T fuel
        (LengthState.initial ⟨0, 1000⟩) = some (true, st) ∧
      st.VisitedInstruction.length = n + 1 ∧
      visitedBytes (jumpChainDoc n) st.VisitedInstruction = 2 * n + 1 := by
  obtain ⟨fuel, rfl⟩ : ∃ f, fuel = f + 1 + 1 := ⟨fuel - 2, by omega⟩
  obtain ⟨st, h1, h2, h3, h4, h5⟩ := jumpChainDoc_inner n T n 0 (fuel + 1)
    { LengthState.initial ⟨0, 1000⟩ with CallStack := [] } (by omega) (by omega)
    (fun j _ _ h => by cases h)
  have h3b : st.CallStack = [] := h3
  refine ⟨st, ?_, ?_, ?_⟩
  · rw [ComputeFunctionLength.outer]
    simp only [LengthState.initial] at h1 ⊢
    rw [h1]
    dsimp only
    rw [ComputeFunctionLength.outer, h3b]
    dsimp only
    rw [h2]
  · rw [h5]
    simp [LengthState.initial]
  · rw [h4]
    simp [LengthState.initial, visitedBytes]

theorem jumpChainDoc_start (n : Nat) :
    ((jumpChainDoc n).GetMemoryArea ⟨0, 1000⟩).isSome = true ∧
    ((jumpChainDoc n).GetLabelFromAddress ⟨0, 1000⟩).GetType &&& Label.Imported = 0 := by
  constructor
  · simp [jumpChainDoc, codeDocument, rawDocument, Document.GetMemoryArea,
      MemoryArea.IsPresent]
  · simp [jumpChainDoc, codeDocument, rawDocument, Document.GetLabelFromAddress,
      Label.GetType, Label.Unknown]

/-- C24, the code at a failing input. A function of 32768 two-byte unconditional jumps, each
to the next instruction, and a final `ret`: `ComputeFunctionLength` with the threshold
`0x1000` of `CreateFunction` visits the 32769 instructions, whose lengths sum to 65537, and
returns success; the byte length delivered is 1. The threshold test is passed over by jumps
and returns. -/
theorem C24_sum_overflow_failing_input :
    ∃ st, ComputeFunctionLength.outer (jumpChainDoc 32768) 0x1000 32771
        (LengthState.initial ⟨0, 1000⟩) = some (true, st) ∧
      st.VisitedInstruction.length = 32769 ∧
      visitedBytes (jumpChainDoc 32768) st.VisitedInstruction = 65537 ∧
      ComputeFunctionLength 32771 (jumpChainDoc 32768) ⟨0, 1000⟩ 0x1000 =
        some (true, 1, 32769) := by
  obtain ⟨st, hout, hlen, hbytes⟩ := jumpChainDoc_outer 32768 0x1000 32771 (by omega)
  obtain ⟨hc1, -, -, hc4, hc5⟩ := ComputeFunctionLength.counts 32771 (jumpChainDoc 32768)
    ⟨0, 1000⟩ 0x1000 true st (jumpChainDoc_start 32768).1 (jumpChainDoc_start 32768).2 hout
  have hlen2 : st.VisitedInstruction.length = 32769 := by omega
  have hbytes2 : visitedBytes (jumpChainDoc 32768) st.VisitedInstruction = 65537 := by omega
  have e1 : st.rInstructionCounter = 32769 := by rw [hc4, hlen2]; norm_num
  have e2 : st.rFunctionLength = 1 := by rw [hc5, hbytes2]; norm_num
  exact ⟨st, hout, hlen2, hbytes2, by rw [hc1, e1, e2]⟩

/-! ## Theorems: the two traversals compared -/

theorem flatten_map_flatten {α : Type} (f : List α → List (List α))
    (hf : ∀ v, (f v).flatten = v) (L : List (List α)) :
    ((L.map f).flatten).flatten = L.flatten := by
  induction L with
  | nil => rfl
  | cons v rest ih =>
    simp only [List.map_cons, List.flatten_cons, List.flatten_append, hf, ih]

theorem splitBefore_flatten (dst : Address) (v : List Address) :
    (splitBefore dst v).flatten = v := by
  unfold splitBefore
  have hspan := List.span_eq_take_drop (fun a => !decide (a = dst)) v
  have happ := List.takeWhile_append_dropWhile (fun a => !decide (a = dst)) v
  split
  · simp
  · simp
  · rename_i heq
    rw [hspan] at heq
    simp only [Prod.mk.injEq] at heq
    rw [heq.1, heq.2] at happ
    simpa using happ

theorem splitAfter_flatten (src : Address) (v : List Address) :
    (splitAfter src v).flatten = v := by
  unfold splitAfter
  have hspan := List.span_eq_take_drop (fun a => !decide (a = src)) v
  have happ := List.takeWhile_append_dropWhile (fun a => !decide (a = src)) v
  split
  · simp
  · simp
  · rename_i heq
    rw [hspan] at heq
    simp only [Prod.mk.injEq] at heq
    rw [heq.1, heq.2] at happ
    simpa using happ

theorem SplitBasicBlock_flatten (g : ControlFlowGraph) (dst src : Address) (t : EdgeType) :
    (g.SplitBasicBlock dst src t).vertices.flatten = g.vertices.flatten := by
  unfold ControlFlowGraph.SplitBasicBlock
  dsimp only
  rw [flatten_map_flatten _ (splitAfter_flatten src),
    flatten_map_flatten _ (splitBefore_flatten dst)]

theorem foldl_split_flatten (E : List (Address × Address × EdgeType)) :
    ∀ g : ControlFlowGraph,
      (E.foldl (fun g e => g.SplitBasicBlock e.1 e.2.1 e.2.2) g).vertices.flatten =
        g.vertices.flatten := by
  induction E with
  | nil => intro g; rfl
  | cons e rest ih =>
    intro g
    rw [List.foldl_cons, ih, SplitBasicBlock_flatten]

theorem foldl_add_vertices (E : List (Address × Address × EdgeType)) :
    ∀ g : ControlFlowGraph,
      (E.foldl (fun g e => g.AddBasicBlockEdge e.2.2 e.2.1 e.1) g).vertices = g.vertices := by
  induction E with
  | nil => intro g; rfl
  | cons e rest ih =>
    intro g
    rw [List.foldl_cons, ih]
    rfl

/-- The vertices of the graph `BuildControlFlowGraph` builds from an empty graph hold, taken
together and in order, the addresses the traversal collected, and the flag returned is
`RetReached`. -/
theorem BuildControlFlowGraph_of_outer (fuel : Nat) (doc : Document) (rAddr : Address)
    (st : CfgState) (hmapped : (doc.GetMemoryArea rAddr).isSome = true)
    (h : BuildControlFlowGraph.outer doc fuel (CfgState.initial rAddr) = some st) :
    ∃ cfg, BuildControlFlowGraph fuel doc rAddr ⟨[], []⟩ = some (st.RetReached, cfg) ∧
      cfg.vertices.flatten = st.Addresses := by
  obtain ⟨m, hm⟩ := Option.isSome_iff_exists.1 hmapped
  have h2 : BuildControlFlowGraph.outer doc fuel
      { CallStack := [rAddr], Addresses := [], Edges := [], VisitedInstruction := [],
        RetReached := false } = some st := h
  unfold BuildControlFlowGraph
  rw [hm]
  dsimp only
  rw [h2]
  refine ⟨_, rfl, ?_⟩
  unfold ControlFlowGraph.Finalize
  rw [foldl_add_vertices, foldl_split_flatten]
  simp [ControlFlowGraph.AddBasicBlockVertex]

/-! ## Theorems: forward operand tracker -/

/-- What the traversal loop of `TrackOperand` does to the record of visits: the record grows
at its end, it stays the reverse of `TrackedAddresses` and free of repetitions, nothing is
visited when the worklist is empty, and the first visit of a traversal that starts with the
start address in front and nothing visited yet is the start address. -/
theorem TrackOperand.loop_visits {σ : Type} (ctx : TrackerContext σ) (rCfg : ControlFlowGraph)
    (start : Address) :
    ∀ (fuel : Nat) (l : List Address) (st : TrackState σ) (r : TrackEnd) (st2 : TrackState σ),
      TrackOperand.loop ctx rCfg fuel l st = some (r, st2) →
      st.TrackedAddresses = st.visits.reverse → st.visits.Nodup →
      ∃ new, st2.visits = st.visits ++ new ∧ st2.TrackedAddresses = st2.visits.reverse ∧
        st2.visits.Nodup ∧ (l = [] → new = []) ∧
        (∀ rest, l = start :: rest → st.visits = [] → new.head? = some start) := by
  intro fuel
  induction fuel with
  | zero => intro _ _ _ _ h; cases h
  | succ fuel ih =>
    intro l st r st2 h hT hN
    cases l with
    | nil =>
      simp only [TrackOperand.loop, Option.some.injEq, Prod.mk.injEq] at h
      obtain ⟨-, rfl⟩ := h
      exact ⟨[], by simp, hT, hN, fun _ => rfl, fun _ hc => by cases hc⟩
    | cons Addr AllAddrs =>
      rw [TrackOperand.loop] at h
      by_cases htr : st.TrackedAddresses.contains Addr = true
      · rw [if_pos htr] at h
        obtain ⟨new, h1, h2, h3, -, -⟩ := ih _ _ _ _ h hT hN
        refine ⟨new, h1, h2, h3, fun hc => (by cases hc), ?_⟩
        intro rest hl hv
        rw [hT, hv] at htr
        simp at htr
      · rw [if_neg htr] at h
        have hnot : Addr ∉ st.visits := by
          intro hm
          apply htr
          rw [hT]
          simpa using hm
        have hT1 : (st.visit ctx Addr).TrackedAddresses = (st.visit ctx Addr).visits.reverse := by
          simp [TrackState.visit, hT]
        have hN1 : (st.visit ctx Addr).visits.Nodup := by
          simp only [TrackState.visit]
          exact List.nodup_append.2 ⟨hN, List.nodup_singleton _, by
            intro a ha hb
            rw [List.mem_singleton.1 hb] at ha
            exact hnot ha⟩
        have hfirst : ∀ (new : List Address) rest, Addr :: AllAddrs = start :: rest →
            st.visits = [] → ([Addr] ++ new).head? = some start := by
          intro new rest hl _
          cases hl
          rfl
        have hwrap : ∀ st3 : TrackState σ, (∃ new, st3.visits = (st.visit ctx Addr).visits ++ new ∧
              st3.TrackedAddresses = st3.visits.reverse ∧ st3.visits.Nodup) →
            ∃ new, st3.visits = st.visits ++ new ∧ st3.TrackedAddresses = st3.visits.reverse ∧
              st3.visits.Nodup ∧ (Addr :: AllAddrs = [] → new = []) ∧
              (∀ rest, Addr :: AllAddrs = start :: rest → st.visits = [] →
                new.head? = some start) := by
          rintro st3 ⟨new, h1, h2, h3⟩
          refine ⟨[Addr] ++ new, ?_, h2, h3, fun hc => (by cases hc), hfirst new⟩
          rw [h1]
          simp [TrackState.visit]
        by_cases hv : (ctx.rTracker st.tracker st.doc Addr).1 = true
        · rw [if_pos hv] at h
          by_cases hn : (!(ctx.GetNextAddress rCfg Addr AllAddrs).1) = true
          · rw [if_pos hn] at h
            simp only [Option.some.injEq, Prod.mk.injEq] at h
            obtain ⟨-, rfl⟩ := h
            exact hwrap _ ⟨[], by simp, hT1, hN1⟩
          · rw [if_neg hn] at h
            obtain ⟨new, h1, h2, h3, -, -⟩ := ih _ _ _ _ h hT1 hN1
            exact hwrap _ ⟨new, h1, h2, h3⟩
        · rw [if_neg hv] at h
          obtain ⟨new, h1, h2, h3, -, -⟩ := ih _ _ _ _ h hT1 hN1
          exact hwrap _ ⟨new, h1, h2, h3⟩

theorem TrackOperand.functions_visits {σ : Type} (ctx : TrackerContext σ) (fuel : Nat)
    (start : Address) :
    ∀ (funcs : List Address) (st st2 : TrackState σ),
      TrackOperand.functions ctx fuel start funcs st = some st2 →
      st.TrackedAddresses = st.visits.reverse → st.visits.Nodup →
      (st.visits = [] ∨ st.visits.head? = some start) →
      st2.visits.Nodup ∧ (st2.visits = [] ∨ st2.visits.head? = some start) ∧
      ((∃ f ∈ funcs, (GetMultiCell st.doc f).isSome = true) →
        st2.visits.head? = some start) := by
  intro funcs
  induction funcs with
  | nil =>
    intro st st2 h _ hN hH
    simp only [TrackOperand.functions, Option.some.injEq] at h
    subst h
    exact ⟨hN, hH, fun ⟨f, hf, _⟩ => by cases hf⟩
  | cons f rest ih =>
    intro st st2 h hT hN hH
    rw [TrackOperand.functions] at h
    cases hmc : GetMultiCell st.doc f with
    | none =>
      rw [hmc] at h
      obtain ⟨h1, h2, h3⟩ := ih st st2 h hT hN hH
      refine ⟨h1, h2, ?_⟩
      rintro ⟨g, hg, hgs⟩
      rcases List.mem_cons.1 hg with rfl | hg
      · rw [hmc] at hgs
        cases hgs
      · exact h3 ⟨g, hg, hgs⟩
    | some pFunc =>
      rw [hmc] at h
      dsimp only at h
      cases hloop : TrackOperand.loop ctx pFunc.cfg fuel [start] st with
      | none => rw [hloop] at h; cases h
      | some p =>
        obtain ⟨r, st1⟩ := p
        rw [hloop] at h
        dsimp only at h
        obtain ⟨new, e1, e2, e3, -, e5⟩ :=
          TrackOperand.loop_visits ctx pFunc.cfg start fuel [start] st r st1 hloop hT hN
        have hhead : st1.visits.head? = some start := by
          rcases hH with hH | hH
          · rw [e1, hH, List.nil_append]
            exact e5 [] rfl hH
          · rw [e1]
            cases hv : st.visits with
            | nil => rw [hv] at hH; cases hH
            | cons a t => rw [hv] at hH; simpa using hH
        obtain ⟨h1, h2, -⟩ := ih st1 st2 h e2 e3 (Or.inr hhead)
        refine ⟨h1, h2, fun _ => ?_⟩
        rcases h2 with h2 | h2
        · exfalso
          have hsub : ∀ (funcs : List Address) (sa sb : TrackState σ),
              TrackOperand.functions ctx fuel start funcs sa = some sb →
              sa.TrackedAddresses = sa.visits.reverse → sa.visits.Nodup →
              ∃ new, sb.visits = sa.visits ++ new := by
            intro funcs
            induction funcs with
            | nil =>
              intro sa sb hh _ _
              simp only [TrackOperand.functions, Option.some.injEq] at hh
              exact ⟨[], by simp [hh]⟩
            | cons g gs ihg =>
              intro sa sb hh hTa hNa
              rw [TrackOperand.functions] at hh
              cases hg : GetMultiCell sa.doc g with
              | none =>
                rw [hg] at hh
                exact ihg sa sb hh hTa hNa
              | some pg =>
                rw [hg] at hh
                dsimp only at hh
                cases hl : TrackOperand.loop ctx pg.cfg fuel [start] sa with
                | none => rw [hl] at hh; cases hh
                | some q =>
                  obtain ⟨rq, sq⟩ := q
                  rw [hl] at hh
                  dsimp only at hh
                  obtain ⟨n1, f1, f2, f3, -, -⟩ :=
                    TrackOperand.loop_visits ctx pg.cfg start fuel [start] sa rq sq hl hTa hNa
                  obtain ⟨n2, f4⟩ := ihg sq sb hh f2 f3
                  exact ⟨n1 ++ n2, by rw [f4, f1, List.append_assoc]⟩
          obtain ⟨n, hn⟩ := hsub rest st1 st2 h e2 e3
          rw [h2] at hn
          have : st1.visits = [] := (List.append_eq_nil.1 hn.symm).1
          rw [this] at hhead
          cases hhead
        · exact h2

/-- The traversal loop of `TrackOperand` ends when `GetNextAddress` only ever appends at most
`B` addresses out of a finite list `pool` that also holds the addresses of the
worklist. -/
theorem TrackOperand.loop_ends {σ : Type} (ctx : TrackerContext σ)
    (rCfg : ControlFlowGraph) (pool : List Address) (B : Nat)
    (hnext : ∀ a l, ∃ ext, (ctx.GetNextAddress rCfg a l).2 = l ++ ext ∧ ext.length ≤ B ∧
      ∀ x ∈ ext, x ∈ pool) :
    ∀ (fuel : Nat) (l : List Address) (st : TrackState σ), (∀ x ∈ l, x ∈ pool) →
      l.length + pool.countP (fun a => !st.TrackedAddresses.contains a) * (B + 1) + 1 ≤
        fuel →
      ∃ r st2, TrackOperand.loop ctx rCfg fuel l st = some (r, st2) := by
  intro fuel
  induction fuel with
  | zero => intro _ _ _ h; omega
  | succ fuel ih =>
    intro l st hl hf
    cases l with
    | nil => exact ⟨_, _, rfl⟩
    | cons Addr AllAddrs =>
      rw [TrackOperand.loop]
      simp only [List.length_cons] at hf
      have hrest : ∀ x ∈ AllAddrs, x ∈ pool := fun x hx => hl x (List.mem_cons_of_mem _ hx)
      by_cases htr : st.TrackedAddresses.contains Addr = true
      · rw [if_pos htr]
        exact ih AllAddrs st hrest (by omega)
      · rw [if_neg htr]
        have hU : pool.countP (fun a => !(st.visit ctx Addr).TrackedAddresses.contains a)
            + 1 ≤ pool.countP (fun a => !st.TrackedAddresses.contains a) := by
          apply countP_lt_of_mem _ _ pool _ Addr (hl Addr (List.mem_cons_self _ _))
          · simpa using htr
          · simp [TrackState.visit]
          · intro x _ hx
            simp only [TrackState.visit, Bool.not_eq_true_eq_eq_false] at hx ⊢
            simp only [List.contains_eq_any_beq, List.any_eq_false, List.mem_cons] at hx ⊢
            intro y hy
            exact hx y (Or.inr hy)
        have hmul := Nat.mul_le_mul_right (B + 1) hU
        rw [Nat.add_mul, Nat.one_mul] at hmul
        by_cases hv : (ctx.rTracker st.tracker st.doc Addr).1 = true
        · rw [if_pos hv]
          by_cases hn : (!(ctx.GetNextAddress rCfg Addr AllAddrs).1) = true
          · rw [if_pos hn]
            exact ⟨_, _, rfl⟩
          · rw [if_neg hn]
            obtain ⟨ext, he1, he2, he3⟩ := hnext Addr AllAddrs
            refine ih _ _ ?_ ?_
            · intro x hx
              rw [he1] at hx
              rcases List.mem_append.1 hx with hx | hx
              · exact hrest x hx
              · exact he3 x hx
            · rw [he1, List.length_append]
              omega
        · rw [if_neg hv]
          exact ih AllAddrs _ hrest (by omega)

/-- C23. The stop rule of the forward tracker. In the loop of `TrackOperand` over one
function: with an empty worklist the loop ends; an address tracked before is dropped without
a call of the visitor; on an address not tracked before the visitor is called once, and when
it answers false the loop goes on with the rest of the worklist, which is not extended; when
it answers true and `GetNextAddress` answers false the traversal of the function ends, and
when both answer true the loop goes on with the worklist as `GetNextAddress` left it. For a
start address that lies in a function, over the whole of `TrackOperand`: no address is
visited twice, and the first visit, which takes place if one of the functions has its
`Function` multicell, is the start address. -/
theorem C23_forward_stop_rule {σ : Type} (ctx : TrackerContext σ) (rCfg : ControlFlowGraph)
    (fuel : Nat) (Addr : Address) (AllAddrs : List Address) (st : TrackState σ) :
    TrackOperand.loop ctx rCfg (fuel + 1) [] st = some (TrackEnd.worklistEmpty, st) ∧
    (st.TrackedAddresses.contains Addr = true →
      TrackOperand.loop ctx rCfg (fuel + 1) (Addr :: AllAddrs) st =
        TrackOperand.loop ctx rCfg fuel AllAddrs st) ∧
    (st.TrackedAddresses.contains Addr = false →
      ((ctx.rTracker st.tracker st.doc Addr).1 = false →
        TrackOperand.loop ctx rCfg (fuel + 1) (Addr :: AllAddrs) st =
          TrackOperand.loop ctx rCfg fuel AllAddrs (st.visit ctx Addr)) ∧
      ((ctx.rTracker st.tracker st.doc Addr).1 = true →
        (ctx.GetNextAddress rCfg Addr AllAddrs).1 = false →
        TrackOperand.loop ctx rCfg (fuel + 1) (Addr :: AllAddrs) st =
          some (TrackEnd.hitEnd, st.visit ctx Addr)) ∧
      ((ctx.rTracker st.tracker st.doc Addr).1 = true →
        (ctx.GetNextAddress rCfg Addr AllAddrs).1 = true →
        TrackOperand.loop ctx rCfg (fuel + 1) (Addr :: AllAddrs) st =
          TrackOperand.loop ctx rCfg fuel (ctx.GetNextAddress rCfg Addr AllAddrs).2
            (st.visit ctx Addr))) ∧
    (∀ (doc : Document) (start : Address) (tracker : σ) (st2 : TrackState σ),
      ctx.FindFunctionAddressFromAddress doc start ≠ [] →
      TrackOperand fuel ctx doc start tracker = some st2 →
      st2.visits.Nodup ∧ (st2.visits = [] ∨ st2.visits.head? = some start) ∧
      ((∃ f ∈ ctx.FindFunctionAddressFromAddress doc start, (GetMultiCell doc f).isSome = true) →
        st2.visits.head? = some start)) := by
  refine ⟨rfl, ?_, ?_, ?_⟩
  · intro htr
    rw [TrackOperand.loop, if_pos htr]
  · intro htr
    have htr2 : ¬ st.TrackedAddresses.contains Addr = true := by rw [htr]; decide
    refine ⟨?_, ?_, ?_⟩
    · intro hv
      rw [TrackOperand.loop, if_neg htr2, if_neg (by simp [hv])]
    · intro hv hn
      rw [TrackOperand.loop, if_neg htr2, if_pos hv, if_pos (by simp [hn])]
    · intro hv hn
      rw [TrackOperand.loop, if_neg htr2, if_pos hv, if_neg (by simp [hn])]
  · intro doc start tracker st2 hne h
    unfold TrackOperand at h
    have hne2 : (!(ctx.FindFunctionAddressFromAddress doc start).isEmpty) = true := by
      cases hl : ctx.FindFunctionAddressFromAddress doc start with
      | nil => exact absurd hl hne
      | cons a t => rfl
    dsimp only at h
    rw [if_pos hne2] at h
    exact TrackOperand.functions_visits ctx fuel start _ _ st2 h rfl List.nodup_nil (Or.inl rfl)

/-- C23, at concrete inputs: on the diamond `jz 0:1003; nop; ret` with a visitor that answers
false at `0:1003` only, the traversal from `0:1000` visits `0:1000`, goes on after the answer
false at `0:1003` with `0:1002`, which was left in the worklist, and ends there because the
graph gives `0:1002` no successor; the worklist after the first visit is what
`GetNextAddress` made of it. -/
theorem C23_forward_stop_rule_witness :
    (toyTrackerContext [⟨0, 1003⟩]).FindFunctionAddressFromAddress diamondFunctionDoc
      ⟨0, 1000⟩ ≠ [] ∧
    (TrackOperand 20 (toyTrackerContext [⟨0, 1003⟩]) diamondFunctionDoc ⟨0, 1000⟩ 0).map
      (fun st => st.visits) = some [⟨0, 1000⟩, ⟨0, 1003⟩, ⟨0, 1002⟩] ∧
    (∀ st2, TrackOperand 20 (toyTrackerContext [⟨0, 1003⟩]) diamondFunctionDoc ⟨0, 1000⟩ 0 =
        some st2 → st2.visits.Nodup ∧ st2.visits.head? = some ⟨0, 1000⟩) := by
  have hne : (toyTrackerContext [⟨0, 1003⟩]).FindFunctionAddressFromAddress diamondFunctionDoc
      ⟨0, 1000⟩ ≠ [] := by decide
  refine ⟨hne, by decide, ?_⟩
  intro st2 h
  obtain ⟨h1, -, h3⟩ := (C23_forward_stop_rule (toyTrackerContext [⟨0, 1003⟩]) ⟨[], []⟩ 19
    ⟨0, 1000⟩ [] ⟨[], 0, diamondFunctionDoc, []⟩).2.2.2 diamondFunctionDoc ⟨0, 1000⟩ 0 st2 hne h
  exact ⟨h1, h3 ⟨⟨0, 1000⟩, by decide, by decide⟩⟩

/-! ## Theorems: well-formed cells -/

theorem rangesMeet_symm (a : Address) (la : Nat) (b : Address) (lb : Nat) :
    rangesMeet a la b lb = rangesMeet b lb a la := by
  unfold rangesMeet
  by_cases h1 : a.base = b.base <;> by_cases h2 : a.offset < b.offset + lb <;>
    by_cases h3 : b.offset < a.offset + la <;> simp [h1, h2, h3, eq_comm]

theorem CellsWellFormed.unique (doc : Document) (h : CellsWellFormed doc)
    (p q : Address × Cell) (hp : p ∈ doc.cells) (hq : q ∈ doc.cells) (hk : p.1 = q.1) :
    p = q := by
  by_contra hne
  have hsym : Symmetric (fun p q : Address × Cell =>
      p.1 ≠ q.1 ∧ rangesMeet p.1 p.2.GetLength q.1 q.2.GetLength = false) := by
    intro x y hxy
    exact ⟨fun e => hxy.1 e.symm, by rw [rangesMeet_symm]; exact hxy.2⟩
  exact (List.Pairwise.forall hsym h.disjoint hp hq hne).1 hk

theorem CellsWellFormed.apart (doc : Document) (h : CellsWellFormed doc)
    (p q : Address × Cell) (hp : p ∈ doc.cells) (hq : q ∈ doc.cells) (hne : p.1 ≠ q.1) :
    rangesMeet p.1 p.2.GetLength q.1 q.2.GetLength = false := by
  have hsym : Symmetric (fun p q : Address × Cell =>
      p.1 ≠ q.1 ∧ rangesMeet p.1 p.2.GetLength q.1 q.2.GetLength = false) := by
    intro x y hxy
    exact ⟨fun e => hxy.1 e.symm, by rw [rangesMeet_symm]; exact hxy.2⟩
  exact (List.Pairwise.forall hsym h.disjoint hp hq (fun e => hne (by rw [e]))).2

theorem CellsWellFormed.retrieve (doc : Document) (h : CellsWellFormed doc) (a : Address)
    (c : Cell) (hmem : (a, c) ∈ doc.cells) : doc.RetrieveCell a = some c := by
  have hf := find_key doc.cells a c hmem
    (fun p hp hk => CellsWellFormed.unique doc h p (a, c) hp hmem hk)
  simp [Document.RetrieveCell, h.present _ hmem, hf]

theorem CellsWellFormed.containsCode (doc : Document) (h : CellsWellFormed doc)
    (p : Address × Cell) (hp : p ∈ doc.codeList) : doc.ContainsCode p.1 = true := by
  have hp2 := List.mem_filter.1 hp
  have := CellsWellFormed.retrieve doc h p.1 p.2 hp2.1
  simp [Document.ContainsCode, this, hp2.2]

theorem mem_addresses_of_IsPresent (doc : Document) (a : Address)
    (h : doc.IsPresent a = true) : a ∈ doc.addresses := by
  obtain ⟨m, hm, hp⟩ := List.any_eq_true.1 h
  simp only [MemoryArea.IsPresent, Bool.and_eq_true, decide_eq_true_eq] at hp
  refine List.mem_flatMap.2 ⟨m, hm, List.mem_map.2 ⟨a.offset - m.virtualBase.offset,
    List.mem_range.2 (by omega), ?_⟩⟩
  obtain ⟨ab, ao⟩ := a
  simp only [Address.mk.injEq]
  refine ⟨hp.1.1.symm, ?_⟩
  simp only at hp
  omega

/-- In a Document with well-formed cells there are at most as many stored cells as mapped
addresses. -/
theorem CellsWellFormed.cells_le (doc : Document) (h : CellsWellFormed doc) :
    doc.cells.length ≤ doc.addressCount := by
  have hnodup : (doc.cells.map Prod.fst).Nodup := by
    unfold List.Nodup
    rw [List.pairwise_map]
    exact h.disjoint.imp (fun hpq => hpq.1)
  have hsub : doc.cells.map Prod.fst ⊆ doc.addresses := by
    intro a ha
    obtain ⟨p, hp, rfl⟩ := List.mem_map.1 ha
    exact mem_addresses_of_IsPresent doc p.1 (h.present p hp)
  have := (List.subperm_of_subset hnodup hsub).length_le
  simpa [Document.addressCount] using this

theorem CellsWellFormed.codeCount_le (doc : Document) (h : CellsWellFormed doc) :
    doc.codeCount ≤ doc.addressCount :=
  Nat.le_trans (List.length_filter_le _ _) (CellsWellFormed.cells_le doc h)

theorem InsertCell_eq (d : Document) (a : Address) (c : Cell) (hp : d.IsPresent a = true) :
    d.InsertCell a c = (true, { d with
      cells := (a, c) :: d.cells.filter
        (fun p => !(decide (p.1 = a) || rangesMeet p.1 p.2.GetLength a c.GetLength)) }) := by
  unfold Document.InsertCell
  rw [if_pos hp]

theorem InsertCell_absent (d : Document) (a : Address) (c : Cell)
    (hp : ¬ d.IsPresent a = true) : d.InsertCell a c = (false, d) := by
  unfold Document.InsertCell
  rw [if_neg hp]

theorem InsertCell_areas (d : Document) (a : Address) (c : Cell) :
    (d.InsertCell a c).2.areas = d.areas := by
  unfold Document.InsertCell
  split <;> rfl

/-- Inserting a cell keeps the cells well formed, provided that an inserted instruction
occupies at least one address. -/
theorem CellsWellFormed.insertCell (d : Document) (a : Address) (c : Cell)
    (hc : ∀ i, c = Cell.instruction i → 1 ≤ i.length) (h : CellsWellFormed d) :
    CellsWellFormed (d.InsertCell a c).2 := by
  by_cases hp : d.IsPresent a = true
  · rw [InsertCell_eq d a c hp]
    refine ⟨?_, ?_, ?_⟩
    · simp only [List.pairwise_cons]
      refine ⟨?_, List.Pairwise.sublist (List.filter_sublist _) h.disjoint⟩
      intro q hq
      have hq2 := (List.mem_filter.1 hq).2
      simp only [Bool.not_eq_true', Bool.or_eq_false_iff, decide_eq_false_iff_not] at hq2
      exact ⟨fun e => hq2.1 e.symm, by rw [rangesMeet_symm]; exact hq2.2⟩
    · intro p hp2
      rcases List.mem_cons.1 hp2 with rfl | hp2
      · exact hp
      · exact h.present p (List.mem_filter.1 hp2).1
    · have hl := List.all_eq_true.1 h.length
      apply List.all_eq_true.2
      intro p hp2
      rcases List.mem_cons.1 hp2 with rfl | hp2
      · cases c with
        | instruction i => simpa using hc i rfl
        | value w => rfl
        | string k t n => rfl
      · exact hl p (List.mem_filter.1 hp2).1
  · rw [InsertCell_absent d a c hp]
    exact h

/-- Inserting an instruction whose range meets no stored instruction adds it to the stored
instructions and removes none. -/
theorem codeList_insert_instruction (d : Document) (a : Address) (insn : Instruction)
    (hp : d.IsPresent a = true)
    (hfree : ∀ p ∈ d.codeList, p.1 ≠ a ∧ rangesMeet p.1 p.2.GetLength a insn.length = false) :
    (d.InsertCell a (Cell.instruction insn)).2.codeList =
      (a, Cell.instruction insn) :: d.codeList := by
  rw [InsertCell_eq d a _ hp]
  show List.filter (fun p => p.2.isInstruction) ((a, Cell.instruction insn) ::
    d.cells.filter (fun p => !(decide (p.1 = a) || rangesMeet p.1 p.2.GetLength a insn.length)))
    = (a, Cell.instruction insn) :: d.cells.filter (fun p => p.2.isInstruction)
  rw [List.filter_cons_of_pos (by rfl), List.filter_filter]
  congr 1
  apply List.filter_congr
  intro p hp2
  by_cases hi : p.2.isInstruction = true
  · have := hfree p (List.mem_filter.2 ⟨hp2, hi⟩)
    simp [hi, this.1, this.2]
  · simp [hi]

/-- Inserting a raw value that meets no stored cell other than raw values leaves the stored
instructions as they are. -/
theorem codeList_insert_value (d : Document) (a : Address) (n : Nat)
    (hkey : ∀ p ∈ d.codeList, p.1 ≠ a)
    (hmeet : d.cells.any (fun p => !p.2.isValue && rangesMeet p.1 p.2.GetLength a n) = false) :
    (d.InsertCell a (Cell.value n)).2.codeList = d.codeList := by
  by_cases hp : d.IsPresent a = true
  · rw [InsertCell_eq d a _ hp]
    show List.filter (fun p => p.2.isInstruction) ((a, Cell.value n) ::
      d.cells.filter (fun p => !(decide (p.1 = a) || rangesMeet p.1 p.2.GetLength a n)))
      = d.cells.filter (fun p => p.2.isInstruction)
    rw [List.filter_cons_of_neg (by simp [Cell.isInstruction]), List.filter_filter]
    apply List.filter_congr
    intro p hp2
    by_cases hi : p.2.isInstruction = true
    · have h1 := hkey p (List.mem_filter.2 ⟨hp2, hi⟩)
      have h2 := List.any_eq_false.1 hmeet p hp2
      have hv : p.2.isValue = false := by
        cases hc : p.2 with
        | instruction i => rfl
        | value w => rw [hc] at hi; cases hi
        | string k t m => rw [hc] at hi; cases hi
      simp only [hv, Bool.not_false, Bool.true_and, Bool.not_eq_true] at h2
      simp [hi, h1, h2]
    · simp [hi]
  · rw [InsertCell_absent d a _ hp]

theorem AddLabel_cells (d : Document) (a : Address) (l : Label) (f : Bool) :
    (d.AddLabel a l f).cells = d.cells ∧ (d.AddLabel a l f).areas = d.areas :=
  ⟨(AddLabel_frame d a l f).2.2.1, (AddLabel_frame d a l f).2.1⟩

theorem CellsWellFormed.of_cells (d d2 : Document) (hc : d2.cells = d.cells)
    (ha : d2.areas = d.areas) (h : CellsWellFormed d) : CellsWellFormed d2 := by
  refine ⟨by rw [hc]; exact h.disjoint, ?_, ?_⟩
  · intro p hp
    rw [hc] at hp
    have := h.present p hp
    simpa [Document.IsPresent, ha] using this
  · have := h.length
    simpa [Document.codeHasLength, hc] using this

/-- `ChangeValueSize` keeps the cells well formed, the stored instructions and the areas. -/
theorem ChangeValueSize_code (d : Document) (a : Address) (n : Nat)
    (h : CellsWellFormed d) :
    CellsWellFormed (d.ChangeValueSize a n) ∧ (d.ChangeValueSize a n).codeList = d.codeList ∧
      (d.ChangeValueSize a n).areas = d.areas := by
  refine ⟨?_, ?_, (ChangeValueSize_labels d a n).2.1⟩
  · unfold Document.ChangeValueSize
    split
    · exact h
    · split
      · split
        · exact h
        · exact CellsWellFormed.insertCell d a _ (fun i hi => by cases hi) h
      · exact h
  · unfold Document.ChangeValueSize
    split
    · rfl
    · split
      · rename_i w hret
        split
        · rfl
        · rename_i hany
          apply codeList_insert_value
          · intro p hp hk
            have hp2 := List.mem_filter.1 hp
            have hr := CellsWellFormed.retrieve d h p.1 p.2 hp2.1
            rw [hk, hret] at hr
            have hi := hp2.2
            rw [← Option.some.inj hr] at hi
            cases hi
          · simpa using hany
      · rfl

/-- One operand step of `CreateXRefs` keeps the cells well formed, the stored instructions and
the areas. -/
theorem CreateXRefs.operand_code (an : Analyzer) (pInsn : Instruction) (rAddr : Address)
    (d : Document) (CurOp : Nat) (h : CellsWellFormed d) :
    CellsWellFormed (CreateXRefs.operand an pInsn rAddr d CurOp) ∧
      (CreateXRefs.operand an pInsn rAddr d CurOp).codeList = d.codeList ∧
      (CreateXRefs.operand an pInsn rAddr d CurOp).areas = d.areas := by
  have key : ∀ d2 : Document, d2.cells = d.cells → d2.areas = d.areas →
      CellsWellFormed d2 ∧ d2.codeList = d.codeList ∧ d2.areas = d.areas :=
    fun d2 hc ha => ⟨CellsWellFormed.of_cells d d2 hc ha h, by simp [Document.codeList, hc], ha⟩
  have key2 : ∀ (x : Address) (n : Nat) (d2 : Document),
      d2.cells = (d.ChangeValueSize x n).cells → d2.areas = (d.ChangeValueSize x n).areas →
      CellsWellFormed d2 ∧ d2.codeList = d.codeList ∧ d2.areas = d.areas := by
    intro x n d2 hc ha
    obtain ⟨h1, h2, h3⟩ := ChangeValueSize_code d x n h
    exact ⟨CellsWellFormed.of_cells _ d2 hc ha h1, by
      rw [← h2]; simp [Document.codeList, hc], by rw [ha, h3]⟩
  simp only [CreateXRefs.operand]
  repeat' split
  all_goals first
    | exact key _ rfl rfl
    | exact key2 _ _ _ rfl rfl
    | exact key2 _ _ _ (AddLabel_cells _ _ _ _).1 (AddLabel_cells _ _ _ _).2

/-- `CreateXRefs` keeps the cells well formed, the stored instructions and the areas. -/
theorem CreateXRefs_code (an : Analyzer) (d : Document) (rAddr : Address)
    (h : CellsWellFormed d) :
    CellsWellFormed (CreateXRefs an d rAddr) ∧ (CreateXRefs an d rAddr).codeList = d.codeList ∧
      (CreateXRefs an d rAddr).areas = d.areas := by
  unfold CreateXRefs
  split
  · rename_i pInsn _
    exact foldl_keeps (P := fun d2 => CellsWellFormed d2 ∧ d2.codeList = d.codeList ∧
        d2.areas = d.areas) (CreateXRefs.operand an pInsn rAddr)
      (fun d2 x hd2 => by
        obtain ⟨h1, h2, h3⟩ := CreateXRefs.operand_code an pInsn rAddr d2 x hd2.1
        exact ⟨h1, by rw [h2, hd2.2.1], by rw [h3, hd2.2.2]⟩)
      _ d ⟨h, rfl, rfl⟩
  · exact ⟨h, rfl, rfl⟩

/-! ## Theorems: what the decoder has tested -/

/-- Each instruction the decoding loop appends was decoded at an address whose cell was a raw
value and whose range held no code. -/
theorem DisassembleBasicBlock.loop_free (doc : Document) (rArch : Architecture) (Res : Bool) :
    ∀ (fuel : Nat) (CurAddr : Address) (pMemArea : MemoryArea) (bb : List Instruction)
      (reason : ExitReason) (Res2 : Bool) (bb2 : List Instruction),
    DisassembleBasicBlock.loop doc rArch fuel CurAddr pMemArea Res bb = some (reason, Res2, bb2) →
    ∃ ext, bb2 = bb ++ ext ∧ BlockFree doc CurAddr ext := by
  intro fuel
  induction fuel with
  | zero => intro CurAddr pMemArea bb reason Res2 bb2 h; simp [DisassembleBasicBlock.loop] at h
  | succ fuel ih =>
    intro CurAddr pMemArea bb reason Res2 bb2 h
    unfold DisassembleBasicBlock.loop at h
    have hnil : ∀ {r : ExitReason} {R : Bool}, some (r, R, bb) = some (reason, Res2, bb2) →
        ∃ ext, bb2 = bb ++ ext ∧ BlockFree doc CurAddr ext := by
      intro r R heq
      simp only [Option.some.injEq, Prod.mk.injEq] at heq
      exact ⟨[], by simp [heq.2.2], trivial⟩
    split at h
    · cases hsel : (if pMemArea.IsPresent CurAddr = true then some pMemArea
          else doc.GetMemoryArea CurAddr) with
      | none => rw [hsel] at h; exact hnil h
      | some m =>
        rw [hsel] at h
        dsimp only at h
        split at h
        · exact hnil h
        · cases hcell : doc.RetrieveCell CurAddr with
          | none => rw [hcell] at h; exact hnil h
          | some pCurCell =>
            rw [hcell] at h
            dsimp only at h
            split at h
            · exact hnil h
            · rename_i hraw
              have hval : pCurCell.isValue = true := by
                simp only [Bool.or_eq_true, Bool.not_eq_true', decide_eq_true_eq, not_or] at hraw
                simpa using hraw.1
              split at h
              · exact hnil h
              · rename_i pInsn hdec
                split at h
                · exact hnil h
                · rename_i hcode
                  have hcode2 : codeInRange doc CurAddr pInsn.length = false := by
                    simpa using hcode
                  split at h
                  · simp only [Option.some.injEq, Prod.mk.injEq] at h
                    exact ⟨[pInsn], h.2.2.symm, ⟨pCurCell, hcell, hval⟩, hcode2, trivial⟩
                  · obtain ⟨ext, hext, hfree⟩ := ih _ _ _ _ _ _ h
                    exact ⟨pInsn :: ext, by simp [hext], ⟨pCurCell, hcell, hval⟩, hcode2, hfree⟩
    · exact hnil h

/-- Each instruction of the list `DisassembleBasicBlock` returns, called with an empty list,
was decoded at an address whose cell was a raw value and whose range held no code: an address
that contains code is not decoded again. -/
theorem DisassembleBasicBlock_free (fuel : Nat) (doc : Document) (rArch : Architecture)
    (rAddr : Address) (r : Bool) (bb : List Instruction)
    (h : DisassembleBasicBlock fuel doc rArch rAddr [] = some (r, bb)) :
    BlockFree doc rAddr bb := by
  unfold DisassembleBasicBlock at h
  split at h
  · simp only [Option.some.injEq, Prod.mk.injEq] at h
    rw [← h.2]; trivial
  · split at h
    · cases h
    · rename_i reason Res bb2 hrun
      split at h
      · simp only [Option.some.injEq, Prod.mk.injEq] at h
        rw [← h.2]; trivial
      · simp only [Option.some.injEq, Prod.mk.injEq] at h
        rw [← h.2]
        unfold DisassembleBasicBlock.run at hrun
        dsimp only at hrun
        cases hma : doc.GetMemoryArea rAddr with
        | none =>
          rw [hma] at hrun
          simp only [Option.some.injEq, Prod.mk.injEq] at hrun
          rw [← hrun.2.2]; trivial
        | some m =>
          rw [hma] at hrun
          obtain ⟨ext, hext, hfree⟩ :=
            DisassembleBasicBlock.loop_free doc rArch _ fuel rAddr m [] _ _ _ hrun
          simp only [List.nil_append] at hext
          rw [hext]; exact hfree

/-- `DisassembleBasicBlock` returns when the decoder never yields an empty instruction and the
budget exceeds the offsets left below the end of the Document. -/
theorem DisassembleBasicBlock_returns (fuel : Nat) (doc : Document) (rArch : Architecture)
    (rAddr : Address) (hdec : ∀ s o i, rArch.Disassemble s o = some i → 0 < i.length)
    (hfuel : doc.endOffset - rAddr.offset < fuel) :
    ∃ r bb, DisassembleBasicBlock fuel doc rArch rAddr [] = some (r, bb) := by
  unfold DisassembleBasicBlock
  split
  · exact ⟨_, _, rfl⟩
  · have hrun : (DisassembleBasicBlock.run fuel doc rArch rAddr []).isSome = true := by
      unfold DisassembleBasicBlock.run
      dsimp only
      cases doc.GetMemoryArea rAddr with
      | none => rfl
      | some m =>
        exact DisassembleBasicBlock.loop_terminates doc rArch _ hdec fuel rAddr m [] hfuel
    obtain ⟨x, hx⟩ := Option.isSome_iff_exists.1 hrun
    obtain ⟨reason, Res, bb⟩ := x
    rw [hx]
    dsimp only
    split
    · exact ⟨_, _, rfl⟩
    · exact ⟨_, _, rfl⟩

theorem Address.eq_of (x y : Address) (hb : x.base = y.base) (ho : x.offset = y.offset) :
    x = y := by
  cases x
  cases y
  simp_all

/-- A range that `DisassembleBasicBlock` has found free meets no stored instruction of a
Document with well-formed cells. -/
theorem range_free_of_tests (doc : Document) (h : CellsWellFormed doc) (a : Address)
    (len : Nat) (c : Cell) (hcell : doc.RetrieveCell a = some c) (hval : c.isValue = true)
    (hcode : codeInRange doc a len = false) :
    ∀ p ∈ doc.codeList, p.1 ≠ a ∧ rangesMeet p.1 p.2.GetLength a len = false := by
  intro p hp
  have hp2 := List.mem_filter.1 hp
  have hne : p.1 ≠ a := by
    intro hk
    have hr := CellsWellFormed.retrieve doc h p.1 p.2 hp2.1
    rw [hk, hcell] at hr
    have hi := hp2.2
    rw [← Option.some.inj hr] at hi
    cases c with
    | instruction i => cases hval
    | value w => cases hi
    | string k t n => cases hi
  refine ⟨hne, ?_⟩
  by_contra hmeet
  have hmeet2 : rangesMeet p.1 p.2.GetLength a len = true := by simpa using hmeet
  simp only [rangesMeet, Bool.and_eq_true, decide_eq_true_eq] at hmeet2
  obtain ⟨⟨hb, h1⟩, h2⟩ := hmeet2
  by_cases hlt : a.offset ≤ p.1.offset
  · have hcc := codeInRange_false doc a len hcode (p.1.offset - a.offset) (by omega)
    have heq : a + (p.1.offset - a.offset) = p.1 := by
      apply Address.eq_of
      · exact hb.symm
      · show a.offset + (p.1.offset - a.offset) = p.1.offset
        omega
    rw [heq, CellsWellFormed.containsCode doc h p hp] at hcc
    cases hcc
  · have hcov : coversInside p.1 p.2 a = true := by
      simp only [coversInside, Bool.and_eq_true, decide_eq_true_eq]
      exact ⟨⟨hb, by omega⟩, h2⟩
    have hpres := IsPresent_of_RetrieveCell doc a c hcell
    unfold Document.RetrieveCell at hcell
    rw [if_pos hpres] at hcell
    cases hf : doc.cells.find? (fun q => decide (q.1 = a)) with
    | some q =>
      have hq1 := List.find?_some hf
      have hq2 := List.mem_of_find?_eq_some hf
      simp only [decide_eq_true_eq] at hq1
      have hap := CellsWellFormed.apart doc h p q hp2.1 hq2 (by rw [hq1]; exact hne)
      simp only [rangesMeet, hq1, hb, decide_True, Bool.true_and, Bool.and_eq_false_iff,
        decide_eq_false_iff_not] at hap
      omega
    | none =>
      rw [hf] at hcell
      dsimp only at hcell
      have hany : doc.cells.any (fun q => coversInside q.1 q.2 a) = true :=
        List.any_eq_true.2 ⟨p, hp2.1, hcov⟩
      rw [if_pos hany] at hcell
      cases hcell

/-! ## Theorems: inserting a basic block -/

theorem pushOperandReferences_length (insn : Instruction) (CurAddr : Address)
    (s : List Address) : (pushOperandReferences insn CurAddr s).length ≤ s.length + 4 := by
  have key : ∀ (l : List Nat) (s : List Address),
      (l.foldl (fun s i =>
        match insn.GetOperandReference i CurAddr with
        | some DstAddr => DstAddr :: s
        | none => s) s).length ≤ s.length + l.length := by
    intro l
    induction l with
    | nil => intro s; simp
    | cons x rest ih =>
      intro s
      rw [List.foldl_cons]
      refine Nat.le_trans (ih _) ?_
      cases insn.GetOperandReference x CurAddr with
      | none => simp only [List.length_cons]; omega
      | some d => simp only [List.length_cons]; omega
  have := key (List.range OPERAND_NO) s
  simpa [pushOperandReferences, OPERAND_NO] using this

theorem CellsWellFormed.code_length (doc : Document) (h : CellsWellFormed doc)
    (p : Address × Cell) (hp : p ∈ doc.codeList) : 1 ≤ p.2.GetLength := by
  have hp2 := List.mem_filter.1 hp
  have := List.all_eq_true.1 h.length p hp2.1
  cases hc : p.2 with
  | instruction i =>
    rw [hc] at this
    simpa [Cell.GetLength] using this
  | value w =>
    have hi := hp2.2
    rw [hc] at hi
    cases hi
  | string k t n =>
    have hi := hp2.2
    rw [hc] at hi
    cases hi

theorem IsPresent_of_areas (d d2 : Document) (h : d2.areas = d.areas) (a : Address) :
    d2.IsPresent a = d.IsPresent a := by
  simp [Document.IsPresent, h]

/-- Once the loop over a basic block has set `FunctionIsFinished` it stays set. -/
theorem insertBasicBlock_finished (an : Analyzer) :
    ∀ (bb : List Instruction) (st : BlockState), st.FunctionIsFinished = true →
      (insertBasicBlock an bb st).FunctionIsFinished = true := by
  intro bb
  induction bb with
  | nil => intro st h; exact h
  | cons insn rest ih =>
    intro st h
    rw [insertBasicBlock]
    split
    · exact ih _ rfl
    · split
      · exact ih _ rfl
      · exact ih _ h

/-- The loop of the driver over a decoded basic block keeps the cells well formed and the
areas, removes no stored instruction, pushes at most four addresses for each instruction it
stores, and stores the first instruction of the block when the cursor is at the address the
block was decoded at and that address does not contain code. When it ends without
`FunctionIsFinished` and the last instruction of the block is neither plain nor merely
conditional, that instruction is stored at the cursor, at an address that held no code in
the Document the block was decoded from. -/
theorem insertBasicBlock_code (an : Analyzer) (doc0 : Document) (h0 : CellsWellFormed doc0) :
    ∀ (bb : List Instruction) (a : Address) (st : BlockState),
      BlockFree doc0 a bb → (∀ i ∈ bb, 0 < i.length) → BlockInv doc0 a st →
      CellsWellFormed (insertBasicBlock an bb st).doc ∧
      (insertBasicBlock an bb st).doc.areas = doc0.areas ∧
      (∀ p ∈ st.doc.codeList, p ∈ (insertBasicBlock an bb st).doc.codeList) ∧
      st.doc.codeCount ≤ (insertBasicBlock an bb st).doc.codeCount ∧
      (insertBasicBlock an bb st).CallStack.length + 4 * st.doc.codeCount ≤
        st.CallStack.length + 4 * (insertBasicBlock an bb st).doc.codeCount ∧
      (bb ≠ [] → st.CurAddr = a → st.doc.ContainsCode a = false →
        st.doc.codeCount < (insertBasicBlock an bb st).doc.codeCount) ∧
      ((insertBasicBlock an bb st).FunctionIsFinished = false →
        ∀ last, bb.getLast? = some last → last.opType ≠ OpUnknown → last.opType ≠ OpCond →
          ((insertBasicBlock an bb st).CurAddr, Cell.instruction last) ∈
              (insertBasicBlock an bb st).doc.codeList ∧
            doc0.ContainsCode (insertBasicBlock an bb st).CurAddr = false) := by
  intro bb
  induction bb with
  | nil =>
    intro a st _ _ hinv
    exact ⟨hinv.wf, hinv.areas, fun p hp => hp, le_refl _, le_refl _, fun hne => absurd rfl hne,
      fun _ last hl => by cases hl⟩
  | cons insn rest ih =>
    intro a st hfree hlen hinv
    obtain ⟨⟨c, hcell, hval⟩, hcode, hrest⟩ := hfree
    have hlen1 : 0 < insn.length := hlen insn (List.mem_cons_self _ _)
    have hlenr : ∀ i ∈ rest, 0 < i.length := fun i hi => hlen i (List.mem_cons_of_mem _ hi)
    have hnext : ∀ p ∈ st.doc.codeList, p ∈ doc0.codeList ∨
        (p.1.base = (a + insn.length).base ∧
          p.1.offset + p.2.GetLength ≤ (a + insn.length).offset) := by
      intro p hp
      rcases hinv.fresh p hp with h | h
      · exact Or.inl h
      · refine Or.inr ⟨h.1, ?_⟩
        show p.1.offset + p.2.GetLength ≤ a.offset + insn.length
        omega
    rw [insertBasicBlock]
    by_cases hcc : st.doc.ContainsCode st.CurAddr = true
    · rw [if_pos hcc]
      obtain ⟨r1, r2, r3, r4, r5, -, -⟩ := ih (a + insn.length)
        { st with FunctionIsFinished := true } hrest hlenr
        ⟨hinv.wf, hinv.areas, hnext, Or.inr hcc⟩
      refine ⟨r1, r2, r3, r4, r5, ?_, ?_⟩
      · intro _ hcur hno
        rw [hcur, hno] at hcc
        cases hcc
      · intro hfin
        rw [insertBasicBlock_finished an rest { st with FunctionIsFinished := true } rfl]
          at hfin
        cases hfin
    · rw [if_neg hcc]
      have hcur : st.CurAddr = a := by
        rcases hinv.sync with h | h
        · exact h
        · exact absurd h hcc
      have hpres : st.doc.IsPresent st.CurAddr = true := by
        rw [hcur, IsPresent_of_areas doc0 st.doc hinv.areas]
        exact IsPresent_of_RetrieveCell doc0 a c hcell
      have hfr : ∀ p ∈ st.doc.codeList,
          p.1 ≠ st.CurAddr ∧ rangesMeet p.1 p.2.GetLength st.CurAddr insn.length = false := by
        intro p hp
        rw [hcur]
        rcases hinv.fresh p hp with h | h
        · exact range_free_of_tests doc0 h0 a insn.length c hcell hval hcode p h
        · have hl := CellsWellFormed.code_length st.doc hinv.wf p hp
          refine ⟨?_, ?_⟩
          · intro e
            rw [e] at h
            omega
          · simp only [rangesMeet, Bool.and_eq_false_iff, decide_eq_false_iff_not]
            right
            omega
      have hlist := codeList_insert_instruction st.doc st.CurAddr insn hpres hfr
      have hwf1 := CellsWellFormed.insertCell st.doc st.CurAddr (Cell.instruction insn)
        (fun i hi => by cases hi; exact hlen1) hinv.wf
      have hareas1 := InsertCell_areas st.doc st.CurAddr (Cell.instruction insn)
      cases hins : st.doc.InsertCell st.CurAddr (Cell.instruction insn) with
      | mk ok d1 =>
        have hok : ok = true := by
          have := congrArg Prod.fst hins
          rw [InsertCell_eq _ _ _ hpres] at this
          exact this.symm
        have hd1 : (st.doc.InsertCell st.CurAddr (Cell.instruction insn)).2 = d1 := by
          rw [hins]
        subst hok
        rw [hd1] at hlist hwf1 hareas1
        dsimp only
        obtain ⟨x1, x2, x3⟩ := CreateXRefs_code an d1 st.CurAddr hwf1
        have hmem : (st.CurAddr, Cell.instruction insn) ∈
            (CreateXRefs an d1 st.CurAddr).codeList := by
          rw [x2, hlist]
          exact List.mem_cons_self _ _
        obtain ⟨r1, r2, r3, r4, r5, -, r7⟩ := ih (a + insn.length)
          { doc := CreateXRefs an d1 st.CurAddr,
            CurAddr := if insn.opType = OpUnknown ∨ insn.opType = OpCond then
              st.CurAddr + insn.length else st.CurAddr,
            CallStack := pushOperandReferences insn st.CurAddr st.CallStack,
            FunctionIsFinished := st.FunctionIsFinished } hrest hlenr
          ⟨x1, by rw [x3, hareas1, hinv.areas], by
            intro p hp
            rw [x2, hlist] at hp
            rcases List.mem_cons.1 hp with rfl | hp
            · refine Or.inr ⟨by rw [hcur]; rfl, ?_⟩
              show st.CurAddr.offset + insn.length ≤ a.offset + insn.length
              rw [hcur]
            · exact hnext p hp, by
            dsimp only
            split
            · exact Or.inl (by rw [hcur])
            · exact Or.inr (CellsWellFormed.containsCode _ x1 _ hmem)⟩
        dsimp only at r3 r4 r5
        have hcount : (CreateXRefs an d1 st.CurAddr).codeCount = st.doc.codeCount + 1 := by
          simp [Document.codeCount, x2, hlist]
        have hpush := pushOperandReferences_length insn st.CurAddr st.CallStack
        refine ⟨r1, r2, ?_, by omega, by omega, fun _ _ _ => by omega, ?_⟩
        · intro p hp
          apply r3
          rw [x2, hlist]
          exact List.mem_cons_of_mem _ hp
        · intro hfin last hlast hu hc
          cases rest with
          | nil =>
            simp only [List.getLast?_singleton, Option.some.injEq] at hlast
            subst hlast
            simp only [insertBasicBlock]
            rw [if_neg (fun h => h.elim hu hc)]
            refine ⟨hmem, ?_⟩
            have := codeInRange_false doc0 a insn.length hcode 0 hlen1
            rw [Address.add_zero] at this
            rw [hcur]
            exact this
          | cons r rs =>
            rw [List.getLast?_cons_cons] at hlast
            exact r7 hfin last hlast hu hc

/-! ## Theorems: termination of the driver -/

theorem addressCount_of_areas (d d2 : Document) (h : d2.areas = d.areas) :
    d2.addressCount = d.addressCount ∧ d2.endOffset = d.endOffset := by
  simp [Document.addressCount, Document.addresses, Document.endOffset, h]

/-- One iteration of the inner loop of the driver: it ends the current path, returning a state
in which nothing has been lost, or it goes on at some address with at least one instruction
more stored in the Document. -/
theorem DisassembleFollowingExecutionPath.inner_step (an : Analyzer) (rArch : Architecture)
    (hdec : ∀ s o i, rArch.Disassemble s o = some i → 0 < i.length)
    (fuel : Nat) (CurAddr : Address) (st : DriverState) (hwf : CellsWellFormed st.doc)
    (hfuel : st.doc.endOffset - CurAddr.offset < fuel) :
    (∃ st2, DisassembleFollowingExecutionPath.inner an rArch (fuel + 1) CurAddr st = some st2 ∧
      DriverStep st st2) ∨
    (∃ next st1, DisassembleFollowingExecutionPath.inner an rArch (fuel + 1) CurAddr st =
        DisassembleFollowingExecutionPath.inner an rArch fuel next st1 ∧
      DriverStep st st1 ∧ st.doc.codeCount < st1.doc.codeCount) := by
  have hrefl : DriverStep st st := ⟨hwf, rfl, fun p hp => hp, le_refl _, le_refl _⟩
  rw [DisassembleFollowingExecutionPath.inner]
  by_cases hcond : (st.doc.IsPresent CurAddr && st.doc.ContainsCode CurAddr == false) = true
  · rw [if_pos hcond]
    have hno : st.doc.ContainsCode CurAddr = false := by
      simp only [Bool.and_eq_true, beq_iff_eq] at hcond
      exact hcond.2
    obtain ⟨r, bb, hdbb⟩ := DisassembleBasicBlock_returns fuel st.doc rArch CurAddr hdec hfuel
    rw [hdbb]
    cases r with
    | false => exact Or.inl ⟨st, rfl, hrefl⟩
    | true =>
      dsimp only
      by_cases hlen0 : bb.length = 0
      · rw [if_pos hlen0]
        exact Or.inl ⟨st, rfl, hrefl⟩
      · rw [if_neg hlen0]
        have hne : bb ≠ [] := fun h => hlen0 (by rw [h]; rfl)
        obtain ⟨b1, b2, b3, b4, b5, b6, -⟩ := insertBasicBlock_code an st.doc hwf bb CurAddr
          { doc := st.doc, CurAddr := CurAddr, CallStack := st.CallStack,
            FunctionIsFinished := false }
          (DisassembleBasicBlock_free fuel st.doc rArch CurAddr true bb hdbb)
          (fun i hi => by
            obtain ⟨s, o, hso⟩ := DisassembleBasicBlock_decoded fuel st.doc rArch CurAddr true bb
              hdbb i hi
            exact hdec s o i hso)
          ⟨hwf, rfl, fun p hp => Or.inl hp, Or.inl rfl⟩
        have b7 := b6 hne rfl hno
        generalize insertBasicBlock an bb
          { doc := st.doc, CurAddr := CurAddr, CallStack := st.CallStack,
            FunctionIsFinished := false } = b at b1 b2 b3 b4 b5 b7 ⊢
        dsimp only at b3 b4 b5 b7
        have hstep : ∀ s2 : DriverState, s2.doc = b.doc →
            s2.CallStack.length ≤ b.CallStack.length + 1 → DriverStep st s2 := by
          intro s2 hd hs
          refine ⟨by rw [hd]; exact b1, by rw [hd]; exact b2, by rw [hd]; exact b3,
            by rw [hd]; exact b4, ?_⟩
          rw [hd]
          omega
        have hret : ∀ s2 : DriverState, s2.doc = b.doc →
            s2.CallStack.length ≤ b.CallStack.length + 1 →
            (∃ st2, some s2 = some st2 ∧ DriverStep st st2) ∨
            (∃ next st1, some s2 =
                DisassembleFollowingExecutionPath.inner an rArch fuel next st1 ∧
              DriverStep st st1 ∧ st.doc.codeCount < st1.doc.codeCount) :=
          fun s2 hd hs => Or.inl ⟨s2, rfl, hstep s2 hd hs⟩
        have hrec : ∀ (next : Address) (s2 : DriverState), s2.doc = b.doc →
            s2.CallStack.length ≤ b.CallStack.length + 1 →
            (∃ st2, DisassembleFollowingExecutionPath.inner an rArch fuel next s2 = some st2 ∧
              DriverStep st st2) ∨
            (∃ nx st1, DisassembleFollowingExecutionPath.inner an rArch fuel next s2 =
                DisassembleFollowingExecutionPath.inner an rArch fuel nx st1 ∧
              DriverStep st st1 ∧ st.doc.codeCount < st1.doc.codeCount) :=
          fun next s2 hd hs => Or.inr ⟨next, s2, rfl, hstep s2 hd hs, by rw [hd]; exact b7⟩
        repeat' split
        all_goals first
          | exact hret _ rfl (by simp)
          | exact hrec _ _ rfl (by simp)
  · rw [if_neg hcond]
    exact Or.inl ⟨st, rfl, hrefl⟩

theorem DriverStep.trans (st st1 st2 : DriverState) (h1 : DriverStep st st1)
    (h2 : DriverStep st1 st2) : DriverStep st st2 := by
  refine ⟨h2.wf, by rw [h2.areas, h1.areas], fun p hp => h2.kept p (h1.kept p hp),
    Nat.le_trans h1.mono h2.mono, ?_⟩
  have := h1.pushes
  have := h2.pushes
  have := h1.mono
  have := h2.mono
  omega

/-- The inner loop of the driver returns within the budget: every iteration that does not end
the path stores an instruction, and there are at most as many stored instructions as mapped
addresses. -/
theorem DisassembleFollowingExecutionPath.inner_ends (an : Analyzer) (rArch : Architecture)
    (hdec : ∀ s o i, rArch.Disassemble s o = some i → 0 < i.length) :
    ∀ (fuel : Nat) (CurAddr : Address) (st : DriverState), CellsWellFormed st.doc →
      (st.doc.addressCount - st.doc.codeCount) + st.doc.endOffset + 2 ≤ fuel →
      ∃ st2, DisassembleFollowingExecutionPath.inner an rArch fuel CurAddr st = some st2 ∧
        DriverStep st st2 := by
  intro fuel
  induction fuel with
  | zero => intro _ _ _ h; omega
  | succ fuel ih =>
    intro CurAddr st hwf hfuel
    rcases DisassembleFollowingExecutionPath.inner_step an rArch hdec fuel CurAddr st hwf
      (by omega) with ⟨st2, h1, h2⟩ | ⟨next, st1, h1, h2, h3⟩
    · exact ⟨st2, h1, h2⟩
    · have hle := CellsWellFormed.codeCount_le st1.doc h2.wf
      obtain ⟨hN, hE⟩ := addressCount_of_areas st.doc st1.doc h2.areas
      obtain ⟨st2, e1, e2⟩ := ih next st1 h2.wf (by rw [hN, hE]; omega)
      exact ⟨st2, by rw [h1, e1], DriverStep.trans st st1 st2 h2 e2⟩

/-- The outer loop of the driver returns within the budget, with an empty stack. -/
theorem DisassembleFollowingExecutionPath.outer_ends (an : Analyzer) (rArch : Architecture)
    (hdec : ∀ s o i, rArch.Disassemble s o = some i → 0 < i.length) :
    ∀ (fuel : Nat) (st : DriverState), CellsWellFormed st.doc →
      st.CallStack.length + 6 * (st.doc.addressCount - st.doc.codeCount) +
        st.doc.endOffset + 3 ≤ fuel →
      ∃ st2, DisassembleFollowingExecutionPath.outer an rArch fuel st = some st2 ∧
        st2.CallStack = [] ∧ CellsWellFormed st2.doc ∧ st2.doc.areas = st.doc.areas ∧
        (∀ p ∈ st.doc.codeList, p ∈ st2.doc.codeList) := by
  intro fuel
  induction fuel with
  | zero => intro _ _ h; omega
  | succ fuel ih =>
    intro st hwf hfuel
    rw [DisassembleFollowingExecutionPath.outer]
    cases hs : st.CallStack with
    | nil => exact ⟨st, rfl, hs, hwf, rfl, fun p hp => hp⟩
    | cons CurAddr rest =>
      dsimp only
      rw [hs] at hfuel
      simp only [List.length_cons] at hfuel
      obtain ⟨st1, e1, e2⟩ := DisassembleFollowingExecutionPath.inner_ends an rArch hdec fuel
        CurAddr { st with CallStack := rest } hwf (by dsimp only; omega)
      rw [e1]
      dsimp only
      have hle := CellsWellFormed.codeCount_le st1.doc e2.wf
      obtain ⟨hN, hE⟩ := addressCount_of_areas st.doc st1.doc e2.areas
      have hp := e2.pushes
      have hm := e2.mono
      dsimp only at hp hm
      obtain ⟨st2, f1, f2, f3, f4, f5⟩ := ih st1 e2.wf (by rw [hN, hE]; omega)
      exact ⟨st2, f1, f2, f3, by rw [f4]; exact e2.areas, fun p hp2 => f5 p (e2.kept p hp2)⟩

/-! ## Theorems: termination of the function delimiter and of the graph builder -/

theorem unvisitedCode_mul (doc : Document) (V : List Address) (a : Address)
    (insn : Instruction) (h : doc.RetrieveInstruction a = some insn)
    (hv : ¬ V.contains a = true) (b : Address) :
    unvisitedCode doc (a :: V) * (doc.endOffset + 1) + (doc.endOffset - b.offset) + 1 ≤
      unvisitedCode doc V * (doc.endOffset + 1) ∧
    unvisitedCode doc (a :: V) + 1 ≤ unvisitedCode doc V := by
  have hU := unvisitedCode_visit doc V a insn h (fun hm => hv ((contains_eq_true_iff _ _).2 hm))
  have hmul := Nat.mul_le_mul_right (doc.endOffset + 1) hU
  rw [Nat.add_mul, Nat.one_mul] at hmul
  exact ⟨by omega, hU⟩

/-- One iteration of the inner loop of `ComputeFunctionLength`, for every threshold: it
returns, or it goes on with a smaller measure; the stack grows by no more than the number of
newly visited instructions. -/
theorem ComputeFunctionLength.inner_progress (doc : Document) (T : Nat)
    (hlen : doc.codeHasLength = true) (fuel : Nat) (CurAddr : Address) (st : LengthState) :
    (∃ r, ComputeFunctionLength.inner doc T (fuel + 1) CurAddr st = some r ∧
      r.2.CallStack.length + unvisitedCode doc r.2.VisitedInstruction ≤
        st.CallStack.length + unvisitedCode doc st.VisitedInstruction ∧
      unvisitedCode doc r.2.VisitedInstruction ≤ unvisitedCode doc st.VisitedInstruction) ∨
    (∃ next st1, ComputeFunctionLength.inner doc T (fuel + 1) CurAddr st =
        ComputeFunctionLength.inner doc T fuel next st1 ∧
      st1.CallStack.length + unvisitedCode doc st1.VisitedInstruction ≤
        st.CallStack.length + unvisitedCode doc st.VisitedInstruction ∧
      unvisitedCode doc st1.VisitedInstruction ≤ unvisitedCode doc st.VisitedInstruction ∧
      unvisitedCode doc st1.VisitedInstruction * (doc.endOffset + 1) +
          (doc.endOffset - next.offset) <
        unvisitedCode doc st.VisitedInstruction * (doc.endOffset + 1) +
          (doc.endOffset - CurAddr.offset)) := by
  rw [ComputeFunctionLength.inner]
  cases hri : doc.RetrieveInstruction CurAddr with
  | none => exact Or.inl ⟨_, rfl, le_refl _, le_refl _⟩
  | some rInsn =>
    have hl := instruction_length_pos doc hlen CurAddr rInsn hri
    have hoff := doc.offset_lt_endOffset CurAddr (RetrieveInstruction_stored doc _ _ hri).1
    dsimp only
    by_cases hvis : st.VisitedInstruction.contains CurAddr = true
    · rw [if_pos hvis]
      refine Or.inr ⟨_, _, rfl, le_refl _, le_refl _, ?_⟩
      show _ + (doc.endOffset - (CurAddr.offset + rInsn.length)) < _
      omega
    · rw [if_neg hvis]
      have hm := fun b => unvisitedCode_mul doc st.VisitedInstruction CurAddr rInsn hri hvis b
      have hret : ∀ (flag : Bool) (s2 : LengthState),
          s2.VisitedInstruction = CurAddr :: st.VisitedInstruction →
          s2.CallStack.length ≤ st.CallStack.length + 1 →
          (∃ r, some (flag, s2) = some r ∧
            r.2.CallStack.length + unvisitedCode doc r.2.VisitedInstruction ≤
              st.CallStack.length + unvisitedCode doc st.VisitedInstruction ∧
            unvisitedCode doc r.2.VisitedInstruction ≤
              unvisitedCode doc st.VisitedInstruction) ∨
          (∃ next st1, some (flag, s2) = ComputeFunctionLength.inner doc T fuel next st1 ∧
            st1.CallStack.length + unvisitedCode doc st1.VisitedInstruction ≤
              st.CallStack.length + unvisitedCode doc st.VisitedInstruction ∧
            unvisitedCode doc st1.VisitedInstruction ≤
              unvisitedCode doc st.VisitedInstruction ∧
            unvisitedCode doc st1.VisitedInstruction * (doc.endOffset + 1) +
                (doc.endOffset - next.offset) <
              unvisitedCode doc st.VisitedInstruction * (doc.endOffset + 1) +
                (doc.endOffset - CurAddr.offset)) := by
        intro flag s2 hV hS
        refine Or.inl ⟨_, rfl, ?_, ?_⟩
        · dsimp only
          rw [hV]
          have := (hm CurAddr).2
          omega
        · dsimp only
          rw [hV]
          have := (hm CurAddr).2
          omega
      have hrec : ∀ (next : Address) (s2 : LengthState),
          s2.VisitedInstruction = CurAddr :: st.VisitedInstruction →
          s2.CallStack.length ≤ st.CallStack.length + 1 →
          (∃ r, ComputeFunctionLength.inner doc T fuel next s2 = some r ∧
            r.2.CallStack.length + unvisitedCode doc r.2.VisitedInstruction ≤
              st.CallStack.length + unvisitedCode doc st.VisitedInstruction ∧
            unvisitedCode doc r.2.VisitedInstruction ≤
              unvisitedCode doc st.VisitedInstruction) ∨
          (∃ nx st1, ComputeFunctionLength.inner doc T fuel next s2 =
              ComputeFunctionLength.inner doc T fuel nx st1 ∧
            st1.CallStack.length + unvisitedCode doc st1.VisitedInstruction ≤
              st.CallStack.length + unvisitedCode doc st.VisitedInstruction ∧
            unvisitedCode doc st1.VisitedInstruction ≤
              unvisitedCode doc st.VisitedInstruction ∧
            unvisitedCode doc st1.VisitedInstruction * (doc.endOffset + 1) +
                (doc.endOffset - nx.offset) <
              unvisitedCode doc st.VisitedInstruction * (doc.endOffset + 1) +
                (doc.endOffset - CurAddr.offset)) := by
        intro next s2 hV hS
        refine Or.inr ⟨next, s2, rfl, ?_, ?_, ?_⟩
        · rw [hV]
          have := (hm CurAddr).2
          omega
        · rw [hV]
          have := (hm CurAddr).2
          omega
        · rw [hV]
          have := (hm next).1
          omega
      repeat' split
      all_goals first
        | exact hret _ _ rfl (by simp)
        | exact hrec _ _ rfl (by simp)

/-- The inner loop of `ComputeFunctionLength` returns within the budget, for every
threshold. -/
theorem ComputeFunctionLength.inner_returns (doc : Document) (T : Nat)
    (hlen : doc.codeHasLength = true) :
    ∀ (fuel : Nat) (CurAddr : Address) (st : LengthState),
      unvisitedCode doc st.VisitedInstruction * (doc.endOffset + 1) +
        (doc.endOffset - CurAddr.offset) < fuel →
      ∃ r, ComputeFunctionLength.inner doc T fuel CurAddr st = some r ∧
        r.2.CallStack.length + unvisitedCode doc r.2.VisitedInstruction ≤
          st.CallStack.length + unvisitedCode doc st.VisitedInstruction ∧
        unvisitedCode doc r.2.VisitedInstruction ≤ unvisitedCode doc st.VisitedInstruction := by
  intro fuel
  induction fuel with
  | zero => intro _ _ h; omega
  | succ fuel ih =>
    intro CurAddr st hf
    rcases ComputeFunctionLength.inner_progress doc T hlen fuel CurAddr st with
      ⟨r, h1, h2, h3⟩ | ⟨next, st1, h1, h2, h3, h4⟩
    · exact ⟨r, h1, h2, h3⟩
    · obtain ⟨r, e1, e2, e3⟩ := ih next st1 (by omega)
      exact ⟨r, by rw [h1, e1], by omega, by omega⟩

/-- The outer loop of `ComputeFunctionLength` returns within the budget, for every
threshold. -/
theorem ComputeFunctionLength.outer_returns (doc : Document) (T : Nat)
    (hlen : doc.codeHasLength = true) :
    ∀ (fuel : Nat) (st : LengthState),
      (st.CallStack.length + unvisitedCode doc st.VisitedInstruction) +
        unvisitedCode doc st.VisitedInstruction * (doc.endOffset + 1) +
        doc.endOffset + 2 ≤ fuel →
      ∃ r, ComputeFunctionLength.outer doc T fuel st = some r := by
  intro fuel
  induction fuel with
  | zero => intro _ h; omega
  | succ fuel ih =>
    intro st hf
    rw [ComputeFunctionLength.outer]
    cases hs : st.CallStack with
    | nil => exact ⟨_, rfl⟩
    | cons CurAddr rest =>
      dsimp only
      rw [hs] at hf
      simp only [List.length_cons] at hf
      obtain ⟨r, h1, h2, h3⟩ := ComputeFunctionLength.inner_returns doc T hlen fuel CurAddr
        { st with CallStack := rest } (by dsimp only; omega)
      obtain ⟨flag, st1⟩ := r
      rw [h1]
      dsimp only at h2 h3 ⊢
      cases flag with
      | true => exact ⟨_, rfl⟩
      | false =>
        have hmul := Nat.mul_le_mul_right (doc.endOffset + 1) h3
        exact ih st1 (by omega)

theorem budget_bound (doc : Document) (fuel : Nat)
    (hfuel : ComputeFunctionLength.budget doc ≤ fuel) :
    (1 + unvisitedCode doc []) + unvisitedCode doc [] * (doc.endOffset + 1) +
      doc.endOffset + 2 ≤ fuel := by
  have hU : unvisitedCode doc [] ≤ doc.cells.length := List.countP_le_length _
  have e1 := Nat.mul_le_mul_right (doc.endOffset + 2) hU
  have e2 : unvisitedCode doc [] * (doc.endOffset + 2) =
      unvisitedCode doc [] * (doc.endOffset + 1) + unvisitedCode doc [] := by ring
  have e3 : (doc.cells.length + 1) * (doc.endOffset + 2) =
      doc.cells.length * (doc.endOffset + 2) + (doc.endOffset + 2) := by ring
  have hb : ComputeFunctionLength.budget doc =
      (doc.cells.length + 1) * (doc.endOffset + 2) + 1 := rfl
  omega

/-- `ComputeFunctionLength` returns within the budget, for every threshold. -/
theorem ComputeFunctionLength_returns (fuel : Nat) (doc : Document) (rAddr : Address) (T : Nat)
    (hlen : doc.codeHasLength = true) (hfuel : ComputeFunctionLength.budget doc ≤ fuel) :
    ∃ r, ComputeFunctionLength fuel doc rAddr T = some r := by
  unfold ComputeFunctionLength
  split
  · exact ⟨_, rfl⟩
  · split
    · exact ⟨_, rfl⟩
    · obtain ⟨r, hr⟩ := ComputeFunctionLength.outer_returns doc T hlen fuel
        { CallStack := [rAddr], VisitedInstruction := [], RetReached := false,
          FuncLen := 0, EndAddr := rAddr, rFunctionLength := 0, rInstructionCounter := 0 }
        (by simp only [List.length_singleton]; exact budget_bound doc fuel hfuel)
      rw [hr]
      exact ⟨_, rfl⟩

/-- One iteration of the inner loop of `BuildControlFlowGraph`: it returns, or it goes on
with a smaller measure; the stack grows by no more than the number of newly visited
instructions. -/
theorem BuildControlFlowGraph.inner_advances (doc : Document)
    (hlen : doc.codeHasLength = true) (fuel : Nat) (CurAddr : Address) (st : CfgState) :
    (∃ r, BuildControlFlowGraph.inner doc (fuel + 1) CurAddr st = some r ∧
      r.CallStack.length + unvisitedCode doc r.VisitedInstruction ≤
        st.CallStack.length + unvisitedCode doc st.VisitedInstruction ∧
      unvisitedCode doc r.VisitedInstruction ≤ unvisitedCode doc st.VisitedInstruction) ∨
    (∃ next st1, BuildControlFlowGraph.inner doc (fuel + 1) CurAddr st =
        BuildControlFlowGraph.inner doc fuel next st1 ∧
      st1.CallStack.length + unvisitedCode doc st1.VisitedInstruction ≤
        st.CallStack.length + unvisitedCode doc st.VisitedInstruction ∧
      unvisitedCode doc st1.VisitedInstruction ≤ unvisitedCode doc st.VisitedInstruction ∧
      unvisitedCode doc st1.VisitedInstruction * (doc.endOffset + 1) +
          (doc.endOffset - next.offset) <
        unvisitedCode doc st.VisitedInstruction * (doc.endOffset + 1) +
          (doc.endOffset - CurAddr.offset)) := by
  rw [BuildControlFlowGraph.inner]
  cases hri : doc.RetrieveInstruction CurAddr with
  | none => exact Or.inl ⟨_, rfl, le_refl _, le_refl _⟩
  | some rInsn =>
    have hl := instruction_length_pos doc hlen CurAddr rInsn hri
    have hoff := doc.offset_lt_endOffset CurAddr (RetrieveInstruction_stored doc _ _ hri).1
    dsimp only
    by_cases hvis : st.VisitedInstruction.contains CurAddr = true
    · rw [if_pos hvis]
      split
      · exact Or.inl ⟨_, rfl, le_refl _, le_refl _⟩
      · refine Or.inr ⟨_, _, rfl, le_refl _, le_refl _, ?_⟩
        show _ + (doc.endOffset - (CurAddr.offset + rInsn.length)) < _
        omega
    · rw [if_neg hvis]
      have hm := fun b => unvisitedCode_mul doc st.VisitedInstruction CurAddr rInsn hri hvis b
      have hret : ∀ (s2 : CfgState),
          s2.VisitedInstruction = CurAddr :: st.VisitedInstruction →
          s2.CallStack.length ≤ st.CallStack.length + 1 →
          (∃ r, some s2 = some r ∧
            r.CallStack.length + unvisitedCode doc r.VisitedInstruction ≤
              st.CallStack.length + unvisitedCode doc st.VisitedInstruction ∧
            unvisitedCode doc r.VisitedInstruction ≤
              unvisitedCode doc st.VisitedInstruction) ∨
          (∃ next st1, some s2 = BuildControlFlowGraph.inner doc fuel next st1 ∧
            st1.CallStack.length + unvisitedCode doc st1.VisitedInstruction ≤
              st.CallStack.length + unvisitedCode doc st.VisitedInstruction ∧
            unvisitedCode doc st1.VisitedInstruction ≤
              unvisitedCode doc st.VisitedInstruction ∧
            unvisitedCode doc st1.VisitedInstruction * (doc.endOffset + 1) +
                (doc.endOffset - next.offset) <
              unvisitedCode doc st.VisitedInstruction * (doc.endOffset + 1) +
                (doc.endOffset - CurAddr.offset)) := by
        intro s2 hV hS
        refine Or.inl ⟨_, rfl, ?_, ?_⟩
        · rw [hV]
          have := (hm CurAddr).2
          omega
        · rw [hV]
          have := (hm CurAddr).2
          omega
      have hrec : ∀ (next : Address) (s2 : CfgState),
          s2.VisitedInstruction = CurAddr :: st.VisitedInstruction →
          s2.CallStack.length ≤ st.CallStack.length + 1 →
          (∃ r, BuildControlFlowGraph.inner doc fuel next s2 = some r ∧
            r.CallStack.length + unvisitedCode doc r.VisitedInstruction ≤
              st.CallStack.length + unvisitedCode doc st.VisitedInstruction ∧
            unvisitedCode doc r.VisitedInstruction ≤
              unvisitedCode doc st.VisitedInstruction) ∨
          (∃ nx st1, BuildControlFlowGraph.inner doc fuel next s2 =
              BuildControlFlowGraph.inner doc fuel nx st1 ∧
            st1.CallStack.length + unvisitedCode doc st1.VisitedInstruction ≤
              st.CallStack.length + unvisitedCode doc st.VisitedInstruction ∧
            unvisitedCode doc st1.VisitedInstruction ≤
              unvisitedCode doc st.VisitedInstruction ∧
            unvisitedCode doc st1.VisitedInstruction * (doc.endOffset + 1) +
                (doc.endOffset - nx.offset) <
              unvisitedCode doc st.VisitedInstruction * (doc.endOffset + 1) +
                (doc.endOffset - CurAddr.offset)) := by
        intro next s2 hV hS
        refine Or.inr ⟨next, s2, rfl, ?_, ?_, ?_⟩
        · rw [hV]
          have := (hm CurAddr).2
          omega
        · rw [hV]
          have := (hm CurAddr).2
          omega
        · rw [hV]
          have := (hm next).1
          omega
      repeat' split
      all_goals first
        | exact hret _ rfl (by simp)
        | exact hrec _ _ rfl (by simp)

/-- The inner loop of `BuildControlFlowGraph` returns within the budget. -/
theorem BuildControlFlowGraph.inner_halts (doc : Document)
    (hlen : doc.codeHasLength = true) :
    ∀ (fuel : Nat) (CurAddr : Address) (st : CfgState),
      unvisitedCode doc st.VisitedInstruction * (doc.endOffset + 1) +
        (doc.endOffset - CurAddr.offset) < fuel →
      ∃ r, BuildControlFlowGraph.inner doc fuel CurAddr st = some r ∧
        r.CallStack.length + unvisitedCode doc r.VisitedInstruction ≤
          st.CallStack.length + unvisitedCode doc st.VisitedInstruction ∧
        unvisitedCode doc r.VisitedInstruction ≤ unvisitedCode doc st.VisitedInstruction := by
  intro fuel
  induction fuel with
  | zero => intro _ _ h; omega
  | succ fuel ih =>
    intro CurAddr st hf
    rcases BuildControlFlowGraph.inner_advances doc hlen fuel CurAddr st with
      ⟨r, h1, h2, h3⟩ | ⟨next, st1, h1, h2, h3, h4⟩
    · exact ⟨r, h1, h2, h3⟩
    · obtain ⟨r, e1, e2, e3⟩ := ih next st1 (by omega)
      exact ⟨r, by rw [h1, e1], by omega, by omega⟩

/-- The outer loop of `BuildControlFlowGraph` returns within the budget. -/
theorem BuildControlFlowGraph.outer_halts (doc : Document)
    (hlen : doc.codeHasLength = true) :
    ∀ (fuel : Nat) (st : CfgState),
      (st.CallStack.length + unvisitedCode doc st.VisitedInstruction) +
        unvisitedCode doc st.VisitedInstruction * (doc.endOffset + 1) +
        doc.endOffset + 2 ≤ fuel →
      ∃ r, BuildControlFlowGraph.outer doc fuel st = some r := by
  intro fuel
  induction fuel with
  | zero => intro _ h; omega
  | succ fuel ih =>
    intro st hf
    rw [BuildControlFlowGraph.outer]
    cases hs : st.CallStack with
    | nil => exact ⟨_, rfl⟩
    | cons CurAddr rest =>
      dsimp only
      rw [hs] at hf
      simp only [List.length_cons] at hf
      obtain ⟨r, h1, h2, h3⟩ := BuildControlFlowGraph.inner_halts doc hlen fuel CurAddr
        { st with CallStack := rest } (by dsimp only; omega)
      rw [h1]
      dsimp only at h2 h3 ⊢
      have hmul := Nat.mul_le_mul_right (doc.endOffset + 1) h3
      exact ih r (by omega)

/-- `BuildControlFlowGraph` returns within the budget. -/
theorem BuildControlFlowGraph_returns (fuel : Nat) (doc : Document) (rAddr : Address)
    (rCfg : ControlFlowGraph)
    (hlen : doc.codeHasLength = true) (hfuel : ComputeFunctionLength.budget doc ≤ fuel) :
    ∃ r, BuildControlFlowGraph fuel doc rAddr rCfg = some r := by
  unfold BuildControlFlowGraph
  split
  · exact ⟨_, rfl⟩
  · obtain ⟨r, hr⟩ := BuildControlFlowGraph.outer_halts doc hlen fuel
      { CallStack := [rAddr], Addresses := [], Edges := [], VisitedInstruction := [],
        RetReached := false }
      (by simp only [List.length_singleton]; exact budget_bound doc fuel hfuel)
    rw [hr]
    exact ⟨_, rfl⟩

theorem InsertMultiCell_cells (d : Document) (a : Address) (f : Function) (force : Bool) :
    (d.InsertMultiCell a f force).2.cells = d.cells ∧
      (d.InsertMultiCell a f force).2.areas = d.areas := by
  unfold Document.InsertMultiCell
  split
  · exact ⟨rfl, rfl⟩
  · exact ⟨rfl, rfl⟩

/-- `CreateFunction` returns within the budget and leaves the cells and the memory areas as
they are. -/
theorem CreateFunction_returns (fuel : Nat) (an : Analyzer) (view : Cell → Instruction)
    (doc : Document) (rAddr : Address)
    (hlen : doc.codeHasLength = true) (hfuel : ComputeFunctionLength.budget doc ≤ fuel) :
    ∃ r d2, CreateFunction fuel an view doc rAddr = some (r, d2) ∧ d2.cells = doc.cells ∧
      d2.areas = doc.areas := by
  obtain ⟨r1, h1⟩ := ComputeFunctionLength_returns fuel doc rAddr 0x1000 hlen hfuel
  obtain ⟨r2, h2⟩ := BuildControlFlowGraph_returns fuel doc rAddr ⟨[], []⟩ hlen hfuel
  simp only [CreateFunction]
  rw [h1]
  obtain ⟨flag, FuncLen, InsnCnt⟩ := r1
  cases flag with
  | true =>
    dsimp only
    rw [h2]
    obtain ⟨flag2, Cfg⟩ := r2
    cases flag2 with
    | false => exact ⟨_, _, rfl, rfl, rfl⟩
    | true =>
      refine ⟨_, _, rfl, ?_, ?_⟩
      · rw [(AddLabel_cells _ _ _ _).1]
        exact (InsertMultiCell_cells _ _ _ _).1
      · rw [(AddLabel_cells _ _ _ _).2]
        exact (InsertMultiCell_cells _ _ _ _).2
  | false =>
    dsimp only
    repeat' split
    all_goals first
      | exact ⟨_, _, rfl, rfl, rfl⟩
      | exact ⟨_, _, rfl, (AddLabel_cells _ _ _ _).1, (AddLabel_cells _ _ _ _).2⟩

theorem budget_of_cells (d d2 : Document) (hc : d2.cells = d.cells) (ha : d2.areas = d.areas) :
    ComputeFunctionLength.budget d2 = ComputeFunctionLength.budget d ∧
      d2.codeHasLength = d.codeHasLength := by
  unfold ComputeFunctionLength.budget Document.codeHasLength Document.endOffset
  rw [hc, ha]
  exact ⟨rfl, rfl⟩

/-- The final loop over the call targets returns within the budget and leaves the cells and
the memory areas as they are. -/
theorem createFunctions_returns (fuel : Nat) (an : Analyzer) (view : Cell → Instruction) :
    ∀ (l : List Address) (doc : Document), doc.codeHasLength = true →
      ComputeFunctionLength.budget doc ≤ fuel →
      ∃ d2, createFunctions fuel an view l doc = some d2 ∧ d2.cells = doc.cells ∧
        d2.areas = doc.areas := by
  intro l
  induction l with
  | nil => intro doc _ _; exact ⟨doc, rfl, rfl, rfl⟩
  | cons a rest ih =>
    intro doc hlen hfuel
    obtain ⟨r, d1, h1, hc, ha⟩ := CreateFunction_returns fuel an view doc a hlen hfuel
    obtain ⟨hb, hl⟩ := budget_of_cells doc d1 hc ha
    obtain ⟨d2, h2, hc2, ha2⟩ := ih d1 (by rw [hl]; exact hlen) (by rw [hb]; exact hfuel)
    refine ⟨d2, ?_, by rw [hc2, hc], by rw [ha2, ha]⟩
    rw [createFunctions, h1]
    exact h2

/-- Every instruction the example decoder returns occupies at least one address. -/
theorem toyDisassemble_length (s : List Nat) (o : Nat) (i : Instruction)
    (h : toyArch.Disassemble s o = some i) : 0 < i.length := by
  have h2 : toyDisassemble s o = some i := h
  unfold toyDisassemble at h2
  repeat' split at h2
  all_goals first
    | (cases h2; done)
    | (cases h2; decide)
    | (cases h2; simp)

theorem rawDocument_wellFormed (areas : List MemoryArea) : CellsWellFormed (rawDocument areas) :=
  ⟨List.Pairwise.nil, fun p hp => (by cases hp), rfl⟩

theorem driver_budget_bound (L N c E fuel : Nat) (hL : L ≤ N)
    (hfuel : (N + 1) * (E + 8) + 4 ≤ fuel) :
    1 + 6 * (N - c) + E + 3 ≤ fuel ∧ (L + 1) * (E + 2) + 1 ≤ fuel ∧ (N - c) + E + 2 ≤ fuel := by
  have e1 : (N + 1) * (E + 8) = N * E + 8 * N + E + 8 := by ring
  have e2 : (L + 1) * (E + 2) ≤ (N + 1) * (E + 2) :=
    Nat.mul_le_mul_right _ (Nat.succ_le_succ hL)
  have e3 : (N + 1) * (E + 2) = N * E + 2 * N + E + 2 := by ring
  refine ⟨by omega, by omega, by omega⟩

/-- C22: the execution-path driver terminates. For every Document whose cells are well
formed (its memory areas map finitely many addresses), every architecture whose decoded
instructions have length at least 1 and every entry, `DisassembleFollowingExecutionPath`
returns within the budget, and so do its worklist loops, which end with an empty stack and
have removed no stored instruction. Each iteration of the inner loop ends the current path or
goes on with at least one instruction more stored and none removed; every instruction of a
decoded block was decoded at an address whose range held no code, so an address that contains
code is not decoded again; and a run of the inner loop pushes at most five addresses for each
instruction it stores. -/
theorem C22_driver_terminates (an : Analyzer) (view : Cell → Instruction)
    (rArch : Architecture) (doc : Document) (rEntrypoint : Address) (fuel : Nat)
    (hdec : ∀ s o i, rArch.Disassemble s o = some i → 0 < i.length)
    (hwf : CellsWellFormed doc)
    (hfuel : DisassembleFollowingExecutionPath.budget doc ≤ fuel) :
    (∃ d, DisassembleFollowingExecutionPath fuel an view doc rEntrypoint rArch = some d) ∧
    (∃ st, DisassembleFollowingExecutionPath.outer an rArch fuel
        { doc := doc, CallStack := [rEntrypoint], FuncAddr := [] } = some st ∧
      st.CallStack = [] ∧ CellsWellFormed st.doc ∧
      (∀ p ∈ doc.codeList, p ∈ st.doc.codeList)) ∧
    (∀ (n : Nat) (CurAddr : Address) (st : DriverState), CellsWellFormed st.doc →
      st.doc.endOffset - CurAddr.offset < n →
      (∃ st2, DisassembleFollowingExecutionPath.inner an rArch (n + 1) CurAddr st = some st2 ∧
        DriverStep st st2) ∨
      (∃ next st1, DisassembleFollowingExecutionPath.inner an rArch (n + 1) CurAddr st =
          DisassembleFollowingExecutionPath.inner an rArch n next st1 ∧
        DriverStep st st1 ∧ st.doc.codeCount < st1.doc.codeCount)) ∧
    (∀ (n : Nat) (d : Document) (a : Address) (r : Bool) (bb : List Instruction),
      DisassembleBasicBlock n d rArch a [] = some (r, bb) → BlockFree d a bb) ∧
    (∀ (CurAddr : Address) (st : DriverState), CellsWellFormed st.doc →
      st.doc.areas = doc.areas →
      ∃ st2, DisassembleFollowingExecutionPath.inner an rArch fuel CurAddr st = some st2 ∧
        st2.CallStack.length + 5 * st.doc.codeCount ≤
          st.CallStack.length + 5 * st2.doc.codeCount) := by
  have hb : DisassembleFollowingExecutionPath.budget doc =
      (doc.addressCount + 1) * (doc.endOffset + 8) + 4 := rfl
  rw [hb] at hfuel
  have hL := CellsWellFormed.cells_le doc hwf
  obtain ⟨st, hst, hstack, hwf2, hareas, hkept⟩ :=
    DisassembleFollowingExecutionPath.outer_ends an rArch hdec fuel
      { doc := doc, CallStack := [rEntrypoint], FuncAddr := [] } hwf
      (by
        simp only [List.length_singleton]
        exact (driver_budget_bound _ _ doc.codeCount _ _ hL hfuel).1)
  dsimp only at hareas hkept
  refine ⟨?_, ⟨st, hst, hstack, hwf2, hkept⟩, ?_, ?_, ?_⟩
  · unfold DisassembleFollowingExecutionPath
    split
    · exact ⟨_, rfl⟩
    · split
      · exact ⟨_, rfl⟩
      · rw [hst]
        dsimp only
        obtain ⟨hN, hE⟩ := addressCount_of_areas doc st.doc hareas
        obtain ⟨d2, h2, -, -⟩ := createFunctions_returns fuel an view st.FuncAddr st.doc hwf2.length
          (by
            have hL2 := CellsWellFormed.cells_le st.doc hwf2
            rw [hN] at hL2
            have := (driver_budget_bound _ _ 0 _ _ hL2 hfuel).2.1
            show (st.doc.cells.length + 1) * (st.doc.endOffset + 2) + 1 ≤ fuel
            rw [hE]
            exact this)
        exact ⟨d2, h2⟩
  · intro n CurAddr s hs hn
    exact DisassembleFollowingExecutionPath.inner_step an rArch hdec n CurAddr s hs hn
  · intro n d a r bb h
    exact DisassembleBasicBlock_free n d rArch a r bb h
  · intro CurAddr s hs ha
    obtain ⟨hN, hE⟩ := addressCount_of_areas doc s.doc ha
    obtain ⟨st2, h1, h2⟩ := DisassembleFollowingExecutionPath.inner_ends an rArch hdec fuel
      CurAddr s hs
      (by
        rw [hN, hE]
        exact (driver_budget_bound _ _ s.doc.codeCount _ _ hL hfuel).2.2)
    exact ⟨st2, h1, h2.pushes⟩

/-- C22, at concrete inputs: on `call 0:1000; ret` at `0:1000`, whose call targets itself, the
driver returns within the budget, and so do its worklist loops, with an empty stack; ten
iterations are in fact enough, and the call and the return are then stored at `0:1000` and
`0:1005`. -/
theorem C22_driver_terminates_witness :
    (∀ s o i, toyArch.Disassemble s o = some i → 0 < i.length) ∧
    CellsWellFormed selfCallDoc ∧
    (DisassembleFollowingExecutionPath.budget selfCallDoc ≤
      DisassembleFollowingExecutionPath.budget selfCallDoc) ∧
    (∃ d, DisassembleFollowingExecutionPath
      (DisassembleFollowingExecutionPath.budget selfCallDoc) Analyzer.initial blankView
      selfCallDoc ⟨0, 1000⟩ toyArch = some d) ∧
    (∃ st, DisassembleFollowingExecutionPath.outer Analyzer.initial toyArch
        (DisassembleFollowingExecutionPath.budget selfCallDoc)
        { doc := selfCallDoc, CallStack := [⟨0, 1000⟩], FuncAddr := [] } = some st ∧
      st.CallStack = [] ∧ CellsWellFormed st.doc ∧
      (∀ p ∈ selfCallDoc.codeList, p ∈ st.doc.codeList)) ∧
    (DisassembleFollowingExecutionPath 10 Analyzer.initial blankView selfCallDoc ⟨0, 1000⟩
        toyArch).map
      (fun d => d.cells.map (fun p => (p.1, p.2.GetLength, p.2.isInstruction))) =
      some [(⟨0, 1005⟩, 1, true), (⟨0, 1000⟩, 5, true)] :=
  ⟨toyDisassemble_length, rawDocument_wellFormed _, le_refl _,
    (C22_driver_terminates Analyzer.initial blankView toyArch selfCallDoc ⟨0, 1000⟩
      (DisassembleFollowingExecutionPath.budget selfCallDoc) toyDisassemble_length
      (rawDocument_wellFormed _) (le_refl _)).1,
    (C22_driver_terminates Analyzer.initial blankView toyArch selfCallDoc ⟨0, 1000⟩
      (DisassembleFollowingExecutionPath.budget selfCallDoc) toyDisassemble_length
      (rawDocument_wellFormed _) (le_refl _)).2.1,
    by decide⟩

/-! ## Theorems: function discovery by the driver -/

theorem RetrieveInstruction_of_codeList (doc : Document) (h : CellsWellFormed doc)
    (a : Address) (insn : Instruction) (hmem : (a, Cell.instruction insn) ∈ doc.codeList) :
    doc.RetrieveInstruction a = some insn := by
  have hc := CellsWellFormed.retrieve doc h a _ (List.mem_filter.1 hmem).1
  simp [Document.RetrieveInstruction, hc]

theorem mem_codeList_of_RetrieveInstruction (doc : Document) (a : Address)
    (insn : Instruction) (h : doc.RetrieveInstruction a = some insn) :
    (a, Cell.instruction insn) ∈ doc.codeList :=
  List.mem_filter.2 ⟨(RetrieveInstruction_stored doc a insn h).2, rfl⟩

/-- A discovered call target stays one when the Document grows by stored instructions. -/
theorem IsDiscoveredCallTarget.mono (rArch : Architecture) (doc0 doc doc2 : Document)
    (h2 : CellsWellFormed doc2) (hkept : ∀ p ∈ doc.codeList, p ∈ doc2.codeList) (d : Address)
    (h : IsDiscoveredCallTarget rArch doc0 doc d) : IsDiscoveredCallTarget rArch doc0 doc2 d := by
  obtain ⟨insn, cur, hri, hno, hdec, hsel, href⟩ := h
  exact ⟨insn, cur, RetrieveInstruction_of_codeList doc2 h2 cur insn
    (hkept _ (mem_codeList_of_RetrieveInstruction doc cur insn hri)), hno, hdec, hsel, href⟩

/-- The inner loops of the two traversals and of `meetsCfgGuard` run in step: when
`meetsCfgGuard` runs out of budget so does `ComputeFunctionLength`, and when it ends without
having met a guard both traversals end, in states that agree. -/
theorem meetsCfgGuard.inner_spec (doc : Document) :
    ∀ (fuel : Nat) (CurAddr : Address) (stL : LengthState) (stC : CfgState)
      (S0 V0 : List Address), S0 = stL.CallStack → V0 = stL.VisitedInstruction →
      TraversalSim stL stC →
      (meetsCfgGuard.inner doc fuel CurAddr S0 V0 = none →
        ComputeFunctionLength.inner doc 0 fuel CurAddr stL = none) ∧
      (∀ S V, meetsCfgGuard.inner doc fuel CurAddr S0 V0 = some (false, S, V) →
        ∃ stL2 stC2, ComputeFunctionLength.inner doc 0 fuel CurAddr stL = some (false, stL2) ∧
          BuildControlFlowGraph.inner doc fuel CurAddr stC = some stC2 ∧
          TraversalSim stL2 stC2 ∧ stL2.CallStack = S ∧ stL2.VisitedInstruction = V) := by
  intro fuel
  induction fuel with
  | zero =>
    intro CurAddr stL stC S0 V0 _ _ _
    exact ⟨fun _ => rfl, fun S V h => (by cases h)⟩
  | succ fuel ih =>
    intro CurAddr stL stC S0 V0 hS hV hsim
    subst hS hV
    rw [meetsCfgGuard.inner, ComputeFunctionLength.inner, BuildControlFlowGraph.inner]
    cases hri : doc.RetrieveInstruction CurAddr with
    | none =>
      dsimp only
      refine ⟨fun h => (by cases h), fun S V h => ?_⟩
      simp only [Option.some.injEq, Prod.mk.injEq, true_and] at h
      exact ⟨stL, stC, rfl, rfl, hsim, h.1, h.2⟩
    | some rInsn =>
      dsimp only
      rw [hsim.visited]
      by_cases hvis : stL.VisitedInstruction.contains CurAddr = true
      · rw [if_pos hvis, if_pos hvis, if_pos hvis]
        by_cases hr : rInsn.opType &&& OpRet ≠ 0 ∧ ¬ (rInsn.opType &&& OpCond ≠ 0)
        · rw [if_pos hr]
          by_cases hnext : (doc.RetrieveInstruction (CurAddr + rInsn.length)).isSome = true
          · rw [if_pos ⟨hr, hnext⟩]
            exact ⟨fun h => (by cases h), fun S V h => by cases h⟩
          · rw [if_neg (fun h => hnext h.2)]
            have hnone : doc.RetrieveInstruction (CurAddr + rInsn.length) = none := by
              cases h : doc.RetrieveInstruction (CurAddr + rInsn.length) with
              | none => rfl
              | some i => rw [h] at hnext; exact absurd rfl hnext
            cases fuel with
            | zero => exact ⟨fun _ => rfl, fun S V h => (by cases h)⟩
            | succ fuel =>
              rw [meetsCfgGuard.inner, ComputeFunctionLength.inner, hnone]
              dsimp only
              refine ⟨fun h => (by cases h), fun S V h => ?_⟩
              simp only [Option.some.injEq, Prod.mk.injEq, true_and] at h
              exact ⟨stL, stC, rfl, rfl, hsim, h.1, h.2⟩
        · rw [if_neg hr, if_neg (fun h => hr h.1)]
          exact ih _ stL stC _ _ rfl rfl hsim
      · rw [if_neg hvis, if_neg hvis, if_neg hvis]
        have hsim1 : TraversalSim
            { stL with
              FuncLen := (stL.FuncLen + rInsn.length % 2 ^ 32) % 2 ^ 32
              VisitedInstruction := CurAddr :: stL.VisitedInstruction
              rFunctionLength := (stL.rFunctionLength + rInsn.length % 2 ^ 32) % 2 ^ 16
              rInstructionCounter := (stL.rInstructionCounter + 1) % 2 ^ 16 }
            { stC with
              Addresses := stC.Addresses ++ [CurAddr]
              VisitedInstruction := CurAddr :: stL.VisitedInstruction } :=
          ⟨hsim.stack, rfl, hsim.ret, by
            show stC.Addresses ++ [CurAddr] = (CurAddr :: stL.VisitedInstruction).reverse
            rw [hsim.addresses, List.reverse_cons]⟩
        by_cases hj : rInsn.opType &&& OpJump ≠ 0
        · rw [if_pos hj, if_pos hj, if_pos hj]
          by_cases hc : rInsn.opType &&& OpCond ≠ 0
          · rw [if_pos hc, if_pos hc]
            by_cases hm : (rInsn.Operand 0).type &&& O_MEM ≠ 0
            · rw [if_pos hm]
              exact ⟨fun h => (by cases h), fun S V h => by cases h⟩
            · rw [if_neg hm, if_neg hm, if_neg hm]
              cases href : rInsn.GetOperandReference 0 CurAddr with
              | none => exact ⟨fun h => (by cases h), fun S V h => by cases h⟩
              | some DstAddr =>
                dsimp only
                rw [if_pos hc]
                refine (ih DstAddr _ _ _ _ rfl rfl ?_)
                exact ⟨by show _ :: stC.CallStack = _ :: stL.CallStack; rw [hsim.stack], rfl,
                  hsim.ret, hsim1.addresses⟩
          · rw [if_neg hc, if_neg hc]
            by_cases hm : (rInsn.Operand 0).type &&& O_MEM ≠ 0
            · rw [if_pos hm, if_pos hm, if_pos hm]
              refine ⟨fun h => (by cases h), fun S V h => ?_⟩
              simp only [Option.some.injEq, Prod.mk.injEq, true_and] at h
              exact ⟨_, _, rfl, rfl, hsim1, h.1, h.2⟩
            · rw [if_neg hm, if_neg hm, if_neg hm]
              cases href : rInsn.GetOperandReference 0 CurAddr with
              | none =>
                dsimp only
                refine ⟨fun h => (by cases h), fun S V h => ?_⟩
                simp only [Option.some.injEq, Prod.mk.injEq, true_and] at h
                exact ⟨_, _, rfl, rfl, hsim1, h.1, h.2⟩
              | some DstAddr =>
                dsimp only
                rw [if_neg hc]
                refine (ih DstAddr _ _ _ _ rfl rfl ?_)
                exact ⟨hsim.stack, rfl, hsim.ret, hsim1.addresses⟩
        · rw [if_neg hj, if_neg hj, if_neg hj]
          by_cases hr : rInsn.opType &&& OpRet ≠ 0 ∧ ¬ (rInsn.opType &&& OpCond ≠ 0)
          · rw [if_pos hr, if_pos hr, if_pos hr]
            refine ⟨fun h => (by cases h), fun S V h => ?_⟩
            simp only [Option.some.injEq, Prod.mk.injEq, true_and] at h
            exact ⟨_, _, rfl, rfl, ⟨hsim.stack, rfl, rfl, hsim1.addresses⟩, h.1, h.2⟩
          · rw [if_neg hr, if_neg hr, if_neg hr]
            rw [if_neg (fun h : (0 : Nat) ≠ 0 ∧ _ => h.1 rfl)]
            refine (ih _ _ _ _ _ rfl rfl ?_)
            exact hsim1

/-- The outer loops of the two traversals and of `meetsCfgGuard` run in step. -/
theorem meetsCfgGuard.outer_spec (doc : Document) :
    ∀ (fuel : Nat) (stL : LengthState) (stC : CfgState) (S0 V0 : List Address),
      S0 = stL.CallStack → V0 = stL.VisitedInstruction → TraversalSim stL stC →
      (meetsCfgGuard.outer doc fuel S0 V0 = none →
        ComputeFunctionLength.outer doc 0 fuel stL = none) ∧
      (meetsCfgGuard.outer doc fuel S0 V0 = some false →
        ∃ stL2 stC2,
          ComputeFunctionLength.outer doc 0 fuel stL = some (stL2.RetReached, stL2) ∧
          BuildControlFlowGraph.outer doc fuel stC = some stC2 ∧ TraversalSim stL2 stC2) := by
  intro fuel
  induction fuel with
  | zero =>
    intro stL stC S0 V0 _ _ _
    exact ⟨fun _ => rfl, fun h => (by cases h)⟩
  | succ fuel ih =>
    intro stL stC S0 V0 hS hV hsim
    subst hS hV
    rw [ComputeFunctionLength.outer, BuildControlFlowGraph.outer, hsim.stack]
    cases hs : stL.CallStack with
    | nil =>
      rw [meetsCfgGuard.outer]
      dsimp only
      exact ⟨fun h => (by cases h), fun _ => ⟨stL, stC, rfl, rfl, hsim⟩⟩
    | cons CurAddr rest =>
      rw [meetsCfgGuard.outer]
      dsimp only
      obtain ⟨i1, i2⟩ := meetsCfgGuard.inner_spec doc fuel CurAddr
        { stL with CallStack := rest } { stC with CallStack := rest } rest
        stL.VisitedInstruction rfl rfl ⟨rfl, hsim.visited, hsim.ret, hsim.addresses⟩
      cases hmon : meetsCfgGuard.inner doc fuel CurAddr rest stL.VisitedInstruction with
      | none =>
        rw [i1 hmon]
        exact ⟨fun _ => rfl, fun h => (by cases h)⟩
      | some r =>
        obtain ⟨b, S, V⟩ := r
        cases b with
        | true =>
          dsimp only
          exact ⟨fun h => (by cases h), fun h => (by cases h)⟩
        | false =>
          obtain ⟨stL2, stC2, e1, e2, e3, e4, e5⟩ := i2 S V hmon
          rw [e1, e2]
          dsimp only
          exact ih stL2 stC2 S V e4.symm e5.symm e3

/-- C21, corrected. `BuildControlFlowGraph` performs the same traversal as
`ComputeFunctionLength` with threshold 0 on every walk that does not re-enter an already
visited unconditional return that is followed by code and visits no conditional jump whose
operand 0 is memory-indirect or does not resolve. Whether a walk does is decided within the
iteration budget. When it does not, then for a mapped start address that is not Imported both
traversals return; the addresses `BuildControlFlowGraph` collects, which are the addresses of
the vertices of its graph, are the distinct instructions `ComputeFunctionLength` visits, in
the order of the visits; their number modulo `2^16` is the instruction count delivered; and
the two flags are equal. -/
theorem C21_same_traversal (doc : Document) (start : Address) (fuel : Nat)
    (hmapped : (doc.GetMemoryArea start).isSome = true)
    (himp : (doc.GetLabelFromAddress start).GetType &&& Label.Imported = 0) :
    (doc.codeHasLength = true → ComputeFunctionLength.budget doc ≤ fuel →
      ∃ b, meetsCfgGuard fuel doc start = some b) ∧
    (meetsCfgGuard fuel doc start = some false →
      ∃ res len cnt stL stC cfg,
        ComputeFunctionLength.outer doc 0 fuel (LengthState.initial start) = some (res, stL) ∧
        ComputeFunctionLength fuel doc start 0 = some (res, len, cnt) ∧
        BuildControlFlowGraph.outer doc fuel (CfgState.initial start) = some stC ∧
        BuildControlFlowGraph fuel doc start ⟨[], []⟩ = some (res, cfg) ∧
        stC.Addresses = stL.VisitedInstruction.reverse ∧
        cfg.vertices.flatten = stC.Addresses ∧
        stC.Addresses.Nodup ∧
        cnt = stC.Addresses.length % 2 ^ 16) := by
  obtain ⟨o1, o2⟩ := meetsCfgGuard.outer_spec doc fuel (LengthState.initial start)
    (CfgState.initial start) [start] [] rfl rfl ⟨rfl, rfl, rfl, rfl⟩
  constructor
  · intro hlen hfuel
    obtain ⟨stL, hout, -⟩ := ComputeFunctionLength.outer_complete doc start hlen fuel
      (LengthState.initial start)
      (by
        simp only [LengthState.initial, List.length_singleton]
        exact budget_bound doc fuel hfuel)
      ⟨fun v hv => (by cases hv), fun v hv => (by cases hv),
        Or.inr (Or.inl (List.mem_singleton.2 rfl))⟩
    cases hm : meetsCfgGuard fuel doc start with
    | some b => exact ⟨b, rfl⟩
    | none =>
      rw [o1 hm] at hout
      cases hout
  · intro hwalk
    obtain ⟨stL, stC, hout, hcfg, hsim⟩ := o2 hwalk
    obtain ⟨hcfl, hnodup, -, hcount, -⟩ := ComputeFunctionLength.counts fuel doc start 0 _ stL
      hmapped himp hout
    obtain ⟨cfg, hb1, hb2⟩ := BuildControlFlowGraph_of_outer fuel doc start stC hmapped hcfg
    refine ⟨_, _, _, stL, stC, cfg, hout, hcfl, hcfg, ?_, hsim.addresses, hb2, ?_, ?_⟩
    · rw [hb1, hsim.ret]
    · rw [hsim.addresses]
      exact List.nodup_reverse.2 hnodup
    · rw [hcount, hsim.addresses, List.length_reverse]

/-- C21, at concrete inputs. On the diamond `jz 0:1003; nop; ret` the walk meets no guard,
and both traversals visit `0:1000`, `0:1003` and `0:1002` in this order, count three
instructions and succeed. On `nop; ret; nop; ret`, whose first return is followed by code but
is not re-entered, the walk meets no guard either, and both traversals visit `0:1000` and
`0:1001` and succeed. -/
theorem C21_same_traversal_witness :
    (diamondDoc.GetMemoryArea ⟨0, 1000⟩).isSome = true ∧
    (diamondDoc.GetLabelFromAddress ⟨0, 1000⟩).GetType &&& Label.Imported = 0 ∧
    diamondDoc.codeHasLength = true ∧
    (∃ b, meetsCfgGuard (ComputeFunctionLength.budget diamondDoc) diamondDoc ⟨0, 1000⟩ =
      some b) ∧
    meetsCfgGuard 10 diamondDoc ⟨0, 1000⟩ = some false ∧
    (∃ res len cnt stL stC cfg,
      ComputeFunctionLength.outer diamondDoc 0 10 (LengthState.initial ⟨0, 1000⟩) =
        some (res, stL) ∧
      ComputeFunctionLength 10 diamondDoc ⟨0, 1000⟩ 0 = some (res, len, cnt) ∧
      BuildControlFlowGraph.outer diamondDoc 10 (CfgState.initial ⟨0, 1000⟩) = some stC ∧
      BuildControlFlowGraph 10 diamondDoc ⟨0, 1000⟩ ⟨[], []⟩ = some (res, cfg) ∧
      stC.Addresses = stL.VisitedInstruction.reverse ∧
      cfg.vertices.flatten = stC.Addresses ∧
      stC.Addresses.Nodup ∧
      cnt = stC.Addresses.length % 2 ^ 16) ∧
    ComputeFunctionLength 10 diamondDoc ⟨0, 1000⟩ 0 = some (true, 4, 3) ∧
    (BuildControlFlowGraph 10 diamondDoc ⟨0, 1000⟩ ⟨[], []⟩).map
      (fun r => (r.1, r.2.vertices.flatten)) =
        some (true, [⟨0, 1000⟩, ⟨0, 1003⟩, ⟨0, 1002⟩]) ∧
    meetsCfgGuard 10 retMidDoc ⟨0, 1000⟩ = some false ∧
    (∃ res len cnt stL stC cfg,
      ComputeFunctionLength.outer retMidDoc 0 10 (LengthState.initial ⟨0, 1000⟩) =
        some (res, stL) ∧
      ComputeFunctionLength 10 retMidDoc ⟨0, 1000⟩ 0 = some (res, len, cnt) ∧
      BuildControlFlowGraph.outer retMidDoc 10 (CfgState.initial ⟨0, 1000⟩) = some stC ∧
      BuildControlFlowGraph 10 retMidDoc ⟨0, 1000⟩ ⟨[], []⟩ = some (res, cfg) ∧
      stC.Addresses = stL.VisitedInstruction.reverse ∧
      cfg.vertices.flatten = stC.Addresses ∧
      stC.Addresses.Nodup ∧
      cnt = stC.Addresses.length % 2 ^ 16) ∧
    (BuildControlFlowGraph 10 retMidDoc ⟨0, 1000⟩ ⟨[], []⟩).map
      (fun r => (r.1, r.2.vertices.flatten)) = some (true, [⟨0, 1000⟩, ⟨0, 1001⟩]) :=
  ⟨by decide, by decide, by decide,
    (C21_same_traversal diamondDoc ⟨0, 1000⟩ (ComputeFunctionLength.budget diamondDoc)
      (by decide) (by decide)).1 (by decide) (le_refl _),
    by decide,
    (C21_same_traversal diamondDoc ⟨0, 1000⟩ 10 (by decide) (by decide)).2 (by decide),
    by decide, by decide, by decide,
    (C21_same_traversal retMidDoc ⟨0, 1000⟩ 10 (by decide) (by decide)).2 (by decide),
    by decide⟩

/-- C21, counterexample to the claim as written. When the walk re-enters the already visited
`ret` at `0:1002` of `jz 0:1003; ret; jmp 0:1002; ret`, `BuildControlFlowGraph` ends the
path and has collected three addresses, while `ComputeFunctionLength` steps over the return,
reaches the `ret` at `0:1005` and counts four instructions. On `jz [mem]; ret; ret`, whose
conditional jump is memory-indirect, `ComputeFunctionLength` follows the fall-through, counts
two instructions and succeeds, while `BuildControlFlowGraph` collects one address and
fails. Both walks meet a guard. -/
theorem C21_counterexample :
    ComputeFunctionLength 10 reentryDoc ⟨0, 1000⟩ 0 = some (true, 6, 4) ∧
    (BuildControlFlowGraph.outer reentryDoc 10 (CfgState.initial ⟨0, 1000⟩)).map
      (fun st => (st.RetReached, st.Addresses)) =
        some (true, [⟨0, 1000⟩, ⟨0, 1003⟩, ⟨0, 1002⟩]) ∧
    (BuildControlFlowGraph 10 reentryDoc ⟨0, 1000⟩ ⟨[], []⟩).map
      (fun r => (r.1, r.2.vertices.flatten)) =
        some (true, [⟨0, 1000⟩, ⟨0, 1003⟩, ⟨0, 1002⟩]) ∧
    ComputeFunctionLength 10 memJumpDoc ⟨0, 1000⟩ 0 = some (true, 3, 2) ∧
    (BuildControlFlowGraph 10 memJumpDoc ⟨0, 1000⟩ ⟨[], []⟩).map
      (fun r => (r.1, r.2.vertices.flatten)) = some (false, [⟨0, 1000⟩]) ∧
    meetsCfgGuard 10 reentryDoc ⟨0, 1000⟩ = some true ∧
    meetsCfgGuard 10 memJumpDoc ⟨0, 1000⟩ = some true := by
  refine ⟨by decide, by decide, by decide, by decide, by decide, by decide, by decide⟩

end Medusa
